import Mathlib

set_option autoImplicit false

/-!
# libgraph: adjacency-list graphs, vertex lists and traversal algorithms

A shallow embedding of `src/libgraph` (graph.c, vlist.c, algorithms.c).

* A pointer to a vertex (`vertex_t*`) is represented by its offset, counted in
  vertices, from the base of the graph's vertex array `g->vertices`; the
  pointer `&g->vertices[i]` is the integer `i`.
* The singly linked edge list of a vertex is a `List edge_t` in link order
  (first element = `v->edges`).
* The doubly linked vertex list is the sequence of the vertex pointers held by
  its nodes, from `head` to `tail`, together with the stored `length` field.
  This level is used by the traversals. The namespace `Ptr` holds the same
  list functions on the nodes and their `prev`/`next` links, with `calloc`
  allowed to fail and `length` wrapping at 2^32; the properties of the list
  as a stack, as a queue and of its `length` field are proved there.
* `printf` output of the traversals is the sequence of printed vertex indices.
* `calloc` is assumed to succeed.
* A C string is a `List Char` without the terminator, `NULL` is `none`. The
  file read by `graph_from_file` is the list of lines `getline` returns, and
  the two `sscanf` calls are parameters of the model.
* `unsigned int`, `int` and `long` values are unbounded naturals / integers:
  the conversions between them in the source are exact for graphs with fewer
  than 2^31 vertices.
-/

namespace LibGraph

/-! ## Result codes (graph.h, vlist.h) -/

abbrev SUCCESS : Int := 0
abbrev ENOMEM : Int := -1
abbrev EINDEX : Int := -2
abbrev ENOTFOUND : Int := -3
abbrev EFILE : Int := -4
abbrev EPARSE : Int := -5
abbrev EINVAL : Int := -6
abbrev EEMPTY : Int := -128

/-! ## Outcome of running a C function -/

/-- Outcome of a run: the function returned (`ret`), an `assert` failed and the
process aborted (`abort`), memory outside an allocated object was accessed
(`fault`), or the step budget of the model ran out (`nofuel`). -/
inductive Run (α : Type) where
  | ret (a : α)
  | abort
  | fault
  | nofuel
deriving DecidableEq, Repr

/-- Sequencing of runs: anything but `ret` stops the computation. -/
def Run.bind {α β : Type} (x : Run α) (f : α → Run β) : Run β :=
  match x with
  | .ret a => f a
  | .abort => .abort
  | .fault => .fault
  | .nofuel => .nofuel

/-! ## Data structures (graph.h, vlist.h) -/

/-- An edge `edge_t`: pointer to the target vertex (`to`) and the weight; the `next`
link is the tail of the list the edge sits in. -/
structure edge_t where
  to_ : Int
  weight : Rat
deriving DecidableEq, Repr

/-- A vertex `vertex_t`: optional label (`NULL` = `none`) and edge list. -/
structure vertex_t where
  label : Option (List Char)
  edges : List edge_t
deriving DecidableEq, Repr

/-- A graph `graph_t`: the vertex count and the vertex array. -/
structure graph_t where
  n_vertices : Nat
  vertices : List vertex_t
deriving DecidableEq, Repr

/-- A vertex list `vlist_t`: stored `length` and the vertex pointers of the
nodes from `head` to `tail`. -/
structure vlist_t where
  length : Nat
  nodes : List Int
deriving DecidableEq, Repr

/-- The vertex a valid vertex pointer points to (`*v`); a zeroed vertex stands
for memory outside the array, which the code never dereferences. -/
def vertex_of (g : graph_t) (v : Int) : vertex_t :=
  g.vertices.getD v.toNat ⟨none, []⟩

/-! ## graph.c -/

/-- `graph_init(g, n)`: return code and the graph after the call (`calloc`
zeroes the array: no labels, no edges). -/
def graph_init (g : graph_t) (n : Nat) : Int × graph_t :=
  if n = 0 then (EINVAL, g)
  else (SUCCESS, ⟨n, List.replicate n ⟨none, []⟩⟩)

/-- `graph_get_vertex(g, i, &v)`: return code and the pointer stored in `*v`. -/
def graph_get_vertex (g : graph_t) (i : Nat) : Int × Option Int :=
  if i ≥ g.n_vertices then (EINDEX, none)
  else (SUCCESS, some (i : Int))

/-- `graph_vertex_index(g, v)`: pointer difference `v - g->vertices`, or
`ENOTFOUND` when it is outside `[0, n_vertices)`. -/
def graph_vertex_index (g : graph_t) (v : Int) : Int :=
  let i := v
  if i < 0 ∨ i ≥ (g.n_vertices : Int) then ENOTFOUND else i

/-- `graph_add_edge(g, from, to, weight)`: return code and updated graph. -/
def graph_add_edge (g : graph_t) (from_ to_ : Nat) (weight : Rat) : Int × graph_t :=
  if from_ ≥ g.n_vertices ∨ to_ ≥ g.n_vertices then (EINDEX, g)
  else
    let from_v := vertex_of g from_
    let e : edge_t := ⟨(to_ : Int), weight⟩
    (SUCCESS, { g with vertices := g.vertices.set from_ { from_v with edges := e :: from_v.edges } })

/-- `graph_set_label(g, i, label)`: `strndup(label, MAX_LABEL_LEN)` keeps the first
100 characters. -/
def graph_set_label (g : graph_t) (i : Nat) (label : Option (List Char)) : Int × graph_t :=
  if i ≥ g.n_vertices then (EINDEX, g)
  else
    let v := vertex_of g i
    match label with
    | none => (SUCCESS, { g with vertices := g.vertices.set i { v with label := none } })
    | some s => (SUCCESS, { g with vertices := g.vertices.set i { v with label := some (s.take 100) } })

/-- The search loop of `graph_get_edge` (`while(*e != NULL)`): the first edge
of the list whose target pointer is `to_v`, `none` for `NULL`. -/
def graph_get_edge_loop (to_v : Int) : List edge_t → Option edge_t
  | [] => none
  | e :: rest => if e.to_ = to_v then some e else graph_get_edge_loop to_v rest

/-- `graph_get_edge(g, from, to, &e)`: return code and the edge `*e` points to
(`none` for `NULL`, and when `*e` is not written). -/
def graph_get_edge (g : graph_t) (from_ to_ : Nat) : Int × Option edge_t :=
  if from_ ≥ g.n_vertices ∨ to_ ≥ g.n_vertices then (EINDEX, none)
  else
    let from_v := vertex_of g from_
    let to_v : Int := (to_ : Int)
    (SUCCESS, graph_get_edge_loop to_v from_v.edges)

/-- `graph_is_vertex_adjacent(g, from, to, weight)`: returned value and the
content of `*weight` after the call; the argument `weight` is `none` for a
`NULL` pointer and `some x` for a pointer to a double holding `x`. -/
def graph_is_vertex_adjacent (g : graph_t) (from_ to_ : Nat) (weight : Option Rat) :
    Int × Option Rat :=
  let r := graph_get_edge g from_ to_
  if r.1 = EINDEX then (EINDEX, weight)
  else
    match r.2 with
    | none => (0, weight)
    | some e =>
      match weight with
      | none => (1, none)
      | some _ => (1, some e.weight)

/-- The edge loop of `graph_num_vertex_with_loops` (`while(e != NULL)`) for the
vertex with pointer `self`: `true` when it leaves through `break`. -/
def graph_num_vertex_with_loops_edges (self : Int) : List edge_t → Bool
  | [] => false
  | e :: rest =>
    if e.to_ = self then true else graph_num_vertex_with_loops_edges self rest

/-- The vertex loop of `graph_num_vertex_with_loops`, run on the remaining
indices; threads `n_with_loops`. -/
def graph_num_vertex_with_loops_from (g : graph_t) : List Nat → Int → Int
  | [], n_with_loops => n_with_loops
  | i :: rest, n_with_loops =>
    if graph_num_vertex_with_loops_edges (i : Int) (vertex_of g (i : Int)).edges then
      graph_num_vertex_with_loops_from g rest (n_with_loops + 1)
    else graph_num_vertex_with_loops_from g rest n_with_loops

/-- `graph_num_vertex_with_loops(g)`. -/
def graph_num_vertex_with_loops (g : graph_t) : Int :=
  graph_num_vertex_with_loops_from g (List.range g.n_vertices) 0

/-- `strncmp(s1, s2, n) == 0` on C strings: the first `n` characters of both
agree (strings shorter than `n` must be equal); reading through a `NULL`
pointer is a fault. -/
def strncmp_eq (s1 s2 : Option (List Char)) (n : Nat) : Run Bool :=
  match s1, s2 with
  | some a, some b => .ret (decide (a.take n = b.take n))
  | _, _ => .fault

/-- The loop of `graph_label_to_index`, run on the remaining indices. -/
def graph_label_to_index_from (g : graph_t) (label : Option (List Char)) : List Nat → Run Int
  | [] => .ret ENOTFOUND
  | i :: rest =>
    (strncmp_eq (vertex_of g (i : Int)).label label 100).bind fun b =>
    if b then .ret (i : Int) else graph_label_to_index_from g label rest

/-- `graph_label_to_index(g, label)`; `label` is `none` for a `NULL` pointer. -/
def graph_label_to_index (g : graph_t) (label : Option (List Char)) : Run Int :=
  graph_label_to_index_from g label (List.range g.n_vertices)

/-- `graph_get_vertex_lbl(g, label, &v)`: return code and the pointer stored in `*v`. -/
def graph_get_vertex_lbl (g : graph_t) (label : Option (List Char)) : Run (Int × Option Int) :=
  (graph_label_to_index g label).bind fun i =>
  if i = ENOTFOUND then .ret (ENOTFOUND, none)
  else .ret (graph_get_vertex g i.toNat)

/-- `graph_add_edge_lbl(g, from, to, weight)`: return code and updated graph. -/
def graph_add_edge_lbl (g : graph_t) (from_ to_ : Option (List Char)) (weight : Rat) :
    Run (Int × graph_t) :=
  (graph_label_to_index g from_).bind fun from_i =>
  if from_i = ENOTFOUND then .ret (ENOTFOUND, g)
  else
    (graph_label_to_index g to_).bind fun to_i =>
    if to_i = ENOTFOUND then .ret (ENOTFOUND, g)
    else .ret (graph_add_edge g from_i.toNat to_i.toNat weight)

/-- The header test of `graph_from_file` on the first line as `getline` returns
it: the last character is overwritten by the terminator, then the line is
compared with `strncmp` over 10 and 8 characters. `some true` for undirected,
`some false` for directed, `none` for the `EPARSE` exit. -/
def graph_from_file_header (line : List Char) : Option Bool :=
  let line := line.dropLast
  if line.take 10 = "undirected".toList.take 10 then some true
  else if line.take 8 = "directed".toList.take 8 then some false
  else none

/-- The vertex-label loop of `graph_from_file` on the remaining indices and the
lines `getline` still has to return: `some EPARSE` when the file ends early,
the graph after the loop, and the lines left. A trailing newline is removed
from each label line. -/
def graph_from_file_labels (g : graph_t) :
    List Nat → List (List Char) → Option Int × graph_t × List (List Char)
  | [], lines => (none, g, lines)
  | _ :: _, [] => (some EPARSE, g, [])
  | i :: rest, line :: lines =>
    let line := if line.getLast? = some '\n' then line.dropLast else line
    graph_from_file_labels (graph_set_label g i (some line)).2 rest lines

/-- The edge loop of `graph_from_file` with `n` iterations to go; `sscanf_ssf`
is the result of `sscanf(line, "%100s %100s %lf", ...)` when all three fields
are read. Only `ENOTFOUND` from `graph_add_edge_lbl` ends the loop. -/
def graph_from_file_edges (sscanf_ssf : List Char → Option (List Char × List Char × Rat))
    (undirected : Bool) : Nat → graph_t → List (List Char) → Run (Int × graph_t)
  | 0, g, _ => .ret (SUCCESS, g)
  | _ + 1, g, [] => .ret (EPARSE, g)
  | n + 1, g, line :: lines =>
    match sscanf_ssf line with
    | none => .ret (EPARSE, g)
    | some (label1, label2, weight) =>
      (graph_add_edge_lbl g (some label1) (some label2) weight).bind fun r =>
      if r.1 = ENOTFOUND then .ret (EPARSE, r.2)
      else if undirected then
        (graph_add_edge_lbl r.2 (some label2) (some label1) weight).bind fun r2 =>
        if r2.1 = ENOTFOUND then .ret (EPARSE, r2.2)
        else graph_from_file_edges sscanf_ssf undirected n r2.2 lines
      else graph_from_file_edges sscanf_ssf undirected n r.2 lines

/-- `graph_from_file(g, filename)`: return code and the graph after the call.
The C library is a parameter: `file` is `none` when `fopen` returns `NULL`,
otherwise the lines of the file as successive `getline` calls return them
(each with its newline, the last one possibly without); `sscanf_ii` is the
result of `sscanf(line, "%i %i", ...)` when both counts are read, `sscanf_ssf`
that of the edge-line scan. -/
def graph_from_file (sscanf_ii : List Char → Option (Nat × Nat))
    (sscanf_ssf : List Char → Option (List Char × List Char × Rat))
    (g : graph_t) (file : Option (List (List Char))) : Run (Int × graph_t) :=
  match file with
  | none => .ret (EFILE, g)
  | some [] => .ret (EPARSE, g)
  | some (line :: lines) =>
    match graph_from_file_header line with
    | none => .ret (EPARSE, g)
    | some undirected =>
      match lines with
      | [] => .ret (EPARSE, g)
      | line :: lines =>
        match sscanf_ii line with
        | none => .ret (EPARSE, g)
        | some (n_vertices, n_edges) =>
          if n_vertices = 0 then .ret (EPARSE, g)
          else
            let r := graph_init g n_vertices
            if r.1 = ENOMEM then .ret (ENOMEM, r.2)
            else if r.1 = EINVAL then .ret (EPARSE, r.2)
            else
              match graph_from_file_labels r.2 (List.range n_vertices) lines with
              | (some rc, g, _) => .ret (rc, g)
              | (none, g, lines) => graph_from_file_edges sscanf_ssf undirected n_edges g lines

/-! ## vlist.c -/

/-- `vlist_init(l)`. -/
def vlist_init : Int × vlist_t := (SUCCESS, ⟨0, []⟩)

/-- `vlist_insert_head(l, v)` on the sequence of vertex pointers. The counter is
not wrapped here: this level serves the traversals, whose lists never hold
more than `n_vertices` nodes; `Ptr.vlist_insert_head` has the `unsigned int`. -/
def vlist_insert_head (l : vlist_t) (v : Int) : Int × vlist_t :=
  (SUCCESS, ⟨l.length + 1, v :: l.nodes⟩)

/-- `vlist_insert_tail(l, v)` on the sequence of vertex pointers, the counter
not wrapped, as for `vlist_insert_head`. -/
def vlist_insert_tail (l : vlist_t) (v : Int) : Int × vlist_t :=
  (SUCCESS, ⟨l.length + 1, l.nodes ++ [v]⟩)

/-- `vlist_remove_head(l, &v)`: return code, updated list, and the pointer
stored in `*v`. Reading `l->head->v` with no head node is a fault. -/
def vlist_remove_head (l : vlist_t) : Run (Int × vlist_t × Option Int) :=
  if l.length = 0 then .ret (EEMPTY, l, none)
  else
    match l.nodes with
    | [] => .fault
    | v :: rest => .ret (SUCCESS, ⟨l.length - 1, rest⟩, some v)

/-- `vlist_remove_tail(l, &v)`: return code, updated list, and the pointer
stored in `*v`. Reading `l->tail->v` with no tail node is a fault. -/
def vlist_remove_tail (l : vlist_t) : Run (Int × vlist_t × Option Int) :=
  if l.length = 0 then .ret (EEMPTY, l, none)
  else
    match l.nodes.getLast? with
    | none => .fault
    | some v => .ret (SUCCESS, ⟨l.length - 1, l.nodes.dropLast⟩, some v)

/-- `vlist_enqueue(l, v)`. -/
def vlist_enqueue (l : vlist_t) (v : Int) : Int × vlist_t := vlist_insert_head l v

/-- `vlist_dequeue(l, &v)`. -/
def vlist_dequeue (l : vlist_t) : Run (Int × vlist_t × Option Int) := vlist_remove_tail l

/-- `vlist_push(l, v)`. -/
def vlist_push (l : vlist_t) (v : Int) : Int × vlist_t := vlist_insert_head l v

/-- `vlist_pop(l, &v)`. -/
def vlist_pop (l : vlist_t) : Run (Int × vlist_t × Option Int) := vlist_remove_head l

/-- `vlist_peek_head(l, &v)`: return code, the list after the call, and the
pointer stored in `*v`. Reading `l->head->v` with no head node is a fault. -/
def vlist_peek_head (l : vlist_t) : Run (Int × vlist_t × Option Int) :=
  if l.length = 0 then .ret (EEMPTY, l, none)
  else
    match l.nodes with
    | [] => .fault
    | v :: _ => .ret (SUCCESS, l, some v)

/-- `vlist_peek_tail(l, &v)`: return code, the list after the call, and the
pointer stored in `*v`. Reading `l->tail->v` with no tail node is a fault. -/
def vlist_peek_tail (l : vlist_t) : Run (Int × vlist_t × Option Int) :=
  if l.length = 0 then .ret (EEMPTY, l, none)
  else
    match l.nodes.getLast? with
    | none => .fault
    | some v => .ret (SUCCESS, l, some v)

/-! ### vlist.c at the level of nodes and links

The same functions on the doubly linked representation itself: a node pointer
is an address in a heap of nodes, `NULL` is `none`. `calloc` returns an address
that was never used before (or fails), `free` empties the cell, and reading or
writing through a pointer to an empty cell is a fault. The `length` field is
an `unsigned int` and wraps at 2^32. -/

namespace Ptr

/-- A node `vlist_node_t`: the vertex pointer and the two links. -/
structure vlist_node_t where
  v : Int
  prev : Option Nat
  next : Option Nat
deriving DecidableEq, Repr

/-- A list header `vlist_t`: `length`, `head`, `tail`. -/
structure vlist_t where
  length : Nat
  head : Option Nat
  tail : Option Nat
deriving DecidableEq, Repr

/-- The node heap: cell `a` holds the node allocated at address `a`, or `none`
once it has been freed. -/
abbrev heap_t := List (Option vlist_node_t)

/-- Dereference a node pointer (`p->...`). -/
def load (h : heap_t) : Option Nat → Run vlist_node_t
  | none => .fault
  | some a =>
    match h.getD a none with
    | none => .fault
    | some n => .ret n

/-- `vlist_init(l)`. -/
def vlist_init (_l : vlist_t) : Int × vlist_t := (SUCCESS, ⟨0, none, none⟩)

/-- `vlist_insert_head(l, v)`; `calloc_ok` tells whether `calloc` succeeds. -/
def vlist_insert_head (h : heap_t) (l : vlist_t) (v : Int) (calloc_ok : Bool) :
    Run (Int × heap_t × vlist_t) :=
  if calloc_ok = false then .ret (ENOMEM, h, l)
  else
    let node := h.length
    let h := h ++ [some ⟨v, none, l.head⟩]
    (match l.head with
      | none => Run.ret h
      | some a => (load h (some a)).bind fun n =>
        .ret (h.set a (some { n with prev := some node }))).bind fun h =>
    let tail := if l.tail = none then some node else l.tail
    .ret (SUCCESS, h, ⟨(l.length + 1) % 4294967296, some node, tail⟩)

/-- `vlist_insert_tail(l, v)`; `calloc_ok` tells whether `calloc` succeeds. -/
def vlist_insert_tail (h : heap_t) (l : vlist_t) (v : Int) (calloc_ok : Bool) :
    Run (Int × heap_t × vlist_t) :=
  if calloc_ok = false then .ret (ENOMEM, h, l)
  else
    let node := h.length
    let h := h ++ [some ⟨v, l.tail, none⟩]
    (match l.tail with
      | none => Run.ret h
      | some a => (load h (some a)).bind fun n =>
        .ret (h.set a (some { n with next := some node }))).bind fun h =>
    let head := if l.head = none then some node else l.head
    .ret (SUCCESS, h, ⟨(l.length + 1) % 4294967296, head, some node⟩)

/-- `vlist_remove_head(l, &v)`: return code, heap, list and the pointer stored
in `*v`. -/
def vlist_remove_head (h : heap_t) (l : vlist_t) : Run (Int × heap_t × vlist_t × Option Int) :=
  if l.length = 0 then .ret (EEMPTY, h, l, none)
  else
    (load h l.head).bind fun hd =>
    match l.head with
    | none => .fault
    | some node =>
      let head := hd.next
      let h := h.set node none
      match head with
      | some a => (load h (some a)).bind fun n =>
        .ret (SUCCESS, h.set a (some { n with prev := none }),
          ⟨l.length - 1, head, l.tail⟩, some hd.v)
      | none => .ret (SUCCESS, h, ⟨l.length - 1, none, none⟩, some hd.v)

/-- `vlist_remove_tail(l, &v)`: return code, heap, list and the pointer stored
in `*v`. -/
def vlist_remove_tail (h : heap_t) (l : vlist_t) : Run (Int × heap_t × vlist_t × Option Int) :=
  if l.length = 0 then .ret (EEMPTY, h, l, none)
  else
    (load h l.tail).bind fun tl =>
    match l.tail with
    | none => .fault
    | some node =>
      let tail := tl.prev
      let h := h.set node none
      match tail with
      | some a => (load h (some a)).bind fun n =>
        .ret (SUCCESS, h.set a (some { n with next := none }),
          ⟨l.length - 1, l.head, tail⟩, some tl.v)
      | none => .ret (SUCCESS, h, ⟨l.length - 1, none, none⟩, some tl.v)

/-- `vlist_peek_head(l, &v)`. -/
def vlist_peek_head (h : heap_t) (l : vlist_t) : Run (Int × heap_t × vlist_t × Option Int) :=
  if l.length = 0 then .ret (EEMPTY, h, l, none)
  else (load h l.head).bind fun hd => .ret (SUCCESS, h, l, some hd.v)

/-- `vlist_peek_tail(l, &v)`. -/
def vlist_peek_tail (h : heap_t) (l : vlist_t) : Run (Int × heap_t × vlist_t × Option Int) :=
  if l.length = 0 then .ret (EEMPTY, h, l, none)
  else (load h l.tail).bind fun tl => .ret (SUCCESS, h, l, some tl.v)

/-- `vlist_enqueue(l, v)`. -/
def vlist_enqueue (h : heap_t) (l : vlist_t) (v : Int) (calloc_ok : Bool) :
    Run (Int × heap_t × vlist_t) :=
  vlist_insert_head h l v calloc_ok

/-- `vlist_dequeue(l, &v)`. -/
def vlist_dequeue (h : heap_t) (l : vlist_t) : Run (Int × heap_t × vlist_t × Option Int) :=
  vlist_remove_tail h l

/-- `vlist_push(l, v)`. -/
def vlist_push (h : heap_t) (l : vlist_t) (v : Int) (calloc_ok : Bool) :
    Run (Int × heap_t × vlist_t) :=
  vlist_insert_head h l v calloc_ok

/-- `vlist_pop(l, &v)`. -/
def vlist_pop (h : heap_t) (l : vlist_t) : Run (Int × heap_t × vlist_t × Option Int) :=
  vlist_remove_head h l

/-- The traversal `pn = l->head; while(pn != NULL) pn = pn->next` of
`vlist_free` and `vlist_print`, counting the nodes it passes. -/
def count_next (h : heap_t) : Nat → Option Nat → Run Nat
  | _, none => .ret 0
  | 0, some _ => .nofuel
  | fuel + 1, some a =>
    (load h (some a)).bind fun n => (count_next h fuel n.next).bind fun k => .ret (k + 1)

/-- The same traversal from `l->tail` along the `prev` links. -/
def count_prev (h : heap_t) : Nat → Option Nat → Run Nat
  | _, none => .ret 0
  | 0, some _ => .nofuel
  | fuel + 1, some a =>
    (load h (some a)).bind fun n => (count_prev h fuel n.prev).bind fun k => .ret (k + 1)

/-- A call of one of the list functions. -/
inductive op where
  | insert_head (v : Int) (calloc_ok : Bool)
  | insert_tail (v : Int) (calloc_ok : Bool)
  | remove_head
  | remove_tail
  | peek_head
  | peek_tail
deriving DecidableEq, Repr

/-- The heap and the list after one call. -/
def apply_op (s : heap_t × vlist_t) : op → Run (heap_t × vlist_t)
  | .insert_head v ok => (vlist_insert_head s.1 s.2 v ok).bind fun r => .ret (r.2.1, r.2.2)
  | .insert_tail v ok => (vlist_insert_tail s.1 s.2 v ok).bind fun r => .ret (r.2.1, r.2.2)
  | .remove_head => (vlist_remove_head s.1 s.2).bind fun r => .ret (r.2.1, r.2.2.1)
  | .remove_tail => (vlist_remove_tail s.1 s.2).bind fun r => .ret (r.2.1, r.2.2.1)
  | .peek_head => (vlist_peek_head s.1 s.2).bind fun r => .ret (r.2.1, r.2.2.1)
  | .peek_tail => (vlist_peek_tail s.1 s.2).bind fun r => .ret (r.2.1, r.2.2.1)

/-- The heap and the list after a sequence of calls. -/
def run_ops : List op → heap_t × vlist_t → Run (heap_t × vlist_t)
  | [], s => .ret s
  | o :: ops, s => (apply_op s o).bind (run_ops ops)

end Ptr

/-! ## algorithms.c -/

/-- Read `visited[i]`; an index outside the array is a fault. -/
def visited_get (visited : List Bool) (i : Nat) : Run Bool :=
  match visited[i]? with
  | some b => .ret b
  | none => .fault

/-- Write `visited[i] = b`; an index outside the array is a fault. -/
def visited_set (visited : List Bool) (i : Nat) (b : Bool) : Run (List Bool) :=
  if i < visited.length then .ret (visited.set i b) else .fault

/-- The edge loop of `graph_bfs` (`while(e != NULL)`), run on the edge list
from `e` on; threads `visited`, the queue and `rc`. -/
def graph_bfs_edges (g : graph_t) :
    List edge_t → List Bool → vlist_t → Int → Run (List Bool × vlist_t × Int)
  | [], visited, queue, rc => .ret (visited, queue, rc)
  | e :: es, visited, queue, rc =>
    let v_next := e.to_
    let i_next := graph_vertex_index g v_next
    if i_next < 0 then .abort
    else
      (visited_get visited i_next.toNat).bind fun b =>
      if !b then
        (visited_set visited i_next.toNat true).bind fun visited =>
        let r := vlist_enqueue queue v_next
        graph_bfs_edges g es visited r.2 r.1
      else graph_bfs_edges g es visited queue rc

/-- The main loop of `graph_bfs` (`while(queue.length > 0)`); `fuel` bounds the
number of times the loop condition is evaluated. Returns the final `visited`,
queue and printed indices. -/
def graph_bfs_loop (g : graph_t) :
    Nat → List Bool → vlist_t → List Nat → Run (List Bool × vlist_t × List Nat)
  | 0, _, _, _ => .nofuel
  | fuel + 1, visited, queue, out =>
    if queue.length > 0 then
      (vlist_dequeue queue).bind fun r =>
      if r.1 ≠ SUCCESS then .abort
      else
        match r.2.2 with
        | none => .fault
        | some v =>
          let i := graph_vertex_index g v
          if i < 0 then .abort
          else
            let out := out ++ [i.toNat]
            (graph_bfs_edges g (vertex_of g v).edges visited r.2.1 r.1).bind fun s =>
            if s.2.2 ≠ SUCCESS then .abort
            else graph_bfs_loop g fuel s.1 s.2.1 out
    else .ret (visited, queue, out)

/-- `graph_bfs(g, start)`: return code and the printed vertex indices. -/
def graph_bfs (fuel : Nat) (g : graph_t) (start : Nat) : Run (Int × List Nat) :=
  let visited := List.replicate g.n_vertices false
  let q := vlist_init
  if q.1 ≠ SUCCESS then .ret (q.1, [])
  else
    let r := graph_get_vertex g start
    if r.1 ≠ SUCCESS then .ret (r.1, [])
    else
      match r.2 with
      | none => .fault
      | some v_start =>
        let queue := (vlist_enqueue q.2 v_start).2
        (visited_set visited start true).bind fun visited =>
        (graph_bfs_loop g fuel visited queue []).bind fun s =>
        .ret (SUCCESS, s.2.2)

/-- The edge loop of `graph_dfs_visit`; `visit` stands for the recursive call
`graph_dfs_visit(g, i_next, visited)`. -/
def graph_dfs_visit_edges (visit : Nat → List Bool → List Nat → Run (Int × List Bool × List Nat))
    (g : graph_t) : List edge_t → List Bool → List Nat → Run (List Bool × List Nat)
  | [], visited, out => .ret (visited, out)
  | e :: es, visited, out =>
    let i_next := graph_vertex_index g e.to_
    if i_next < 0 then .abort
    else
      (visited_get visited i_next.toNat).bind fun b =>
      if !b then
        (visited_set visited i_next.toNat true).bind fun visited =>
        (visit i_next.toNat visited out).bind fun r =>
        if r.1 ≠ SUCCESS then .abort
        else graph_dfs_visit_edges visit g es r.2.1 r.2.2
      else graph_dfs_visit_edges visit g es visited out

/-- `graph_dfs_visit(g, i, visited)`: return code, `visited` array after the
call and printed indices (appended to `out`). `fuel` bounds the depth of the
recursion. -/
def graph_dfs_visit (g : graph_t) :
    Nat → Nat → List Bool → List Nat → Run (Int × List Bool × List Nat)
  | 0, _, _, _ => .nofuel
  | fuel + 1, i, visited, out =>
    let r := graph_get_vertex g i
    if r.1 ≠ SUCCESS then .ret (r.1, visited, out)
    else
      match r.2 with
      | none => .fault
      | some v =>
        let out := out ++ [i]
        (graph_dfs_visit_edges (graph_dfs_visit g fuel) g (vertex_of g v).edges visited out).bind
          fun s => .ret (SUCCESS, s.1, s.2)

/-- The restart loop of `graph_dfs` (`for(i = 0; i < g->n_vertices; i++)`), run
on the remaining indices; threads `visited`, the output and `connected`. -/
def graph_dfs_scan (g : graph_t) (fuel : Nat) :
    List Nat → List Bool → List Nat → Nat → Run (List Bool × List Nat × Nat)
  | [], visited, out, connected => .ret (visited, out, connected)
  | i :: rest, visited, out, connected =>
    (visited_get visited i).bind fun b =>
    if !b then
      let connected := connected + 1
      (graph_dfs_visit g fuel i visited out).bind fun r =>
      if r.1 ≠ SUCCESS then .abort
      else graph_dfs_scan g fuel rest r.2.1 r.2.2 connected
    else graph_dfs_scan g fuel rest visited out connected

/-- `graph_dfs(g, start)`: returned value and the printed vertex indices. -/
def graph_dfs (fuel : Nat) (g : graph_t) (start : Nat) : Run (Int × List Nat) :=
  let visited := List.replicate g.n_vertices false
  (visited_set visited start true).bind fun visited =>
  (graph_dfs_visit g fuel start visited []).bind fun r =>
  if r.1 ≠ SUCCESS then .ret (r.1, r.2.2)
  else
    let connected := 1
    (graph_dfs_scan g fuel (List.range g.n_vertices) r.2.1 r.2.2 connected).bind fun s =>
    .ret ((s.2.2 : Int), s.2.1)

/-- The edge loop of `graph_toposort_visit`; `visit` stands for the recursive
call. The first component is `some rc` when the function returns `rc` from
inside the loop. -/
def graph_toposort_visit_edges (visit : Nat → List Bool → vlist_t → Run (Int × List Bool × vlist_t))
    (g : graph_t) : List edge_t → List Bool → vlist_t → Run (Option Int × List Bool × vlist_t)
  | [], visited, l => .ret (none, visited, l)
  | e :: es, visited, l =>
    let i_next := graph_vertex_index g e.to_
    if i_next < 0 then .ret (some i_next, visited, l)
    else
      (visited_get visited i_next.toNat).bind fun b =>
      if !b then
        (visited_set visited i_next.toNat true).bind fun visited =>
        (visit i_next.toNat visited l).bind fun r =>
        if r.1 ≠ SUCCESS then .abort
        else graph_toposort_visit_edges visit g es r.2.1 r.2.2
      else graph_toposort_visit_edges visit g es visited l

/-- `graph_toposort_visit(g, i, visited, l)`: return code, `visited` and the
list after the call. `fuel` bounds the depth of the recursion. -/
def graph_toposort_visit (g : graph_t) :
    Nat → Nat → List Bool → vlist_t → Run (Int × List Bool × vlist_t)
  | 0, _, _, _ => .nofuel
  | fuel + 1, i, visited, l =>
    let r := graph_get_vertex g i
    if r.1 ≠ SUCCESS then .ret (r.1, visited, l)
    else
      match r.2 with
      | none => .fault
      | some v =>
        (graph_toposort_visit_edges (graph_toposort_visit g fuel) g (vertex_of g v).edges
          visited l).bind fun s =>
        match s.1 with
        | some rc => .ret (rc, s.2.1, s.2.2)
        | none => .ret (SUCCESS, s.2.1, (vlist_insert_head s.2.2 v).2)

/-- `graph_toposort(g, start, &l)`: return code and the list `*l`. -/
def graph_toposort (fuel : Nat) (g : graph_t) (start : Nat) : Run (Int × vlist_t) :=
  let visited := List.replicate g.n_vertices false
  let l := vlist_init
  if l.1 ≠ SUCCESS then .ret (l.1, l.2)
  else
    (visited_set visited start true).bind fun visited =>
    (graph_toposort_visit g fuel start visited l.2).bind fun r =>
    if r.1 ≠ SUCCESS then .ret (r.1, r.2.2)
    else .ret (SUCCESS, r.2.2)

/-- The edge loop of `graph_dfs_iter`; threads `visited`, the stack and `rc`. -/
def graph_dfs_iter_edges (g : graph_t) :
    List edge_t → List Bool → vlist_t → Int → Run (List Bool × vlist_t × Int)
  | [], visited, stack, rc => .ret (visited, stack, rc)
  | e :: es, visited, stack, rc =>
    let v_next := e.to_
    let i_next := graph_vertex_index g v_next
    if i_next < 0 then .abort
    else
      (visited_get visited i_next.toNat).bind fun b =>
      if !b then
        (visited_set visited i_next.toNat true).bind fun visited =>
        let r := vlist_push stack v_next
        graph_dfs_iter_edges g es visited r.2 r.1
      else graph_dfs_iter_edges g es visited stack rc

/-- The main loop of `graph_dfs_iter` (`while(stack.length > 0)`); `fuel`
bounds the number of times the loop condition is evaluated. -/
def graph_dfs_iter_loop (g : graph_t) :
    Nat → List Bool → vlist_t → List Nat → Run (List Bool × vlist_t × List Nat)
  | 0, _, _, _ => .nofuel
  | fuel + 1, visited, stack, out =>
    if stack.length > 0 then
      (vlist_pop stack).bind fun r =>
      if r.1 ≠ SUCCESS then .abort
      else
        match r.2.2 with
        | none => .fault
        | some v =>
          let i := graph_vertex_index g v
          if i < 0 then .abort
          else
            let out := out ++ [i.toNat]
            (graph_dfs_iter_edges g (vertex_of g v).edges visited r.2.1 r.1).bind fun s =>
            if s.2.2 ≠ SUCCESS then .abort
            else graph_dfs_iter_loop g fuel s.1 s.2.1 out
    else .ret (visited, stack, out)

/-- `graph_dfs_iter(g, start)`: return code and the printed vertex indices. -/
def graph_dfs_iter (fuel : Nat) (g : graph_t) (start : Nat) : Run (Int × List Nat) :=
  let visited := List.replicate g.n_vertices false
  let q := vlist_init
  if q.1 ≠ SUCCESS then .ret (q.1, [])
  else
    let r := graph_get_vertex g start
    if r.1 ≠ SUCCESS then .ret (r.1, [])
    else
      match r.2 with
      | none => .fault
      | some v_start =>
        let stack := (vlist_push q.2 v_start).2
        (visited_set visited start true).bind fun visited =>
        (graph_dfs_iter_loop g fuel visited stack []).bind fun s =>
        .ret (SUCCESS, s.2.2)

/-- The edge loop of `graph_spanning_tree_visit`; `visit` stands for the
recursive call. Threads `visited`, the tree and the printed `from to` pairs;
the first component is `some rc` when the function returns `rc` from inside
the loop. -/
def graph_spanning_tree_visit_edges
    (visit : Nat → List Bool → graph_t → List (Nat × Nat) → Run (Int × List Bool × graph_t × List (Nat × Nat)))
    (g : graph_t) (i : Nat) :
    List edge_t → List Bool → graph_t → List (Nat × Nat) →
      Run (Option Int × List Bool × graph_t × List (Nat × Nat))
  | [], visited, tree, out => .ret (none, visited, tree, out)
  | e :: es, visited, tree, out =>
    let i_next := graph_vertex_index g e.to_
    if i_next < 0 then .ret (some i_next, visited, tree, out)
    else
      (visited_get visited i_next.toNat).bind fun b =>
      if !b then
        (visited_set visited i_next.toNat true).bind fun visited =>
        let out := out ++ [(i, i_next.toNat)]
        let a := graph_add_edge tree i i_next.toNat e.weight
        if a.1 ≠ SUCCESS then .abort
        else
          (visit i_next.toNat visited a.2 out).bind fun r =>
          if r.1 ≠ SUCCESS then .abort
          else graph_spanning_tree_visit_edges visit g i es r.2.1 r.2.2.1 r.2.2.2
      else graph_spanning_tree_visit_edges visit g i es visited tree out

/-- `graph_spanning_tree_visit(g, i, visited, tree)`: return code, `visited`,
the tree and the printed pairs after the call. `fuel` bounds the depth of the
recursion. -/
def graph_spanning_tree_visit (g : graph_t) :
    Nat → Nat → List Bool → graph_t → List (Nat × Nat) →
      Run (Int × List Bool × graph_t × List (Nat × Nat))
  | 0, _, _, _, _ => .nofuel
  | fuel + 1, i, visited, tree, out =>
    let r := graph_get_vertex g i
    if r.1 ≠ SUCCESS then .abort
    else
      match r.2 with
      | none => .fault
      | some v =>
        (graph_spanning_tree_visit_edges (graph_spanning_tree_visit g fuel) g i
          (vertex_of g v).edges visited tree out).bind fun s =>
        match s.1 with
        | some rc => .ret (rc, s.2)
        | none => .ret (SUCCESS, s.2)

/-- The label copying loop of `graph_spanning_tree`
(`graph_set_label(*tree, i, g->vertices[i].label)`), run on the remaining
indices. -/
def graph_spanning_tree_labels (g : graph_t) : List Nat → graph_t → graph_t
  | [], tree => tree
  | i :: rest, tree =>
    graph_spanning_tree_labels g rest (graph_set_label tree i (vertex_of g i).label).2

/-- `graph_spanning_tree(g, start, &tree)`: return code and the graph `*tree`. -/
def graph_spanning_tree (fuel : Nat) (g : graph_t) (start : Nat) : Run (Int × graph_t) :=
  let visited := List.replicate g.n_vertices false
  let tree := (graph_init ⟨0, []⟩ g.n_vertices).2
  let tree := graph_spanning_tree_labels g (List.range g.n_vertices) tree
  (visited_set visited start true).bind fun visited =>
  (graph_spanning_tree_visit g fuel start visited tree []).bind fun r =>
  if r.1 ≠ SUCCESS then .abort
  else .ret (SUCCESS, r.2.2.1)

/-! ## Graphs the library can build -/

/-- Representation invariant of a graph: the vertex array has `n_vertices`
entries and every edge points to a vertex of the array (`graph_add_edge`
only stores such pointers). -/
def graph_t.wf (g : graph_t) : Prop :=
  g.vertices.length = g.n_vertices ∧
  ∀ v ∈ g.vertices, ∀ e ∈ v.edges, 0 ≤ e.to_ ∧ e.to_ < (g.n_vertices : Int)

instance (g : graph_t) : Decidable g.wf := by
  unfold graph_t.wf; infer_instance

/-- Build a graph by `graph_init` followed by `graph_add_edge` calls in order. -/
def mk_graph (n : Nat) (es : List (Nat × Nat × Rat)) : graph_t :=
  es.foldl (fun g e => (graph_add_edge g e.1 e.2.1 e.2.2).2) (graph_init ⟨0, []⟩ n).2

/-! ## Graph-theoretic vocabulary -/

/-- There is an edge from `u` to `v`: vertex `u` of the array holds an edge whose
target pointer is `&g->vertices[v]`. -/
def adj (g : graph_t) (u v : Nat) : Prop :=
  u < g.n_vertices ∧ ∃ e ∈ (vertex_of g u).edges, e.to_ = (v : Int)

/-- Vertex `v` is reachable from `u` by following edges (`u` itself included). -/
def reach (g : graph_t) (u v : Nat) : Prop := Relation.ReflTransGen (adj g) u v

/-- There is a walk of exactly `k` edges from `u` to `v`. -/
inductive walk (g : graph_t) (u : Nat) : Nat → Nat → Prop where
  | nil : walk g u u 0
  | snoc {v w : Nat} {k : Nat} : walk g u v k → adj g v w → walk g u w (k + 1)

/-- The shortest edge-count distance from `s` to `u` is smaller than the one
from `s` to `v` (both are reachable from `s`). -/
def dist_lt (g : graph_t) (s u v : Nat) : Prop :=
  ∃ k, walk g s u k ∧ (∃ j, walk g s v j) ∧ ∀ j, walk g s v j → k < j

/-- Vertex `a` occurs before vertex `b` in the sequence `l`. -/
def before (l : List Nat) (a b : Nat) : Prop :=
  ∃ l₁ l₂ l₃, l = l₁ ++ a :: l₂ ++ b :: l₃

/-! ## List-level reference functions used in the proofs -/

/-- Targets of the edges of vertex `u`, with weights, in store order. -/
def succs (g : graph_t) (u : Nat) : List (Nat × Rat) :=
  (vertex_of g u).edges.map fun e => (e.to_.toNat, e.weight)

/-- Scanning targets in order, those not yet seen; each is seen from then on. -/
def fresh : List Nat → List Nat → List Nat
  | _, [] => []
  | seen, t :: ts => if t ∈ seen then fresh seen ts else t :: fresh (seen ++ [t]) ts

/-- Queue-level breadth-first traversal: `out` is the output so far, the last
argument the pending vertices in dequeue order. -/
def bfs_ref (g : graph_t) : Nat → List Nat → List Nat → Option (List Nat)
  | 0, _, _ => none
  | _ + 1, out, [] => some out
  | fuel + 1, out, u :: q =>
    bfs_ref g fuel (out ++ [u]) (q ++ fresh (out ++ u :: q) ((succs g u).map Prod.fst))

/-- The `visited` array marks exactly the vertices of `seen`. -/
def vis_rel (g : graph_t) (visited : List Bool) (seen : List Nat) : Prop :=
  visited.length = g.n_vertices ∧ ∀ v, visited[v]? = some true ↔ v ∈ seen

/-- Number of vertices of the graph that are not in `seen`. -/
def unseen (g : graph_t) (seen : List Nat) : Nat :=
  ((Finset.range g.n_vertices).filter fun v => v ∉ seen).card

/-- Invariant of the breadth-first loop, for a level assignment `lev`: the
output followed by the queue has no repetition, is ordered by level, the queue
spans at most two levels, processed vertices have all their successors
discovered one level further at most, and every discovered vertex has a walk
from the start of length its level. -/
structure bfs_inv (g : graph_t) (s : Nat) (lev : Nat → Nat) (out q : List Nat) : Prop where
  nodup : (out ++ q).Nodup
  lt : ∀ v ∈ out ++ q, v < g.n_vertices
  sorted : (out ++ q).Pairwise fun a b => lev a ≤ lev b
  front : ∀ h t, q = h :: t → ∀ x ∈ t, lev x ≤ lev h + 1
  closed : ∀ p ∈ out, ∀ x, adj g p x → x ∈ out ++ q ∧ lev x ≤ lev p + 1
  wlk : ∀ v ∈ out ++ q, walk g s v (lev v)
  start : s ∈ out ++ q ∧ lev s = 0

/-- Result of the list-level depth-first visit: the vertices newly marked, in
marking order (`pre`), the vertices finished, in finishing order (`post`), and
the edges along which a vertex was first reached, in discovery order (`tree`). -/
structure dfs_res where
  pre : List Nat
  post : List Nat
  tree : List (Nat × Nat × Rat)

/-- List-level edge loop of the recursive visits at vertex `i`; `visit` stands
for the recursive call and `seen` lists the marked vertices. -/
def dfs_core_edges (visit : Nat → List Nat → Option dfs_res) (i : Nat) :
    List (Nat × Rat) → List Nat → Option dfs_res
  | [], _ => some ⟨[], [], []⟩
  | t :: ts, seen =>
    if t.1 ∈ seen then dfs_core_edges visit i ts seen
    else
      match visit t.1 (seen ++ [t.1]) with
      | none => none
      | some r =>
        match dfs_core_edges visit i ts (seen ++ t.1 :: r.pre) with
        | none => none
        | some r2 =>
          some ⟨t.1 :: r.pre ++ r2.pre, r.post ++ r2.post, (i, t.1, t.2) :: r.tree ++ r2.tree⟩

/-- List-level recursive depth-first visit of vertex `i`; `none` when the
recursion is deeper than `fuel`. -/
def dfs_core (g : graph_t) : Nat → Nat → List Nat → Option dfs_res
  | 0, _, _ => none
  | fuel + 1, i, seen =>
    match dfs_core_edges (dfs_core g fuel) i (succs g i) seen with
    | none => none
    | some r => some ⟨r.pre, r.post ++ [i], r.tree⟩

/-- The pair `(a, b)` is an edge of the edge list `T`. -/
def tadj (T : List (Nat × Nat × Rat)) (a b : Nat) : Prop := ∃ w, (a, b, w) ∈ T

/-- No cycle passes through a vertex reachable from `s`. -/
def acyclic_from (g : graph_t) (s : Nat) : Prop :=
  ∀ v, reach g s v → ¬ Relation.TransGen (adj g) v v

/-- Every successor of a vertex of the finishing sequence is in `done` or
finished earlier in the sequence. -/
def topo_post (g : graph_t) : List Nat → List Nat → Prop
  | _, [] => True
  | done, u :: rest => (∀ x, adj g u x → x ∈ done) ∧ topo_post g (done ++ [u]) rest

/-- What the list-level edge loop at vertex `i` over the targets `ts`
guarantees about its result. -/
structure dfs_post_e (g : graph_t) (i : Nat) (ts : List (Nat × Rat)) (seen : List Nat)
    (r : dfs_res) : Prop where
  pre_nodup : r.pre.Nodup
  pre_new : ∀ v ∈ r.pre, v ∉ seen
  pre_lt : ∀ v ∈ r.pre, v < g.n_vertices
  post_perm : r.post.Perm r.pre
  tree_tgt : r.tree.map (fun e => e.2.1) = r.pre
  tree_edge : ∀ e ∈ r.tree, (e.2.1, e.2.2) ∈ succs g e.1
  tree_order : ∀ e ∈ r.tree, before (i :: r.pre) e.1 e.2.1
  closed : ∀ u ∈ r.pre, ∀ x, adj g u x → x ∈ seen ++ r.pre
  covered : ∀ t ∈ ts, t.1 ∈ seen ++ r.pre
  tree_reach : ∀ v ∈ r.pre, Relation.ReflTransGen (tadj r.tree) i v
  topo : ∀ done, acyclic_from g i → (∀ a ∈ seen, a ∉ done → reach g a i) →
    topo_post g done r.post

/-- What the list-level visit of vertex `i` guarantees about its result. -/
structure dfs_post (g : graph_t) (i : Nat) (seen : List Nat) (r : dfs_res) : Prop where
  pre_nodup : r.pre.Nodup
  pre_new : ∀ v ∈ r.pre, v ∉ seen
  pre_lt : ∀ v ∈ r.pre, v < g.n_vertices
  post_perm : r.post.Perm (i :: r.pre)
  tree_tgt : r.tree.map (fun e => e.2.1) = r.pre
  tree_edge : ∀ e ∈ r.tree, (e.2.1, e.2.2) ∈ succs g e.1
  tree_order : ∀ e ∈ r.tree, before (i :: r.pre) e.1 e.2.1
  closed : ∀ u ∈ i :: r.pre, ∀ x, adj g u x → x ∈ seen ++ r.pre
  tree_reach : ∀ v ∈ r.pre, Relation.ReflTransGen (tadj r.tree) i v
  topo : ∀ done, acyclic_from g i → (∀ a ∈ seen, a ∉ done → reach g a i) →
    topo_post g done r.post

/-- The vertex list after inserting the vertices of `p` at the head, one after
the other. -/
def vlist_pushed (l : vlist_t) (p : List Nat) : vlist_t :=
  ⟨l.length + p.length, p.reverse.map Int.ofNat ++ l.nodes⟩

/-- The graph after adding the edges of `T` with `graph_add_edge`, in order. -/
def add_edges (tree : graph_t) (T : List (Nat × Nat × Rat)) : graph_t :=
  T.foldl (fun t e => (graph_add_edge t e.1 e.2.1 e.2.2).2) tree

/-- Vertex `i` is found unvisited when the restart scan of `graph_dfs` from
`start` reaches index `i`: it is a vertex that is not reachable from `start`
nor, by one or more edges, from a vertex of smaller index. -/
def found_unvisited (g : graph_t) (start i : Nat) : Prop :=
  i < g.n_vertices ∧ ¬ reach g start i ∧ ∀ j, j < i → ¬ Relation.TransGen (adj g) j i

/-- Invariant of the restart scan of `graph_dfs` at index `k`: the marked
vertices are closed under edges and are those reachable from `start` or, by
one or more edges, from an index below `k`. -/
def scan_inv (g : graph_t) (start : Nat) (seen : List Nat) (k : Nat) : Prop :=
  (∀ u ∈ seen, ∀ x, adj g u x → x ∈ seen) ∧
  ∀ x, x ∈ seen ↔ reach g start x ∨ ∃ j, j < k ∧ Relation.TransGen (adj g) j x

/-- Stack-level depth-first traversal: `out` is the output so far, the last
argument the stack, top first. -/
def dfsi_ref (g : graph_t) : Nat → List Nat → List Nat → Option (List Nat)
  | 0, _, _ => none
  | _ + 1, out, [] => some out
  | fuel + 1, out, u :: st =>
    dfsi_ref g fuel (out ++ [u])
      ((fresh (out ++ u :: st) ((succs g u).map Prod.fst)).reverse ++ st)

/-- Invariant of the loop of the iterative depth-first traversal: output and
stack together have no repetition, hold only vertices reachable from the
start, processed vertices have all successors discovered, and the start is
the first vertex put out. -/
structure dfsi_inv (g : graph_t) (s : Nat) (out st : List Nat) : Prop where
  nodup : (out ++ st).Nodup
  lt : ∀ v ∈ out ++ st, v < g.n_vertices
  closed : ∀ p ∈ out, ∀ x, adj g p x → x ∈ out ++ st
  rch : ∀ v ∈ out ++ st, reach g s v
  start : s ∈ out ++ st
  first : (out = [] ∧ st = [s]) ∨ ∃ t, out = s :: t

/-- Number of edges of the graph whose target is vertex `v` (parallel edges
counted separately). -/
def in_degree (g : graph_t) (v : Nat) : Nat :=
  (g.vertices.map fun x => x.edges.countP fun e => decide (e.to_ = (v : Int))).sum

/-- The graph stores no edge. -/
def no_edges (t : graph_t) : Prop := ∀ v ∈ t.vertices, v.edges = []

/-- Every label of the graph has at most `MAX_LABEL_LEN` (100) characters, as
every label stored by `graph_set_label` has. -/
def labels_ok (g : graph_t) : Prop :=
  ∀ v ∈ g.vertices, ∀ s, v.label = some s → s.length ≤ 100

instance (g : graph_t) : Decidable (labels_ok g) := by
  unfold labels_ok
  exact List.decidableBAll (fun v => ∀ s, v.label = some s → s.length ≤ 100) g.vertices

/-- The calls `vlist_push(l, P1)`, ..., `vlist_push(l, Pk)` in sequence: the
list after them. -/
def push_all (l : vlist_t) : List Int → vlist_t
  | [] => l
  | p :: ps => push_all (vlist_push l p).2 ps

/-- A call made on a list used as a queue. -/
inductive queue_op where
  | enqueue (v : Int)
  | dequeue
deriving DecidableEq, Repr

/-- The vertices enqueued by a sequence of calls, in call order. -/
def enqueued : List queue_op → List Int
  | [] => []
  | .enqueue v :: ops => v :: enqueued ops
  | .dequeue :: ops => enqueued ops

/-- The number of dequeue calls in a sequence of calls. -/
def dequeues : List queue_op → Nat
  | [] => 0
  | .enqueue _ :: ops => dequeues ops
  | .dequeue :: ops => dequeues ops + 1

/-- No dequeue of the sequence is issued on an empty list, when the list
holds `size` vertices at the beginning. -/
def no_underflow : Nat → List queue_op → Bool
  | _, [] => true
  | size, .enqueue _ :: ops => no_underflow (size + 1) ops
  | size, .dequeue :: ops => decide (0 < size) && no_underflow (size - 1) ops

/-- The list never holds 2^32 vertices during the sequence, when it holds `size`
vertices at the beginning. -/
def no_overflow : Nat → List queue_op → Bool
  | _, [] => true
  | size, .enqueue _ :: ops => decide (size + 1 < 4294967296) && no_overflow (size + 1) ops
  | size, .dequeue :: ops => no_overflow (size - 1) ops

/-- Every vertex of the array carries a label (none is `NULL`). -/
def all_labelled (g : graph_t) : Prop :=
  ∀ i : Nat, i < g.n_vertices → (vertex_of g (i : Int)).label ≠ none

/-- The lowest index whose label agrees with `t` on the first `MAX_LABEL_LEN`
(100) characters, if there is one. -/
def find_label (g : graph_t) (t : List Char) : Option Nat :=
  (List.range g.n_vertices).find? fun i : Nat =>
    decide (((vertex_of g (i : Int)).label.getD []).take 100 = t.take 100)

/-- A label line of a description without its trailing newline. -/
def strip_newline (line : List Char) : List Char :=
  if line.getLast? = some '\n' then line.dropLast else line

/-- The graph a description declares before its edge lines: one vertex per
label, each label cut to 100 characters, no edges. -/
def labelled_graph (labels : List (List Char)) : graph_t :=
  ⟨labels.length, labels.map fun s => ⟨some (s.take 100), []⟩⟩

/-- An edge line is well formed: it scans to two labels and a weight, and both
labels are carried by a vertex of `g0`. -/
def edge_line_ok (sscanf_ssf : List Char → Option (List Char × List Char × Rat))
    (g0 : graph_t) (line : List Char) : Bool :=
  match sscanf_ssf line with
  | none => false
  | some (a, b, _) => (find_label g0 a).isSome && (find_label g0 b).isSome

/-- The insertions the edge lines of a description stand for, in file order:
`(i, j, w)` for a line `a b w` whose labels resolve to `i` and `j`, followed by
`(j, i, w)` when the description is undirected. -/
def file_edges (sscanf_ssf : List Char → Option (List Char × List Char × Rat))
    (undirected : Bool) (g0 : graph_t) : List (List Char) → List (Nat × Nat × Rat)
  | [] => []
  | line :: lines =>
    match sscanf_ssf line with
    | none => file_edges sscanf_ssf undirected g0 lines
    | some (a, b, w) =>
      match find_label g0 a, find_label g0 b with
      | some i, some j =>
        (if undirected then [(i, j, w), (j, i, w)] else [(i, j, w)]) ++
          file_edges sscanf_ssf undirected g0 lines
      | _, _ => file_edges sscanf_ssf undirected g0 lines

namespace Ptr

/-- The pointer to the first node of a segment, `q` when it is empty. -/
def first_or (q : Option Nat) : List (Nat × Int) → Option Nat
  | [] => q
  | (a, _) :: _ => some a

/-- The pointer to the last node of a segment, `p` when it is empty. -/
def last_or (p : Option Nat) : List (Nat × Int) → Option Nat
  | [] => p
  | (a, _) :: rest => last_or (some a) rest

/-- The cells at the addresses of `L` hold a doubly linked segment with the
values of `L`: each `next` points to the following node (`q` for the last
one), each `prev` to the preceding one (`p` for the first one). -/
def linked (h : heap_t) : Option Nat → List (Nat × Int) → Option Nat → Prop
  | _, [], _ => True
  | p, (a, v) :: rest, q =>
    h.getD a none = some ⟨v, p, first_or q rest⟩ ∧ linked h (some a) rest q

/-- The list `l` is the doubly linked list of the nodes `L` in the heap `h`:
distinct live cells linked in both directions, `head` and `tail` the two ends,
`length` their number as an `unsigned int`, that is modulo 2^32. -/
structure list_inv (h : heap_t) (l : vlist_t) (L : List (Nat × Int)) : Prop where
  links : linked h none L none
  nodup : (L.map Prod.fst).Nodup
  bound : ∀ a ∈ L.map Prod.fst, a < h.length
  head_eq : l.head = first_or none L
  tail_eq : l.tail = last_or none L
  length_eq : l.length = L.length % 4294967296
  length_le : L.length ≤ h.length

/-- The calls `vlist_push(l, P1)`, ..., `vlist_push(l, Pk)` in sequence, with
`calloc` succeeding: the heap and the list after them. -/
def push_all : heap_t × vlist_t → List Int → Run (heap_t × vlist_t)
  | s, [] => .ret s
  | s, p :: ps => (vlist_push s.1 s.2 p true).bind fun r => push_all (r.2.1, r.2.2) ps

/-- The call `vlist_pop(l, &v)` made `k` times in sequence: the return code and
stored vertex of each call, in call order, and the heap and list after them. -/
def pop_times : Nat → heap_t × vlist_t → Run (List (Int × Option Int) × heap_t × vlist_t)
  | 0, s => .ret ([], s)
  | k + 1, s =>
    (vlist_pop s.1 s.2).bind fun r =>
    (pop_times k (r.2.1, r.2.2.1)).bind fun t => .ret ((r.1, r.2.2.2) :: t.1, t.2)

/-- A sequence of `vlist_enqueue` (with `calloc` succeeding) and `vlist_dequeue`
calls: the return code and stored vertex of each dequeue, in call order, and
the heap and list after the calls. -/
def run_queue : List queue_op → heap_t × vlist_t →
    Run (List (Int × Option Int) × heap_t × vlist_t)
  | [], s => .ret ([], s)
  | .enqueue v :: ops, s =>
    (vlist_enqueue s.1 s.2 v true).bind fun r => run_queue ops (r.2.1, r.2.2)
  | .dequeue :: ops, s =>
    (vlist_dequeue s.1 s.2).bind fun r =>
    (run_queue ops (r.2.1, r.2.2.1)).bind fun t => .ret ((r.1, r.2.2.2) :: t.1, t.2)

end Ptr

/-! ## Basic facts -/

theorem Run.ret_bind {α β : Type} (a : α) (f : α → Run β) : (Run.ret a).bind f = f a := rfl

theorem vis_rel_lt {g : graph_t} {visited : List Bool} {seen : List Nat}
    (h : vis_rel g visited seen) {v : Nat} (hv : v ∈ seen) : v < g.n_vertices := by
  have := (h.2 v).2 hv
  rw [List.getElem?_eq_some] at this
  obtain ⟨h1, _⟩ := this
  rw [h.1] at h1
  exact h1

theorem vis_rel_get {g : graph_t} {visited : List Bool} {seen : List Nat}
    (h : vis_rel g visited seen) {t : Nat} (ht : t < g.n_vertices) :
    visited_get visited t = .ret (decide (t ∈ seen)) := by
  unfold visited_get
  have hl : t < visited.length := by rw [h.1]; exact ht
  have h2 := h.2 t
  rw [List.getElem?_eq_getElem hl] at h2 ⊢
  simp only [Option.some.injEq] at h2
  by_cases hm : t ∈ seen
  · simp [hm, h2.2 hm]
  · have : visited[t] = false := by
      cases hb : visited[t] with
      | false => rfl
      | true => exact absurd (h2.1 hb) hm
    simp [hm, this]

theorem vis_rel_set {g : graph_t} {visited : List Bool} {seen : List Nat}
    (h : vis_rel g visited seen) {t : Nat} (ht : t < g.n_vertices) :
    visited_set visited t true = .ret (visited.set t true) ∧
      vis_rel g (visited.set t true) (seen ++ [t]) := by
  have hl : t < visited.length := by rw [h.1]; exact ht
  refine ⟨by simp [visited_set, hl], by simp [h.1], ?_⟩
  intro v
  rw [List.getElem?_set]
  by_cases htv : t = v
  · subst htv; simp [hl]
  · simp only [htv, if_false, List.mem_append, List.mem_singleton]
    rw [h.2 v]
    constructor
    · intro h1; exact Or.inl h1
    · rintro (h1 | h1)
      · exact h1
      · exact absurd h1.symm htv

theorem vertex_index_ok {g : graph_t} {p : Int} (h0 : 0 ≤ p) (h1 : p < (g.n_vertices : Int)) :
    graph_vertex_index g p = p := by
  unfold graph_vertex_index
  simp only []
  rw [if_neg]
  omega

/-- Edges of a well-formed graph point into the vertex array. -/
theorem wf_edges {g : graph_t} (hg : g.wf) (v : Int) :
    ∀ e ∈ (vertex_of g v).edges, 0 ≤ e.to_ ∧ e.to_ < (g.n_vertices : Int) := by
  intro e he
  unfold vertex_of at he
  rw [List.getD_eq_getElem?_getD] at he
  cases hx : g.vertices[v.toNat]? with
  | none => rw [hx] at he; simp at he
  | some x =>
    rw [hx] at he
    simp only [Option.getD_some] at he
    exact hg.2 x (List.getElem?_mem hx) e he

theorem bfs_edges_sim (g : graph_t) :
    ∀ (es : List edge_t) (visited : List Bool) (seen : List Nat) (q : vlist_t),
      (∀ e ∈ es, 0 ≤ e.to_ ∧ e.to_ < (g.n_vertices : Int)) →
      vis_rel g visited seen →
      ∃ visited',
        graph_bfs_edges g es visited q SUCCESS =
          .ret (visited',
            ⟨q.length + (fresh seen (es.map fun e => e.to_.toNat)).length,
              ((fresh seen (es.map fun e => e.to_.toNat)).reverse.map Int.ofNat) ++ q.nodes⟩,
            SUCCESS) ∧
        vis_rel g visited' (seen ++ fresh seen (es.map fun e => e.to_.toNat)) := by
  intro es
  induction es with
  | nil =>
    intro visited seen q _ hv
    exact ⟨visited, by simp [graph_bfs_edges, fresh], by simpa [fresh] using hv⟩
  | cons e es ih =>
    intro visited seen q hes hv
    have he := hes e (List.mem_cons_self _ _)
    have hes' : ∀ e' ∈ es, 0 ≤ e'.to_ ∧ e'.to_ < (g.n_vertices : Int) :=
      fun e' h' => hes e' (List.mem_cons_of_mem _ h')
    have hlt : e.to_.toNat < g.n_vertices := (Int.toNat_lt he.1).2 he.2
    have hcast : Int.ofNat e.to_.toNat = e.to_ := Int.toNat_of_nonneg he.1
    unfold graph_bfs_edges
    simp only [vertex_index_ok he.1 he.2, not_lt.2 he.1, if_false, vis_rel_get hv hlt,
      Run.ret_bind, List.map_cons, fresh]
    by_cases hm : e.to_.toNat ∈ seen
    · simp only [hm, decide_True, Bool.not_true, if_true, Bool.false_eq_true, if_false]
      exact ih visited seen q hes' hv
    · obtain ⟨hs1, hs2⟩ := vis_rel_set hv hlt
      simp only [hm, decide_False, Bool.not_false, if_true, hs1, Run.ret_bind]
      obtain ⟨visited', h1, h2⟩ := ih (visited.set e.to_.toNat true) (seen ++ [e.to_.toNat])
        (vlist_enqueue q e.to_).2 hes' hs2
      refine ⟨visited', ?_, ?_⟩
      · have hrc : (vlist_enqueue q e.to_).1 = SUCCESS := rfl
        rw [hrc, h1]
        simp only [vlist_enqueue, vlist_insert_head, List.length_cons, List.reverse_cons,
          List.map_append, List.map_cons, List.map_nil, hcast, List.append_assoc,
          List.singleton_append, if_false]
        rw [show ∀ a b : Nat, a + 1 + b = a + (b + 1) from fun a b => by omega]
      · simpa [List.append_assoc] using h2

theorem succs_fst (g : graph_t) (u : Nat) :
    (succs g u).map Prod.fst = (vertex_of g (u : Int)).edges.map fun e => e.to_.toNat := by
  simp [succs, List.map_map, Function.comp_def]

theorem bfs_loop_sim (g : graph_t) (hg : g.wf) :
    ∀ (fuel : Nat) (visited : List Bool) (out q : List Nat) (o : List Nat),
      vis_rel g visited (out ++ q) →
      bfs_ref g fuel out q = some o →
      ∃ visited',
        graph_bfs_loop g fuel visited ⟨q.length, q.reverse.map Int.ofNat⟩ out =
          .ret (visited', ⟨0, []⟩, o) := by
  intro fuel
  induction fuel with
  | zero => intro visited out q o _ h; simp [bfs_ref] at h
  | succ fuel ih =>
    intro visited out q o hv h
    cases q with
    | nil =>
      simp only [bfs_ref, Option.some.injEq] at h
      subst h
      exact ⟨visited, by simp [graph_bfs_loop]⟩
    | cons u q =>
      simp only [bfs_ref] at h
      have hu : u < g.n_vertices := vis_rel_lt hv (by simp)
      have hu0 : (0 : Int) ≤ (u : Int) := Int.ofNat_nonneg u
      have hu1 : (u : Int) < (g.n_vertices : Int) := by exact_mod_cast hu
      obtain ⟨v1, h1, h2⟩ := bfs_edges_sim g (vertex_of g (u : Int)).edges visited (out ++ u :: q)
        ⟨q.length, q.reverse.map Int.ofNat⟩ (wf_edges hg _) hv
      rw [← succs_fst] at h1 h2
      have h3 : vis_rel g v1 ((out ++ [u]) ++
          (q ++ fresh (out ++ u :: q) ((succs g u).map Prod.fst))) := by
        simpa [List.append_assoc] using h2
      obtain ⟨v2, h4⟩ := ih v1 (out ++ [u]) _ o h3 h
      refine ⟨v2, ?_⟩
      have hd : vlist_dequeue ⟨(u :: q).length, (u :: q).reverse.map Int.ofNat⟩ =
          .ret (SUCCESS, ⟨q.length, q.reverse.map Int.ofNat⟩, some (u : Int)) := by
        simp [vlist_dequeue, vlist_remove_tail]
      have hpos : (⟨(u :: q).length, (u :: q).reverse.map Int.ofNat⟩ : vlist_t).length > 0 := by
        simp
      rw [graph_bfs_loop, if_pos hpos, hd]
      simp only [Run.ret_bind, ne_eq, not_true_eq_false, if_false, vertex_index_ok hu0 hu1,
        not_lt.2 hu0, Int.toNat_natCast, h1]
      rw [← h4]
      simp [List.append_assoc]

/-! ### Facts about `fresh`, `adj` and the number of unseen vertices -/

theorem fresh_sub : ∀ (ts seen : List Nat), ∀ x ∈ fresh seen ts, x ∈ ts ∧ x ∉ seen := by
  intro ts
  induction ts with
  | nil => intro seen x hx; simp [fresh] at hx
  | cons t ts ih =>
    intro seen x hx
    unfold fresh at hx
    by_cases ht : t ∈ seen
    · rw [if_pos ht] at hx
      exact ⟨List.mem_cons_of_mem _ (ih seen x hx).1, (ih seen x hx).2⟩
    · rw [if_neg ht] at hx
      rcases List.mem_cons.1 hx with h | h
      · subst h; exact ⟨List.mem_cons_self _ _, ht⟩
      · have := ih _ x h
        exact ⟨List.mem_cons_of_mem _ this.1, fun hs => this.2 (List.mem_append_left _ hs)⟩

theorem fresh_nodup : ∀ (ts seen : List Nat), (fresh seen ts).Nodup := by
  intro ts
  induction ts with
  | nil => intro seen; simp [fresh]
  | cons t ts ih =>
    intro seen
    unfold fresh
    by_cases ht : t ∈ seen
    · rw [if_pos ht]; exact ih seen
    · rw [if_neg ht]
      refine List.nodup_cons.2 ⟨fun h => ?_, ih _⟩
      exact (fresh_sub ts _ t h).2 (by simp)

theorem fresh_cover : ∀ (ts seen : List Nat), ∀ t ∈ ts, t ∈ seen ∨ t ∈ fresh seen ts := by
  intro ts
  induction ts with
  | nil => intro seen t ht; simp at ht
  | cons a ts ih =>
    intro seen t ht
    unfold fresh
    by_cases ha : a ∈ seen
    · rw [if_pos ha]
      rcases List.mem_cons.1 ht with h | h
      · subst h; exact Or.inl ha
      · exact ih seen t h
    · rw [if_neg ha]
      rcases List.mem_cons.1 ht with h | h
      · subst h; exact Or.inr (List.mem_cons_self _ _)
      · rcases ih (seen ++ [a]) t h with h1 | h1
        · rcases List.mem_append.1 h1 with h2 | h2
          · exact Or.inl h2
          · exact Or.inr (by simp at h2; subst h2; exact List.mem_cons_self _ _)
        · exact Or.inr (List.mem_cons_of_mem _ h1)

theorem adj_iff {g : graph_t} (hg : g.wf) (u v : Nat) :
    adj g u v ↔ v ∈ (succs g u).map Prod.fst := by
  rw [succs_fst]
  constructor
  · rintro ⟨_, e, he, hev⟩
    exact List.mem_map.2 ⟨e, he, by rw [hev]; exact Int.toNat_natCast v⟩
  · intro h
    obtain ⟨e, he, hev⟩ := List.mem_map.1 h
    have hw := wf_edges hg _ e he
    refine ⟨?_, e, he, ?_⟩
    · by_contra hn
      have hlen : g.vertices.length ≤ u := by rw [hg.1]; omega
      unfold vertex_of at he
      rw [List.getD_eq_getElem?_getD, Int.toNat_natCast,
        List.getElem?_eq_none hlen] at he
      simp at he
    · rw [← hev]; exact (Int.toNat_of_nonneg hw.1).symm

theorem adj_lt {g : graph_t} (hg : g.wf) {u v : Nat} (h : adj g u v) : v < g.n_vertices := by
  obtain ⟨_, e, he, hev⟩ := h
  have := (wf_edges hg _ e he).2
  rw [hev] at this
  exact_mod_cast this

theorem unseen_le (g : graph_t) (seen : List Nat) : unseen g seen ≤ g.n_vertices := by
  unfold unseen
  calc ((Finset.range g.n_vertices).filter fun v => v ∉ seen).card
      ≤ (Finset.range g.n_vertices).card := Finset.card_filter_le _ _
    _ = g.n_vertices := Finset.card_range _

theorem unseen_mono (g : graph_t) {seen seen' : List Nat} (h : ∀ v ∈ seen, v ∈ seen') :
    unseen g seen' ≤ unseen g seen := by
  unfold unseen
  apply Finset.card_le_card
  intro v hv
  simp only [Finset.mem_filter, Finset.mem_range] at hv ⊢
  exact ⟨hv.1, fun hs => hv.2 (h v hs)⟩

theorem unseen_snoc (g : graph_t) {seen : List Nat} {t : Nat} (ht : t < g.n_vertices)
    (hn : t ∉ seen) : unseen g (seen ++ [t]) + 1 = unseen g seen := by
  unfold unseen
  have hmem : t ∈ (Finset.range g.n_vertices).filter fun v => v ∉ seen := by
    simp [ht, hn]
  have heq : ((Finset.range g.n_vertices).filter fun v => v ∉ seen ++ [t]) =
      ((Finset.range g.n_vertices).filter fun v => v ∉ seen).erase t := by
    ext v
    simp only [Finset.mem_filter, Finset.mem_range, List.mem_append, List.mem_singleton,
      Finset.mem_erase, not_or]
    tauto
  rw [heq, Finset.card_erase_of_mem hmem]
  have := Finset.card_pos.2 ⟨t, hmem⟩
  omega

theorem unseen_fresh (g : graph_t) : ∀ (ts seen : List Nat), (∀ t ∈ ts, t < g.n_vertices) →
    unseen g (seen ++ fresh seen ts) + (fresh seen ts).length = unseen g seen := by
  intro ts
  induction ts with
  | nil => intro seen _; simp [fresh]
  | cons t ts ih =>
    intro seen hts
    have hts' : ∀ x ∈ ts, x < g.n_vertices := fun x hx => hts x (List.mem_cons_of_mem _ hx)
    unfold fresh
    by_cases ht : t ∈ seen
    · rw [if_pos ht]; exact ih seen hts'
    · rw [if_neg ht]
      have h1 := ih (seen ++ [t]) hts'
      have h2 := unseen_snoc g (hts t (List.mem_cons_self _ _)) ht
      have h3 : seen ++ t :: fresh (seen ++ [t]) ts = seen ++ [t] ++ fresh (seen ++ [t]) ts := by
        simp
      rw [h3, List.length_cons]
      omega

/-! ### Breadth-first traversal: invariant of the queue-level function -/

theorem bfs_inv_step {g : graph_t} (hg : g.wf) {s : Nat} {lev : Nat → Nat} {out q : List Nat}
    {u : Nat} (h : bfs_inv g s lev out (u :: q)) :
    bfs_inv g s
      (fun x => if x ∈ fresh (out ++ u :: q) ((succs g u).map Prod.fst) then lev u + 1 else lev x)
      (out ++ [u]) (q ++ fresh (out ++ u :: q) ((succs g u).map Prod.fst)) := by
  have hF1 := fresh_sub ((succs g u).map Prod.fst) (out ++ u :: q)
  have hF2 := fresh_nodup ((succs g u).map Prod.fst) (out ++ u :: q)
  have hF3 := fresh_cover ((succs g u).map Prod.fst) (out ++ u :: q)
  generalize hF : fresh (out ++ u :: q) ((succs g u).map Prod.fst) = F at hF1 hF2 hF3 ⊢
  have hlist : out ++ [u] ++ (q ++ F) = (out ++ u :: q) ++ F := by simp
  have hsort := List.pairwise_append.1 h.sorted
  have hbound : ∀ a ∈ out ++ u :: q, lev a ≤ lev u + 1 := by
    intro a ha
    rcases List.mem_append.1 ha with ha | ha
    · exact Nat.le_succ_of_le (hsort.2.2 a ha u (List.mem_cons_self _ _))
    · rcases List.mem_cons.1 ha with ha | ha
      · subst ha; exact Nat.le_succ _
      · exact h.front u q rfl a ha
  have hold : ∀ a ∈ out ++ u :: q, (if a ∈ F then lev u + 1 else lev a) = lev a := by
    intro a ha
    rw [if_neg]
    exact fun hf => (hF1 a hf).2 ha
  have hnew : ∀ a ∈ F, (if a ∈ F then lev u + 1 else lev a) = lev u + 1 := by
    intro a ha
    rw [if_pos ha]
  have hu : u ∈ out ++ u :: q := by simp
  refine ⟨?_, ?_, ?_, ?_, ?_, ?_, ?_⟩
  · rw [hlist]
    exact List.nodup_append.2 ⟨h.nodup, hF2, fun a ha hf => (hF1 a hf).2 ha⟩
  · rw [hlist]
    intro v hv
    rcases List.mem_append.1 hv with hv | hv
    · exact h.lt v hv
    · exact adj_lt hg ((adj_iff hg u v).2 (hF1 v hv).1)
  · rw [hlist]
    refine List.pairwise_append.2 ⟨?_, ?_, ?_⟩
    · refine List.Pairwise.imp_of_mem ?_ h.sorted
      intro a b ha hb hab
      simp only [hold a ha, hold b hb]
      exact hab
    · refine List.Pairwise.imp_of_mem ?_ hF2
      intro a b ha hb _
      simp only [hnew a ha, hnew b hb]
      exact le_refl _
    · intro a ha b hb
      simp only [hold a ha, hnew b hb]
      exact hbound a ha
  · intro hd t hq x hx
    cases q with
    | nil =>
      simp only [List.nil_append] at hq
      have hhd : hd ∈ F := by rw [hq]; exact List.mem_cons_self _ _
      have hxF : x ∈ F := by rw [hq]; exact List.mem_cons_of_mem _ hx
      simp only [hnew hd hhd, hnew x hxF]
      exact Nat.le_succ _
    | cons a q' =>
      simp only [List.cons_append, List.cons.injEq] at hq
      obtain ⟨rfl, rfl⟩ := hq
      have ha : a ∈ out ++ u :: a :: q' := by simp
      have hua : lev u ≤ lev a := by
        have := List.pairwise_cons.1 hsort.2.1
        exact this.1 a (List.mem_cons_self _ _)
      rw [hold a ha]
      rcases List.mem_append.1 hx with hx | hx
      · have hx' : x ∈ out ++ u :: a :: q' := by simp [hx]
        rw [hold x hx']
        have := hbound x hx'
        omega
      · rw [hnew x hx]
        omega
  · intro p hp x hpx
    rw [hlist]
    rcases List.mem_append.1 hp with hp | hp
    · have := h.closed p hp x hpx
      have hp' : p ∈ out ++ u :: q := List.mem_append_left _ hp
      refine ⟨List.mem_append_left _ this.1, ?_⟩
      simp only [hold x this.1, hold p hp']
      exact this.2
    · simp only [List.mem_singleton] at hp
      subst hp
      rw [hold p hu]
      rcases hF3 x ((adj_iff hg p x).1 hpx) with hx | hx
      · exact ⟨List.mem_append_left _ hx, by rw [hold x hx]; exact hbound x hx⟩
      · exact ⟨List.mem_append_right _ hx, by rw [hnew x hx]⟩
  · rw [hlist]
    intro v hv
    rcases List.mem_append.1 hv with hv | hv
    · rw [hold v hv]; exact h.wlk v hv
    · rw [hnew v hv]
      exact walk.snoc (h.wlk u hu) ((adj_iff hg u v).2 (hF1 v hv).1)
  · rw [hlist]
    exact ⟨List.mem_append_left _ h.start.1, by rw [hold s h.start.1]; exact h.start.2⟩

theorem bfs_ref_spec {g : graph_t} (hg : g.wf) (s : Nat) :
    ∀ (fuel : Nat) (out q : List Nat) (lev : Nat → Nat),
      bfs_inv g s lev out q → q.length + unseen g (out ++ q) < fuel →
      ∃ o lev', bfs_ref g fuel out q = some o ∧ bfs_inv g s lev' o [] := by
  intro fuel
  induction fuel with
  | zero => intro out q lev _ h; omega
  | succ fuel ih =>
    intro out q lev hinv hfuel
    cases q with
    | nil => exact ⟨out, lev, by simp [bfs_ref], hinv⟩
    | cons u q =>
      simp only [bfs_ref]
      refine ih _ _ _ (bfs_inv_step hg hinv) ?_
      have h1 := unseen_fresh g ((succs g u).map Prod.fst) (out ++ u :: q)
        (fun t ht => adj_lt hg ((adj_iff hg u t).2 ht))
      have h2 : out ++ [u] ++ (q ++ fresh (out ++ u :: q) ((succs g u).map Prod.fst)) =
          (out ++ u :: q) ++ fresh (out ++ u :: q) ((succs g u).map Prod.fst) := by simp
      rw [h2]
      simp only [List.length_append, List.length_cons] at hfuel ⊢
      omega

theorem walk_reach {g : graph_t} {u v : Nat} {k : Nat} (h : walk g u v k) : reach g u v := by
  induction h with
  | nil => exact Relation.ReflTransGen.refl
  | snoc _ hadj ih => exact Relation.ReflTransGen.tail ih hadj

theorem reach_walk {g : graph_t} {u v : Nat} (h : reach g u v) : ∃ k, walk g u v k := by
  induction h with
  | refl => exact ⟨0, walk.nil⟩
  | tail _ hadj ih =>
    obtain ⟨k, hk⟩ := ih
    exact ⟨k + 1, walk.snoc hk hadj⟩

theorem bfs_inv_complete {g : graph_t} {s : Nat} {lev : Nat → Nat} {o : List Nat}
    (h : bfs_inv g s lev o []) {x k : Nat} (hw : walk g s x k) : x ∈ o ∧ lev x ≤ k := by
  induction hw with
  | nil =>
    have := h.start
    simp only [List.append_nil] at this
    exact ⟨this.1, by omega⟩
  | snoc _ hadj ih =>
    have := h.closed _ ih.1 _ hadj
    simp only [List.append_nil] at this
    exact ⟨this.1, by omega⟩

theorem before_or {l : List Nat} {a b : Nat} (ha : a ∈ l) (hb : b ∈ l) (hab : a ≠ b) :
    before l a b ∨ before l b a := by
  obtain ⟨l₁, l₂, rfl⟩ := List.append_of_mem ha
  rcases List.mem_append.1 hb with h | h
  · obtain ⟨m₁, m₂, rfl⟩ := List.append_of_mem h
    exact Or.inr ⟨m₁, m₂, l₂, by simp⟩
  · rcases List.mem_cons.1 h with h | h
    · exact absurd h.symm hab
    · obtain ⟨m₁, m₂, rfl⟩ := List.append_of_mem h
      exact Or.inl ⟨l₁, m₁, m₂, by simp⟩

theorem pairwise_before {R : Nat → Nat → Prop} {l : List Nat} (h : l.Pairwise R) {a b : Nat}
    (hab : before l a b) : R a b := by
  obtain ⟨l₁, l₂, l₃, rfl⟩ := hab
  have h0 : l₁ ++ a :: l₂ ++ b :: l₃ = l₁ ++ (a :: (l₂ ++ b :: l₃)) := by simp
  rw [h0] at h
  have h1 := (List.pairwise_append.1 h).2.1
  exact (List.pairwise_cons.1 h1).1 b (by simp)

theorem vis_rel_init (g : graph_t) : vis_rel g (List.replicate g.n_vertices false) [] := by
  refine ⟨by simp, fun v => ?_⟩
  rw [List.getElem?_replicate]
  by_cases h : v < g.n_vertices <;> simp [h]

theorem get_vertex_ok {g : graph_t} {i : Nat} (h : i < g.n_vertices) :
    graph_get_vertex g i = (SUCCESS, some (i : Int)) := by
  unfold graph_get_vertex
  rw [if_neg (by omega)]

/-- Running `graph_bfs` on a well-formed graph from a valid start with enough
fuel returns `SUCCESS` with the output of the queue-level traversal, which
satisfies the loop invariant with an empty queue. -/
theorem graph_bfs_run {g : graph_t} (hg : g.wf) {start : Nat} (hs : start < g.n_vertices)
    {fuel : Nat} (hf : g.n_vertices < fuel) :
    ∃ out lev, graph_bfs fuel g start = .ret (SUCCESS, out) ∧
      bfs_ref g fuel [] [start] = some out ∧ bfs_inv g start lev out [] := by
  have hinit : bfs_inv g start (fun _ => 0) [] [start] := by
    refine ⟨by simp, by simpa using hs, by simp, ?_, by simp, ?_, by simp⟩
    · intro h t hq x hx
      simp only [List.cons.injEq] at hq
      rw [← hq.2] at hx
      simp at hx
    · intro v hv
      simp only [List.nil_append, List.mem_singleton] at hv
      subst hv
      exact walk.nil
  have hfuel : [start].length + unseen g ([] ++ [start]) < fuel := by
    have h1 := @unseen_snoc g [] start hs (by simp)
    have h2 := unseen_le g []
    simp only [List.length_singleton]
    omega
  obtain ⟨o, lev', h1, h2⟩ := bfs_ref_spec hg start fuel [] [start] _ hinit hfuel
  obtain ⟨hv1, hv2⟩ := vis_rel_set (vis_rel_init g) hs
  obtain ⟨v', h3⟩ := bfs_loop_sim g hg fuel _ [] [start] o hv2 h1
  refine ⟨o, lev', ?_, h1, h2⟩
  unfold graph_bfs
  simp only [vlist_init, ne_eq, not_true_eq_false, if_false, get_vertex_ok hs, hv1, Run.ret_bind,
    vlist_enqueue, vlist_insert_head]
  simp only [List.length_singleton, List.reverse_cons, List.reverse_nil, List.nil_append,
    List.map_cons, List.map_nil] at h3
  have h4 : ∀ x : Nat, Int.ofNat x = (x : Int) := fun _ => rfl
  rw [h4] at h3
  simp only [zero_add]
  rw [h3]
  rfl

/-! ### Recursive depth-first visit: the list-level function -/

theorem before_iff {l : List Nat} {a b : Nat} : before l a b ↔ [a, b].Sublist l := by
  constructor
  · rintro ⟨l₁, l₂, l₃, rfl⟩
    have h1 : [a].Sublist (l₁ ++ a :: l₂) := List.singleton_sublist.2 (by simp)
    have h2 : [b].Sublist (b :: l₃) := List.singleton_sublist.2 (by simp)
    exact h1.append h2
  · intro h
    have h' : ([a] ++ [b]).Sublist l := h
    obtain ⟨r₁, r₂, rfl, h1, h2⟩ := List.append_sublist_iff.1 h'
    obtain ⟨x, y, rfl⟩ := List.append_of_mem (List.singleton_sublist.1 h1)
    obtain ⟨z, w, rfl⟩ := List.append_of_mem (List.singleton_sublist.1 h2)
    exact ⟨x, y ++ z, w, by simp⟩

theorem before_sublist {l l' : List Nat} {a b : Nat} (hs : l.Sublist l') (h : before l a b) :
    before l' a b :=
  before_iff.2 ((before_iff.1 h).trans hs)

theorem topo_post_congr (g : graph_t) : ∀ (l done done' : List Nat),
    (∀ x, x ∈ done → x ∈ done') → topo_post g done l → topo_post g done' l := by
  intro l
  induction l with
  | nil => intro _ _ _ _; trivial
  | cons u rest ih =>
    intro done done' hd h
    refine ⟨fun x hx => hd x (h.1 x hx), ih _ _ (fun x hx => ?_) h.2⟩
    rcases List.mem_append.1 hx with h1 | h1
    · exact List.mem_append_left _ (hd x h1)
    · exact List.mem_append_right _ h1

theorem topo_post_append (g : graph_t) : ∀ (l₁ l₂ done : List Nat),
    topo_post g done l₁ → topo_post g (done ++ l₁) l₂ → topo_post g done (l₁ ++ l₂) := by
  intro l₁
  induction l₁ with
  | nil => intro l₂ done _ h; simpa using h
  | cons u rest ih =>
    intro l₂ done h1 h2
    refine ⟨h1.1, ih l₂ _ h1.2 ?_⟩
    have : done ++ [u] ++ rest = done ++ u :: rest := by simp
    rw [this]
    exact h2

theorem tadj_mono {T T' : List (Nat × Nat × Rat)} (h : ∀ e ∈ T, e ∈ T') {a b : Nat}
    (hr : Relation.ReflTransGen (tadj T) a b) : Relation.ReflTransGen (tadj T') a b :=
  Relation.ReflTransGen.mono (fun _ _ ⟨w, hw⟩ => ⟨w, h _ hw⟩) hr

theorem dfs_core_edges_spec {g : graph_t} (hg : g.wf) (fuel : Nat) (i : Nat)
    (ih : ∀ (j : Nat) (seen : List Nat), unseen g seen < fuel →
      ∃ r, dfs_core g fuel j seen = some r ∧ dfs_post g j seen r) :
    ∀ (ts : List (Nat × Rat)) (seen : List Nat), (∀ t ∈ ts, t ∈ succs g i) →
      unseen g seen ≤ fuel →
      ∃ r, dfs_core_edges (dfs_core g fuel) i ts seen = some r ∧ dfs_post_e g i ts seen r := by
  intro ts
  induction ts with
  | nil =>
    intro seen _ _
    refine ⟨⟨[], [], []⟩, rfl, ?_⟩
    exact ⟨by simp, by simp, by simp, by simp, by simp, by simp, by simp, by simp, by simp,
      by simp, fun _ _ _ => trivial⟩
  | cons t ts iht =>
    intro seen hts hfuel
    have hts' : ∀ t' ∈ ts, t' ∈ succs g i := fun t' h' => hts t' (List.mem_cons_of_mem _ h')
    have htmem : t ∈ succs g i := hts t (List.mem_cons_self _ _)
    have hadj : adj g i t.1 := (adj_iff hg i t.1).2 (List.mem_map.2 ⟨t, htmem, rfl⟩)
    unfold dfs_core_edges
    by_cases hm : t.1 ∈ seen
    · rw [if_pos hm]
      obtain ⟨r, hr, P⟩ := iht seen hts' hfuel
      refine ⟨r, hr, ⟨P.pre_nodup, P.pre_new, P.pre_lt, P.post_perm, P.tree_tgt, P.tree_edge,
        P.tree_order, P.closed, ?_, P.tree_reach, P.topo⟩⟩
      intro t' ht'
      rcases List.mem_cons.1 ht' with h | h
      · subst h; exact List.mem_append_left _ hm
      · exact P.covered t' h
    · rw [if_neg hm]
      have hlt : t.1 < g.n_vertices := adj_lt hg hadj
      have hu1 := unseen_snoc g hlt hm
      obtain ⟨r1, hr1, P1⟩ := ih t.1 (seen ++ [t.1]) (by omega)
      have hu2 : unseen g (seen ++ t.1 :: r1.pre) ≤ fuel := by
        have := @unseen_mono g seen (seen ++ t.1 :: r1.pre)
          (fun v hv => List.mem_append_left _ hv)
        omega
      obtain ⟨r2, hr2, P2⟩ := iht (seen ++ t.1 :: r1.pre) hts' hu2
      rw [hr1]
      simp only [hr2]
      refine ⟨_, rfl, ?_⟩
      have hn1 : ∀ v ∈ r1.pre, v ∉ seen ∧ v ≠ t.1 := by
        intro v hv
        have := P1.pre_new v hv
        simp only [List.mem_append, List.mem_singleton, not_or] at this
        exact this
      have hn2 : ∀ v ∈ r2.pre, v ∉ seen ∧ v ≠ t.1 ∧ v ∉ r1.pre := by
        intro v hv
        have := P2.pre_new v hv
        simp only [List.mem_append, List.mem_cons, not_or] at this
        exact ⟨this.1, this.2.1, this.2.2⟩
      have hsub1 : (t.1 :: r1.pre).Sublist (i :: (t.1 :: r1.pre ++ r2.pre)) := by
        apply List.Sublist.cons
        exact List.sublist_append_left (t.1 :: r1.pre) r2.pre
      have hsub2 : (i :: r2.pre).Sublist (i :: (t.1 :: r1.pre ++ r2.pre)) := by
        apply List.Sublist.cons₂
        exact List.sublist_append_right (t.1 :: r1.pre) r2.pre
      refine ⟨?_, ?_, ?_, ?_, ?_, ?_, ?_, ?_, ?_, ?_, ?_⟩
      · -- pre_nodup
        show (t.1 :: r1.pre ++ r2.pre).Nodup
        rw [List.cons_append, List.nodup_cons, List.nodup_append]
        refine ⟨?_, P1.pre_nodup, P2.pre_nodup, ?_⟩
        · intro h
          rcases List.mem_append.1 h with h | h
          · exact (hn1 _ h).2 rfl
          · exact (hn2 _ h).2.1 rfl
        · intro v hv1 hv2
          exact (hn2 v hv2).2.2 hv1
      · -- pre_new
        intro v hv
        have hv' : v ∈ t.1 :: r1.pre ++ r2.pre := hv
        simp only [List.cons_append, List.mem_cons, List.mem_append] at hv'
        rcases hv' with h | h | h
        · subst h; exact hm
        · exact (hn1 v h).1
        · exact (hn2 v h).1
      · -- pre_lt
        intro v hv
        have hv' : v ∈ t.1 :: r1.pre ++ r2.pre := hv
        simp only [List.cons_append, List.mem_cons, List.mem_append] at hv'
        rcases hv' with h | h | h
        · subst h; exact hlt
        · exact P1.pre_lt v h
        · exact P2.pre_lt v h
      · -- post_perm
        show (r1.post ++ r2.post).Perm (t.1 :: r1.pre ++ r2.pre)
        exact P1.post_perm.append P2.post_perm
      · -- tree_tgt
        show ((i, t.1, t.2) :: r1.tree ++ r2.tree).map (fun e => e.2.1) = t.1 :: r1.pre ++ r2.pre
        simp [P1.tree_tgt, P2.tree_tgt]
      · -- tree_edge
        intro e he
        have he' : e ∈ (i, t.1, t.2) :: r1.tree ++ r2.tree := he
        simp only [List.cons_append, List.mem_cons, List.mem_append] at he'
        rcases he' with h | h | h
        · subst h; exact htmem
        · exact P1.tree_edge e h
        · exact P2.tree_edge e h
      · -- tree_order
        intro e he
        have he' : e ∈ (i, t.1, t.2) :: r1.tree ++ r2.tree := he
        show before (i :: (t.1 :: r1.pre ++ r2.pre)) e.1 e.2.1
        simp only [List.cons_append, List.mem_cons, List.mem_append] at he'
        rcases he' with h | h | h
        · subst h
          exact ⟨[], [], r1.pre ++ r2.pre, by simp⟩
        · exact before_sublist hsub1 (P1.tree_order e h)
        · exact before_sublist hsub2 (P2.tree_order e h)
      · -- closed
        intro u hu x hux
        have hu' : u ∈ t.1 :: r1.pre ++ r2.pre := hu
        show x ∈ seen ++ (t.1 :: r1.pre ++ r2.pre)
        rcases List.mem_append.1 hu' with h | h
        · have := P1.closed u h x hux
          simp only [List.mem_append, List.mem_singleton, List.mem_cons] at this ⊢
          tauto
        · have := P2.closed u h x hux
          simp only [List.mem_append, List.mem_cons] at this ⊢
          tauto
      · -- covered
        intro t' ht'
        show t'.1 ∈ seen ++ (t.1 :: r1.pre ++ r2.pre)
        rcases List.mem_cons.1 ht' with h | h
        · subst h; simp
        · have := P2.covered t' h
          simp only [List.mem_append, List.mem_cons] at this ⊢
          tauto
      · -- tree_reach
        intro v hv
        have hv' : v ∈ t.1 :: r1.pre ++ r2.pre := hv
        show Relation.ReflTransGen (tadj ((i, t.1, t.2) :: r1.tree ++ r2.tree)) i v
        have hstep : tadj ((i, t.1, t.2) :: r1.tree ++ r2.tree) i t.1 := ⟨t.2, by simp⟩
        simp only [List.cons_append, List.mem_cons, List.mem_append] at hv'
        rcases hv' with h | h | h
        · subst h
          exact Relation.ReflTransGen.single hstep
        · refine Relation.ReflTransGen.head hstep (tadj_mono ?_ (P1.tree_reach v h))
          intro e he; simp [he]
        · refine tadj_mono ?_ (P2.tree_reach v h)
          intro e he; simp [he]
      · -- topo
        intro done hac hgray
        show topo_post g done (r1.post ++ r2.post)
        have hac1 : acyclic_from g t.1 := fun v hv =>
          hac v (Relation.ReflTransGen.head hadj hv)
        have h1 : topo_post g done r1.post := by
          refine P1.topo done hac1 ?_
          intro a ha hd
          rcases List.mem_append.1 ha with h | h
          · exact Relation.ReflTransGen.tail (hgray a h hd) hadj
          · simp only [List.mem_singleton] at h
            subst h
            exact Relation.ReflTransGen.refl
        have h2 : topo_post g (done ++ r1.post) r2.post := by
          refine P2.topo (done ++ r1.post) hac ?_
          intro a ha hd
          rcases List.mem_append.1 ha with h | h
          · exact hgray a h (fun hd' => hd (List.mem_append_left _ hd'))
          · exact absurd (List.mem_append_right _ (P1.post_perm.mem_iff.2 h)) hd
        exact topo_post_append g _ _ _ h1 h2

theorem dfs_core_spec {g : graph_t} (hg : g.wf) :
    ∀ (fuel i : Nat) (seen : List Nat), unseen g seen < fuel →
      ∃ r, dfs_core g fuel i seen = some r ∧ dfs_post g i seen r := by
  intro fuel
  induction fuel with
  | zero => intro i seen h; omega
  | succ fuel ih =>
    intro i seen hfuel
    obtain ⟨r, hr, P⟩ := dfs_core_edges_spec hg fuel i ih (succs g i) seen (fun _ h => h)
      (by omega)
    unfold dfs_core
    simp only [hr]
    refine ⟨_, rfl, ?_⟩
    have hclosed : ∀ x, adj g i x → x ∈ seen ++ r.pre := by
      intro x hx
      obtain ⟨t, ht, rfl⟩ := List.mem_map.1 ((adj_iff hg i x).1 hx)
      exact P.covered t ht
    refine ⟨P.pre_nodup, P.pre_new, P.pre_lt, ?_, P.tree_tgt, P.tree_edge, P.tree_order, ?_,
      P.tree_reach, ?_⟩
    · show (r.post ++ [i]).Perm (i :: r.pre)
      exact (List.perm_append_singleton i r.post).trans (List.Perm.cons i P.post_perm)
    · intro u hu x hux
      rcases List.mem_cons.1 hu with h | h
      · subst h; exact hclosed x hux
      · exact P.closed u h x hux
    · intro done hac hgray
      show topo_post g done (r.post ++ [i])
      refine topo_post_append g _ _ _ (P.topo done hac hgray) ⟨?_, trivial⟩
      intro x hx
      rcases List.mem_append.1 (hclosed x hx) with h | h
      · by_cases hd : x ∈ done
        · exact List.mem_append_left _ hd
        · exact absurd (Relation.TransGen.head' hx (hgray x h hd))
            (hac i Relation.ReflTransGen.refl)
      · exact List.mem_append_right _ (P.post_perm.mem_iff.2 h)

/-! ### The recursive visits of the code follow the list-level visit -/

theorem succs_eq (g : graph_t) (j : Nat) :
    succs g j = (vertex_of g (j : Int)).edges.map fun e => (e.to_.toNat, e.weight) := rfl

theorem dfs_visit_edges_sim {g : graph_t}
    (cv : Nat → List Bool → List Nat → Run (Int × List Bool × List Nat))
    (pv : Nat → List Nat → Option dfs_res) (i : Nat)
    (hsim : ∀ (j : Nat) (visited : List Bool) (seen out : List Nat) (r : dfs_res),
      j < g.n_vertices → vis_rel g visited seen → pv j seen = some r →
      ∃ visited', cv j visited out = .ret (SUCCESS, visited', out ++ j :: r.pre) ∧
        vis_rel g visited' (seen ++ r.pre)) :
    ∀ (es : List edge_t) (visited : List Bool) (seen out : List Nat) (r : dfs_res),
      (∀ e ∈ es, 0 ≤ e.to_ ∧ e.to_ < (g.n_vertices : Int)) →
      vis_rel g visited seen →
      dfs_core_edges pv i (es.map fun e => (e.to_.toNat, e.weight)) seen = some r →
      ∃ visited', graph_dfs_visit_edges cv g es visited out = .ret (visited', out ++ r.pre) ∧
        vis_rel g visited' (seen ++ r.pre) := by
  intro es
  induction es with
  | nil =>
    intro visited seen out r _ hv h
    simp only [List.map_nil, dfs_core_edges, Option.some.injEq] at h
    subst h
    exact ⟨visited, by simp [graph_dfs_visit_edges], by simpa using hv⟩
  | cons e es ih =>
    intro visited seen out r hes hv h
    have he := hes e (List.mem_cons_self _ _)
    have hes' : ∀ e' ∈ es, 0 ≤ e'.to_ ∧ e'.to_ < (g.n_vertices : Int) :=
      fun e' h' => hes e' (List.mem_cons_of_mem _ h')
    have hlt : e.to_.toNat < g.n_vertices := (Int.toNat_lt he.1).2 he.2
    rw [List.map_cons, dfs_core_edges] at h
    rw [graph_dfs_visit_edges]
    simp only [vertex_index_ok he.1 he.2, not_lt.2 he.1, if_false, vis_rel_get hv hlt,
      Run.ret_bind]
    by_cases hm : e.to_.toNat ∈ seen
    · simp only [hm, if_true] at h
      simp only [hm, decide_True, Bool.not_true, Bool.false_eq_true, if_false]
      exact ih visited seen out r hes' hv h
    · simp only [hm, if_false] at h
      obtain ⟨hs1, hs2⟩ := vis_rel_set hv hlt
      simp only [hm, decide_False, Bool.not_false, if_true, hs1, Run.ret_bind]
      cases h1 : pv e.to_.toNat (seen ++ [e.to_.toNat]) with
      | none => simp [h1] at h
      | some r1 =>
        simp only [h1] at h
        cases h2 : dfs_core_edges pv i (es.map fun e => (e.to_.toNat, e.weight))
            (seen ++ e.to_.toNat :: r1.pre) with
        | none => simp [h2] at h
        | some r2 =>
          simp only [h2, Option.some.injEq] at h
          subst h
          obtain ⟨v1, hc1, hr1⟩ := hsim e.to_.toNat _ _ out r1 hlt hs2 h1
          have hr1' : vis_rel g v1 (seen ++ e.to_.toNat :: r1.pre) := by
            simpa [List.append_assoc] using hr1
          obtain ⟨v2, hc2, hr2⟩ := ih v1 _ (out ++ e.to_.toNat :: r1.pre) r2 hes' hr1' h2
          refine ⟨v2, ?_, ?_⟩
          · simp only [hc1, Run.ret_bind, ne_eq, not_true_eq_false, if_false, hc2]
            simp [List.append_assoc]
          · simpa [List.append_assoc] using hr2

theorem dfs_visit_sim {g : graph_t} (hg : g.wf) :
    ∀ (fuel j : Nat) (visited : List Bool) (seen out : List Nat) (r : dfs_res),
      j < g.n_vertices → vis_rel g visited seen → dfs_core g fuel j seen = some r →
      ∃ visited', graph_dfs_visit g fuel j visited out = .ret (SUCCESS, visited', out ++ j :: r.pre) ∧
        vis_rel g visited' (seen ++ r.pre) := by
  intro fuel
  induction fuel with
  | zero => intro j visited seen out r _ _ h; simp [dfs_core] at h
  | succ fuel ih =>
    intro j visited seen out r hj hv h
    rw [dfs_core] at h
    cases h1 : dfs_core_edges (dfs_core g fuel) j (succs g j) seen with
    | none => simp [h1] at h
    | some r1 =>
      simp only [h1, Option.some.injEq] at h
      subst h
      rw [succs_eq] at h1
      obtain ⟨v1, hc, hr⟩ := dfs_visit_edges_sim (graph_dfs_visit g fuel) (dfs_core g fuel) j ih
        (vertex_of g (j : Int)).edges visited seen (out ++ [j]) r1 (wf_edges hg _) hv h1
      refine ⟨v1, ?_, hr⟩
      rw [graph_dfs_visit]
      simp only [get_vertex_ok hj, ne_eq, not_true_eq_false, if_false, hc, Run.ret_bind]
      simp [List.append_assoc]

theorem vlist_pushed_append (l : vlist_t) (p₁ p₂ : List Nat) :
    vlist_pushed (vlist_pushed l p₁) p₂ = vlist_pushed l (p₁ ++ p₂) := by
  simp [vlist_pushed, Nat.add_assoc]

theorem vlist_pushed_insert (l : vlist_t) (p : List Nat) (j : Nat) :
    (vlist_insert_head (vlist_pushed l p) (j : Int)).2 = vlist_pushed l (p ++ [j]) := by
  simp [vlist_pushed, vlist_insert_head, Nat.add_assoc]

theorem toposort_visit_edges_sim {g : graph_t}
    (cv : Nat → List Bool → vlist_t → Run (Int × List Bool × vlist_t))
    (pv : Nat → List Nat → Option dfs_res) (i : Nat)
    (hsim : ∀ (j : Nat) (visited : List Bool) (seen : List Nat) (l : vlist_t) (r : dfs_res),
      j < g.n_vertices → vis_rel g visited seen → pv j seen = some r →
      ∃ visited', cv j visited l = .ret (SUCCESS, visited', vlist_pushed l r.post) ∧
        vis_rel g visited' (seen ++ r.pre)) :
    ∀ (es : List edge_t) (visited : List Bool) (seen : List Nat) (l : vlist_t) (r : dfs_res),
      (∀ e ∈ es, 0 ≤ e.to_ ∧ e.to_ < (g.n_vertices : Int)) →
      vis_rel g visited seen →
      dfs_core_edges pv i (es.map fun e => (e.to_.toNat, e.weight)) seen = some r →
      ∃ visited', graph_toposort_visit_edges cv g es visited l =
          .ret (none, visited', vlist_pushed l r.post) ∧
        vis_rel g visited' (seen ++ r.pre) := by
  intro es
  induction es with
  | nil =>
    intro visited seen l r _ hv h
    simp only [List.map_nil, dfs_core_edges, Option.some.injEq] at h
    subst h
    exact ⟨visited, by simp [graph_toposort_visit_edges, vlist_pushed], by simpa using hv⟩
  | cons e es ih =>
    intro visited seen l r hes hv h
    have he := hes e (List.mem_cons_self _ _)
    have hes' : ∀ e' ∈ es, 0 ≤ e'.to_ ∧ e'.to_ < (g.n_vertices : Int) :=
      fun e' h' => hes e' (List.mem_cons_of_mem _ h')
    have hlt : e.to_.toNat < g.n_vertices := (Int.toNat_lt he.1).2 he.2
    rw [List.map_cons, dfs_core_edges] at h
    rw [graph_toposort_visit_edges]
    simp only [vertex_index_ok he.1 he.2, not_lt.2 he.1, if_false, vis_rel_get hv hlt,
      Run.ret_bind]
    by_cases hm : e.to_.toNat ∈ seen
    · simp only [hm, if_true] at h
      simp only [hm, decide_True, Bool.not_true, Bool.false_eq_true, if_false]
      exact ih visited seen l r hes' hv h
    · simp only [hm, if_false] at h
      obtain ⟨hs1, hs2⟩ := vis_rel_set hv hlt
      simp only [hm, decide_False, Bool.not_false, if_true, hs1, Run.ret_bind]
      cases h1 : pv e.to_.toNat (seen ++ [e.to_.toNat]) with
      | none => simp [h1] at h
      | some r1 =>
        simp only [h1] at h
        cases h2 : dfs_core_edges pv i (es.map fun e => (e.to_.toNat, e.weight))
            (seen ++ e.to_.toNat :: r1.pre) with
        | none => simp [h2] at h
        | some r2 =>
          simp only [h2, Option.some.injEq] at h
          subst h
          obtain ⟨v1, hc1, hr1⟩ := hsim e.to_.toNat _ _ l r1 hlt hs2 h1
          have hr1' : vis_rel g v1 (seen ++ e.to_.toNat :: r1.pre) := by
            simpa [List.append_assoc] using hr1
          obtain ⟨v2, hc2, hr2⟩ := ih v1 _ (vlist_pushed l r1.post) r2 hes' hr1' h2
          refine ⟨v2, ?_, ?_⟩
          · simp only [hc1, Run.ret_bind, ne_eq, not_true_eq_false, if_false, hc2,
              vlist_pushed_append]
          · simpa [List.append_assoc] using hr2

theorem toposort_visit_sim {g : graph_t} (hg : g.wf) :
    ∀ (fuel j : Nat) (visited : List Bool) (seen : List Nat) (l : vlist_t) (r : dfs_res),
      j < g.n_vertices → vis_rel g visited seen → dfs_core g fuel j seen = some r →
      ∃ visited', graph_toposort_visit g fuel j visited l =
          .ret (SUCCESS, visited', vlist_pushed l r.post) ∧
        vis_rel g visited' (seen ++ r.pre) := by
  intro fuel
  induction fuel with
  | zero => intro j visited seen l r _ _ h; simp [dfs_core] at h
  | succ fuel ih =>
    intro j visited seen l r hj hv h
    rw [dfs_core] at h
    cases h1 : dfs_core_edges (dfs_core g fuel) j (succs g j) seen with
    | none => simp [h1] at h
    | some r1 =>
      simp only [h1, Option.some.injEq] at h
      subst h
      rw [succs_eq] at h1
      obtain ⟨v1, hc, hr⟩ := toposort_visit_edges_sim (graph_toposort_visit g fuel)
        (dfs_core g fuel) j ih (vertex_of g (j : Int)).edges visited seen l r1
        (wf_edges hg _) hv h1
      refine ⟨v1, ?_, hr⟩
      rw [graph_toposort_visit]
      simp only [get_vertex_ok hj, ne_eq, not_true_eq_false, if_false, hc, Run.ret_bind,
        vlist_pushed_insert]

theorem add_edges_cons (tree : graph_t) (e : Nat × Nat × Rat) (T : List (Nat × Nat × Rat)) :
    add_edges tree (e :: T) = add_edges (graph_add_edge tree e.1 e.2.1 e.2.2).2 T := rfl

theorem add_edges_append (tree : graph_t) (T₁ T₂ : List (Nat × Nat × Rat)) :
    add_edges tree (T₁ ++ T₂) = add_edges (add_edges tree T₁) T₂ := by
  simp [add_edges, List.foldl_append]

theorem add_edge_n (tree : graph_t) (a b : Nat) (w : Rat) :
    (graph_add_edge tree a b w).2.n_vertices = tree.n_vertices := by
  unfold graph_add_edge
  split <;> rfl

theorem add_edges_n (T : List (Nat × Nat × Rat)) : ∀ (tree : graph_t),
    (add_edges tree T).n_vertices = tree.n_vertices := by
  induction T with
  | nil => intro tree; rfl
  | cons e T ih => intro tree; rw [add_edges_cons, ih, add_edge_n]

theorem spanning_visit_edges_sim {g : graph_t}
    (cv : Nat → List Bool → graph_t → List (Nat × Nat) →
      Run (Int × List Bool × graph_t × List (Nat × Nat)))
    (pv : Nat → List Nat → Option dfs_res) (i : Nat) (hi : i < g.n_vertices)
    (hsim : ∀ (j : Nat) (visited : List Bool) (seen : List Nat) (tree : graph_t)
      (out : List (Nat × Nat)) (r : dfs_res),
      j < g.n_vertices → vis_rel g visited seen → tree.n_vertices = g.n_vertices →
      pv j seen = some r →
      ∃ visited', cv j visited tree out =
          .ret (SUCCESS, visited', add_edges tree r.tree,
            out ++ r.tree.map fun e => (e.1, e.2.1)) ∧
        vis_rel g visited' (seen ++ r.pre)) :
    ∀ (es : List edge_t) (visited : List Bool) (seen : List Nat) (tree : graph_t)
      (out : List (Nat × Nat)) (r : dfs_res),
      (∀ e ∈ es, 0 ≤ e.to_ ∧ e.to_ < (g.n_vertices : Int)) →
      vis_rel g visited seen → tree.n_vertices = g.n_vertices →
      dfs_core_edges pv i (es.map fun e => (e.to_.toNat, e.weight)) seen = some r →
      ∃ visited', graph_spanning_tree_visit_edges cv g i es visited tree out =
          .ret (none, visited', add_edges tree r.tree,
            out ++ r.tree.map fun e => (e.1, e.2.1)) ∧
        vis_rel g visited' (seen ++ r.pre) := by
  intro es
  induction es with
  | nil =>
    intro visited seen tree out r _ hv _ h
    simp only [List.map_nil, dfs_core_edges, Option.some.injEq] at h
    subst h
    exact ⟨visited, by simp [graph_spanning_tree_visit_edges, add_edges], by simpa using hv⟩
  | cons e es ih =>
    intro visited seen tree out r hes hv htn h
    have he := hes e (List.mem_cons_self _ _)
    have hes' : ∀ e' ∈ es, 0 ≤ e'.to_ ∧ e'.to_ < (g.n_vertices : Int) :=
      fun e' h' => hes e' (List.mem_cons_of_mem _ h')
    have hlt : e.to_.toNat < g.n_vertices := (Int.toNat_lt he.1).2 he.2
    rw [List.map_cons, dfs_core_edges] at h
    rw [graph_spanning_tree_visit_edges]
    simp only [vertex_index_ok he.1 he.2, not_lt.2 he.1, if_false, vis_rel_get hv hlt,
      Run.ret_bind]
    by_cases hm : e.to_.toNat ∈ seen
    · simp only [hm, if_true] at h
      simp only [hm, decide_True, Bool.not_true, Bool.false_eq_true, if_false]
      exact ih visited seen tree out r hes' hv htn h
    · simp only [hm, if_false] at h
      obtain ⟨hs1, hs2⟩ := vis_rel_set hv hlt
      simp only [hm, decide_False, Bool.not_false, if_true, hs1, Run.ret_bind]
      have hcond : ¬ (i ≥ tree.n_vertices ∨ e.to_.toNat ≥ tree.n_vertices) := by
        rw [htn]; omega
      have hadd : (graph_add_edge tree i e.to_.toNat e.weight).1 = SUCCESS := by
        unfold graph_add_edge
        rw [if_neg hcond]
      cases h1 : pv e.to_.toNat (seen ++ [e.to_.toNat]) with
      | none => simp [h1] at h
      | some r1 =>
        simp only [h1] at h
        cases h2 : dfs_core_edges pv i (es.map fun e => (e.to_.toNat, e.weight))
            (seen ++ e.to_.toNat :: r1.pre) with
        | none => simp [h2] at h
        | some r2 =>
          simp only [h2, Option.some.injEq] at h
          subst h
          obtain ⟨v1, hc1, hr1⟩ := hsim e.to_.toNat _ _
            (graph_add_edge tree i e.to_.toNat e.weight).2 (out ++ [(i, e.to_.toNat)]) r1 hlt hs2
            (by rw [add_edge_n, htn]) h1
          have hr1' : vis_rel g v1 (seen ++ e.to_.toNat :: r1.pre) := by
            simpa [List.append_assoc] using hr1
          obtain ⟨v2, hc2, hr2⟩ := ih v1 _
            (add_edges (graph_add_edge tree i e.to_.toNat e.weight).2 r1.tree)
            (out ++ [(i, e.to_.toNat)] ++ r1.tree.map fun e => (e.1, e.2.1)) r2 hes' hr1'
            (by rw [add_edges_n, add_edge_n, htn]) h2
          refine ⟨v2, ?_, ?_⟩
          · simp only [hadd, ne_eq, not_true_eq_false, if_false, hc1, Run.ret_bind, hc2]
            simp [add_edges_cons, add_edges_append, List.append_assoc]
          · simpa [List.append_assoc] using hr2

theorem spanning_visit_sim {g : graph_t} (hg : g.wf) :
    ∀ (fuel j : Nat) (visited : List Bool) (seen : List Nat) (tree : graph_t)
      (out : List (Nat × Nat)) (r : dfs_res),
      j < g.n_vertices → vis_rel g visited seen → tree.n_vertices = g.n_vertices →
      dfs_core g fuel j seen = some r →
      ∃ visited', graph_spanning_tree_visit g fuel j visited tree out =
          .ret (SUCCESS, visited', add_edges tree r.tree,
            out ++ r.tree.map fun e => (e.1, e.2.1)) ∧
        vis_rel g visited' (seen ++ r.pre) := by
  intro fuel
  induction fuel with
  | zero => intro j visited seen tree out r _ _ _ h; simp [dfs_core] at h
  | succ fuel ih =>
    intro j visited seen tree out r hj hv htn h
    rw [dfs_core] at h
    cases h1 : dfs_core_edges (dfs_core g fuel) j (succs g j) seen with
    | none => simp [h1] at h
    | some r1 =>
      simp only [h1, Option.some.injEq] at h
      subst h
      rw [succs_eq] at h1
      obtain ⟨v1, hc, hr⟩ := spanning_visit_edges_sim (graph_spanning_tree_visit g fuel)
        (dfs_core g fuel) j hj ih (vertex_of g (j : Int)).edges visited seen tree out r1
        (wf_edges hg _) hv htn h1
      refine ⟨v1, ?_, hr⟩
      rw [graph_spanning_tree_visit]
      simp only [get_vertex_ok hj, ne_eq, not_true_eq_false, if_false, hc, Run.ret_bind]

/-! ### Consequences for a visit started with only the root marked -/

theorem unseen_start {g : graph_t} {start fuel : Nat} (hs : start < g.n_vertices)
    (hf : g.n_vertices < fuel) : unseen g [start] < fuel := by
  have h1 := @unseen_snoc g [] start hs (by simp)
  have h2 := unseen_le g []
  simp only [List.nil_append] at h1
  omega

theorem tadj_adj {g : graph_t} (hg : g.wf) {T : List (Nat × Nat × Rat)}
    (hT : ∀ e ∈ T, (e.2.1, e.2.2) ∈ succs g e.1) {a b : Nat} (h : tadj T a b) : adj g a b := by
  obtain ⟨w, hw⟩ := h
  exact (adj_iff hg a b).2 (List.mem_map.2 ⟨(b, w), hT _ hw, rfl⟩)

theorem dfs_post_reach {g : graph_t} (hg : g.wf) {i : Nat} {seen : List Nat} {r : dfs_res}
    (P : dfs_post g i seen r) : ∀ v ∈ r.pre, reach g i v := fun v hv =>
  Relation.ReflTransGen.mono (fun _ _ h => tadj_adj hg P.tree_edge h) (P.tree_reach v hv)

theorem dfs_post_complete {g : graph_t} {i : Nat} {r : dfs_res} (P : dfs_post g i [i] r) :
    ∀ v, reach g i v → v ∈ i :: r.pre := by
  intro v hv
  induction hv with
  | refl => exact List.mem_cons_self _ _
  | tail _ hadj ih => simpa using P.closed _ ih _ hadj

theorem dfs_post_nodup {g : graph_t} {i : Nat} {r : dfs_res} (P : dfs_post g i [i] r) :
    (i :: r.pre).Nodup :=
  List.nodup_cons.2 ⟨fun h => P.pre_new i h (by simp), P.pre_nodup⟩

theorem dfs_post_mem_iff {g : graph_t} (hg : g.wf) {i : Nat} {r : dfs_res}
    (P : dfs_post g i [i] r) (v : Nat) : v ∈ i :: r.pre ↔ reach g i v := by
  constructor
  · intro h
    rcases List.mem_cons.1 h with h | h
    · subst h; exact Relation.ReflTransGen.refl
    · exact dfs_post_reach hg P v h
  · exact dfs_post_complete P v

theorem topo_post_before (g : graph_t) : ∀ (F done l₁ l₂ : List Nat) (u x : Nat),
    topo_post g done F → F = l₁ ++ u :: l₂ → adj g u x → x ∈ done ∨ x ∈ l₁ := by
  intro F
  induction F with
  | nil => intro done l₁ l₂ u x _ h; simp at h
  | cons a F ih =>
    intro done l₁ l₂ u x ht hF hux
    cases l₁ with
    | nil =>
      simp only [List.nil_append, List.cons.injEq] at hF
      obtain ⟨rfl, _⟩ := hF
      exact Or.inl (ht.1 x hux)
    | cons b l₁ =>
      simp only [List.cons_append, List.cons.injEq] at hF
      obtain ⟨rfl, hF⟩ := hF
      rcases ih _ l₁ l₂ u x ht.2 hF hux with h | h
      · rcases List.mem_append.1 h with h | h
        · exact Or.inl h
        · exact Or.inr (by simp at h; simp [h])
      · exact Or.inr (List.mem_cons_of_mem _ h)

/-- Running `graph_toposort` on a well-formed graph from a valid start with
enough fuel returns `SUCCESS` and the finishing sequence of the list-level
visit, reversed. -/
theorem graph_toposort_run {g : graph_t} (hg : g.wf) {start : Nat} (hs : start < g.n_vertices)
    {fuel : Nat} (hf : g.n_vertices < fuel) :
    ∃ r, dfs_post g start [start] r ∧
      graph_toposort fuel g start =
        .ret (SUCCESS, ⟨r.post.reverse.length, r.post.reverse.map Int.ofNat⟩) := by
  obtain ⟨r, hr, P⟩ := dfs_core_spec hg fuel start [start] (unseen_start hs hf)
  obtain ⟨hv1, hv2⟩ := vis_rel_set (vis_rel_init g) hs
  obtain ⟨v', hc, _⟩ := toposort_visit_sim hg fuel start _ _ vlist_init.2 r hs hv2 hr
  refine ⟨r, P, ?_⟩
  unfold graph_toposort
  simp only [vlist_init, ne_eq, not_true_eq_false, if_false, hv1, Run.ret_bind] at hc ⊢
  rw [hc]
  simp [vlist_pushed, Run.ret_bind]

theorem acyclic_of_increasing {g : graph_t} (h : ∀ u v, adj g u v → u < v) (s : Nat) :
    acyclic_from g s := by
  intro v _ hc
  have key : ∀ a b, Relation.TransGen (adj g) a b → a < b := by
    intro a b hab
    induction hab with
    | single h1 => exact h _ _ h1
    | tail _ h2 ih => exact lt_trans ih (h _ _ h2)
  exact absurd (key v v hc) (lt_irrefl v)

theorem dag4_acyclic : acyclic_from (mk_graph 4 [(0, 1, 1), (0, 2, 1), (1, 3, 1), (2, 3, 1)]) 0 := by
  apply acyclic_of_increasing
  intro u v huv
  obtain ⟨hu, e, he, hev⟩ := huv
  have hall : ∀ u' : Nat, u' < 4 → ∀ e' ∈ (vertex_of (mk_graph 4 [(0, 1, 1), (0, 2, 1), (1, 3, 1), (2, 3, 1)])
      (u' : Int)).edges, (u' : Int) < e'.to_ := by decide
  have := hall u hu e he
  rw [hev] at this
  exact_mod_cast this

/-! ### The restart scan of `graph_dfs` -/

theorem closed_reach {g : graph_t} {S : List Nat} (hS : ∀ u ∈ S, ∀ x, adj g u x → x ∈ S)
    {y x : Nat} (hy : y ∈ S) (h : reach g y x) : x ∈ S := by
  induction h with
  | refl => exact hy
  | tail _ hadj ih => exact hS _ ih _ hadj

theorem dfs_post_transgen {g : graph_t} (hg : g.wf) {i : Nat} {seen : List Nat} {r : dfs_res}
    (P : dfs_post g i seen r) {x : Nat} (hx : x ∈ r.pre) : Relation.TransGen (adj g) i x := by
  rw [← P.tree_tgt] at hx
  obtain ⟨e, he, rfl⟩ := List.mem_map.1 hx
  have hadj : adj g e.1 e.2.1 := tadj_adj hg P.tree_edge ⟨e.2.2, he⟩
  obtain ⟨l₁, l₂, l₃, hl⟩ := P.tree_order e he
  have hmem : e.1 ∈ i :: r.pre := by rw [hl]; simp
  rcases List.mem_cons.1 hmem with h | h
  · rw [h] at hadj; exact Relation.TransGen.single hadj
  · exact Relation.TransGen.tail' (dfs_post_reach hg P _ h) hadj

theorem dfs_scan_spec {g : graph_t} (hg : g.wf) {start fuel : Nat} (hs : start < g.n_vertices)
    (hf : g.n_vertices < fuel) :
    ∀ (m k : Nat) (visited : List Bool) (seen out : List Nat) (c : Nat),
      k + m = g.n_vertices → vis_rel g visited seen → start ∈ seen → scan_inv g start seen k →
      ∃ (visited' : List Bool) (out' roots : List Nat),
        graph_dfs_scan g fuel (List.range' k m) visited out c =
          .ret (visited', out', c + roots.length) ∧
        roots.Nodup ∧ ∀ i, i ∈ roots ↔ (k ≤ i ∧ found_unvisited g start i) := by
  intro m
  induction m with
  | zero =>
    intro k visited seen out c hk _ _ _
    refine ⟨visited, out, [], by simp [graph_dfs_scan], by simp, fun i => ?_⟩
    simp only [List.not_mem_nil, false_iff, not_and]
    intro hki hr
    have := hr.1
    omega
  | succ m ih =>
    intro k visited seen out c hk hv hst hinv
    have hkn : k < g.n_vertices := by omega
    have hroot : found_unvisited g start k ↔ k ∉ seen := by
      rw [hinv.2 k]
      unfold found_unvisited
      constructor
      · rintro ⟨_, h1, h2⟩ (h | ⟨j, hj, h⟩)
        · exact h1 h
        · exact h2 j hj h
      · intro h
        exact ⟨hkn, fun h1 => h (Or.inl h1), fun j hj h2 => h (Or.inr ⟨j, hj, h2⟩)⟩
    rw [List.range'_succ, graph_dfs_scan]
    simp only [vis_rel_get hv hkn, Run.ret_bind]
    by_cases hm : k ∈ seen
    · simp only [hm, decide_True, Bool.not_true, Bool.false_eq_true, if_false]
      have hinv' : scan_inv g start seen (k + 1) := by
        refine ⟨hinv.1, fun x => ⟨fun hx => ?_, fun hx => ?_⟩⟩
        · rcases (hinv.2 x).1 hx with h | ⟨j, hj, h⟩
          · exact Or.inl h
          · exact Or.inr ⟨j, by omega, h⟩
        · rcases hx with h | ⟨j, hj, h⟩
          · exact (hinv.2 x).2 (Or.inl h)
          · by_cases hjk : j < k
            · exact (hinv.2 x).2 (Or.inr ⟨j, hjk, h⟩)
            · have : j = k := by omega
              subst this
              exact closed_reach hinv.1 hm (Relation.TransGen.to_reflTransGen h)
      obtain ⟨v', o', roots, h1, h2, h3⟩ := ih (k + 1) visited seen out c (by omega) hv hst hinv'
      refine ⟨v', o', roots, h1, h2, fun i => ?_⟩
      rw [h3 i]
      constructor
      · rintro ⟨h4, h5⟩; exact ⟨by omega, h5⟩
      · rintro ⟨h4, h5⟩
        refine ⟨?_, h5⟩
        by_contra hlt
        have : i = k := by omega
        subst this
        exact (hroot.1 h5) hm
    · simp only [hm, decide_False, Bool.not_false, if_true]
      have hfu : unseen g seen < fuel := by
        have h1 := @unseen_mono g [start] seen
          (fun v hv' => by simp at hv'; subst hv'; exact hst)
        have h2 := unseen_start hs hf
        omega
      obtain ⟨r, hr, P⟩ := dfs_core_spec hg fuel k seen hfu
      obtain ⟨v1, hc, hv1⟩ := dfs_visit_sim hg fuel k visited seen out r hkn hv hr
      have hclosed : ∀ u ∈ seen ++ r.pre, ∀ x, adj g u x → x ∈ seen ++ r.pre := by
        intro u hu x hux
        rcases List.mem_append.1 hu with h | h
        · exact List.mem_append_left _ (hinv.1 u h x hux)
        · exact P.closed u (List.mem_cons_of_mem _ h) x hux
      have hinv' : scan_inv g start (seen ++ r.pre) (k + 1) := by
        refine ⟨hclosed, fun x => ⟨fun hx => ?_, fun hx => ?_⟩⟩
        · rcases List.mem_append.1 hx with h | h
          · rcases (hinv.2 x).1 h with h' | ⟨j, hj, h'⟩
            · exact Or.inl h'
            · exact Or.inr ⟨j, by omega, h'⟩
          · exact Or.inr ⟨k, by omega, dfs_post_transgen hg P h⟩
        · rcases hx with h | ⟨j, hj, h⟩
          · exact List.mem_append_left _ ((hinv.2 x).2 (Or.inl h))
          · by_cases hjk : j < k
            · exact List.mem_append_left _ ((hinv.2 x).2 (Or.inr ⟨j, hjk, h⟩))
            · have : j = k := by omega
              subst this
              obtain ⟨y, hy1, hy2⟩ := Relation.TransGen.head'_iff.1 h
              exact closed_reach hclosed (P.closed j (List.mem_cons_self _ _) y hy1) hy2
      obtain ⟨v', o', roots, h1, h2, h3⟩ := ih (k + 1) v1 (seen ++ r.pre) (out ++ k :: r.pre)
        (c + 1) (by omega) hv1 (List.mem_append_left _ hst) hinv'
      refine ⟨v', o', k :: roots, ?_, ?_, fun i => ?_⟩
      · simp only [hc, Run.ret_bind, ne_eq, not_true_eq_false, if_false, h1, List.length_cons]
        rw [show c + 1 + roots.length = c + (roots.length + 1) from by omega]
      · refine List.nodup_cons.2 ⟨fun h => ?_, h2⟩
        have := ((h3 k).1 h).1
        omega
      · rw [List.mem_cons, h3 i]
        constructor
        · rintro (h | ⟨h4, h5⟩)
          · subst h; exact ⟨le_refl _, hroot.2 hm⟩
          · exact ⟨by omega, h5⟩
        · rintro ⟨h4, h5⟩
          by_cases hik : i = k
          · exact Or.inl hik
          · exact Or.inr ⟨by omega, h5⟩

/-- Running `graph_dfs` on a well-formed graph from a valid start with enough
fuel returns one plus the number of vertices found unvisited by the scan. -/
theorem graph_dfs_run {g : graph_t} (hg : g.wf) {start : Nat} (hs : start < g.n_vertices)
    {fuel : Nat} (hf : g.n_vertices < fuel) :
    ∃ (out roots : List Nat),
      graph_dfs fuel g start = .ret (((1 + roots.length : Nat) : Int), out) ∧
      roots.Nodup ∧ ∀ i, i ∈ roots ↔ found_unvisited g start i := by
  obtain ⟨r, hr, P⟩ := dfs_core_spec hg fuel start [start] (unseen_start hs hf)
  obtain ⟨hv1, hv2⟩ := vis_rel_set (vis_rel_init g) hs
  obtain ⟨v1, hc, hvr⟩ := dfs_visit_sim hg fuel start _ _ [] r hs hv2 hr
  have hinv : scan_inv g start ([] ++ [start] ++ r.pre) 0 := by
    refine ⟨fun u hu x hux => ?_, fun x => ?_⟩
    · simpa using P.closed u (by simpa using hu) x hux
    · have := dfs_post_mem_iff hg P x
      simp only [List.nil_append, List.singleton_append, this]
      constructor
      · exact fun h => Or.inl h
      · rintro (h | ⟨j, hj, _⟩)
        · exact h
        · omega
  obtain ⟨v', o', roots, h1, h2, h3⟩ := dfs_scan_spec hg hs hf g.n_vertices 0 v1 _
    ([] ++ start :: r.pre) 1 (by omega) hvr (by simp) hinv
  refine ⟨o', roots, ?_, h2, fun i => ?_⟩
  · unfold graph_dfs
    simp only [hv1, Run.ret_bind, hc, ne_eq, not_true_eq_false, if_false, List.range_eq_range',
      h1]
  · rw [h3 i]
    simp

/-! ### Iterative depth-first traversal -/

theorem dfs_iter_edges_eq (g : graph_t) : ∀ (es : List edge_t) (visited : List Bool)
    (q : vlist_t) (rc : Int),
    graph_dfs_iter_edges g es visited q rc = graph_bfs_edges g es visited q rc := by
  intro es
  induction es with
  | nil => intro visited q rc; rfl
  | cons e es ih =>
    intro visited q rc
    rw [graph_dfs_iter_edges, graph_bfs_edges]
    simp only [ih, vlist_push, vlist_enqueue]

theorem dfsi_loop_sim (g : graph_t) (hg : g.wf) :
    ∀ (fuel : Nat) (visited : List Bool) (out st : List Nat) (o : List Nat),
      vis_rel g visited (out ++ st) →
      dfsi_ref g fuel out st = some o →
      ∃ visited',
        graph_dfs_iter_loop g fuel visited ⟨st.length, st.map Int.ofNat⟩ out =
          .ret (visited', ⟨0, []⟩, o) := by
  intro fuel
  induction fuel with
  | zero => intro visited out st o _ h; simp [dfsi_ref] at h
  | succ fuel ih =>
    intro visited out st o hv h
    cases st with
    | nil =>
      simp only [dfsi_ref, Option.some.injEq] at h
      subst h
      exact ⟨visited, by simp [graph_dfs_iter_loop]⟩
    | cons u st =>
      simp only [dfsi_ref] at h
      have hu : u < g.n_vertices := vis_rel_lt hv (by simp)
      have hu0 : (0 : Int) ≤ (u : Int) := Int.ofNat_nonneg u
      have hu1 : (u : Int) < (g.n_vertices : Int) := by exact_mod_cast hu
      obtain ⟨v1, h1, h2⟩ := bfs_edges_sim g (vertex_of g (u : Int)).edges visited (out ++ u :: st)
        ⟨st.length, st.map Int.ofNat⟩ (wf_edges hg _) hv
      rw [← succs_fst] at h1 h2
      have h3 : vis_rel g v1 ((out ++ [u]) ++
          ((fresh (out ++ u :: st) ((succs g u).map Prod.fst)).reverse ++ st)) := by
        refine ⟨h2.1, fun v => ?_⟩
        rw [h2.2 v]
        simp only [List.mem_append, List.mem_cons, List.mem_singleton, List.mem_reverse,
          List.not_mem_nil, or_false]
        tauto
      obtain ⟨v2, h4⟩ := ih v1 (out ++ [u]) _ o h3 h
      refine ⟨v2, ?_⟩
      have hd : vlist_pop ⟨(u :: st).length, (u :: st).map Int.ofNat⟩ =
          .ret (SUCCESS, ⟨st.length, st.map Int.ofNat⟩, some (u : Int)) := by
        simp [vlist_pop, vlist_remove_head]
      have hpos : (⟨(u :: st).length, (u :: st).map Int.ofNat⟩ : vlist_t).length > 0 := by
        simp
      rw [graph_dfs_iter_loop, if_pos hpos, hd]
      simp only [Run.ret_bind, ne_eq, not_true_eq_false, if_false, vertex_index_ok hu0 hu1,
        not_lt.2 hu0, Int.toNat_natCast, dfs_iter_edges_eq, h1]
      rw [← h4]
      simp [Nat.add_comm]

theorem unseen_congr (g : graph_t) {a b : List Nat} (h : ∀ v, v ∈ a ↔ v ∈ b) :
    unseen g a = unseen g b :=
  le_antisymm (unseen_mono g fun v hv => (h v).2 hv) (unseen_mono g fun v hv => (h v).1 hv)

theorem dfsi_inv_step {g : graph_t} (hg : g.wf) {s : Nat} {out st : List Nat} {u : Nat}
    (h : dfsi_inv g s out (u :: st)) :
    dfsi_inv g s (out ++ [u])
      ((fresh (out ++ u :: st) ((succs g u).map Prod.fst)).reverse ++ st) := by
  have hF1 := fresh_sub ((succs g u).map Prod.fst) (out ++ u :: st)
  have hF2 := fresh_nodup ((succs g u).map Prod.fst) (out ++ u :: st)
  have hF3 := fresh_cover ((succs g u).map Prod.fst) (out ++ u :: st)
  generalize fresh (out ++ u :: st) ((succs g u).map Prod.fst) = F at hF1 hF2 hF3 ⊢
  have hperm : (out ++ [u] ++ (F.reverse ++ st)).Perm ((out ++ u :: st) ++ F) := by
    have e1 : out ++ [u] ++ (F.reverse ++ st) = (out ++ [u]) ++ (F.reverse ++ st) := rfl
    have e2 : (out ++ u :: st) ++ F = (out ++ [u]) ++ (st ++ F) := by simp
    rw [e2]
    refine List.Perm.append_left _ ?_
    exact (List.Perm.append_right st (List.reverse_perm F)).trans List.perm_append_comm
  have hmem : ∀ v, v ∈ out ++ [u] ++ (F.reverse ++ st) ↔ v ∈ out ++ u :: st ∨ v ∈ F := by
    intro v
    rw [hperm.mem_iff, List.mem_append]
  have hu : u ∈ out ++ u :: st := by simp
  refine ⟨?_, ?_, ?_, ?_, ?_, ?_⟩
  · rw [hperm.nodup_iff]
    exact List.nodup_append.2 ⟨h.nodup, hF2, fun a ha hf => (hF1 a hf).2 ha⟩
  · intro v hv
    rcases (hmem v).1 hv with hv | hv
    · exact h.lt v hv
    · exact adj_lt hg ((adj_iff hg u v).2 (hF1 v hv).1)
  · intro p hp x hpx
    rw [hmem]
    rcases List.mem_append.1 hp with hp | hp
    · exact Or.inl (h.closed p hp x hpx)
    · simp only [List.mem_singleton] at hp
      subst hp
      exact hF3 x ((adj_iff hg p x).1 hpx)
  · intro v hv
    rcases (hmem v).1 hv with hv | hv
    · exact h.rch v hv
    · exact Relation.ReflTransGen.tail (h.rch u hu) ((adj_iff hg u v).2 (hF1 v hv).1)
  · rw [hmem]; exact Or.inl h.start
  · right
    rcases h.first with ⟨h1, h2⟩ | ⟨t, ht⟩
    · simp only [List.cons.injEq] at h2
      exact ⟨[], by rw [h1, h2.1]; rfl⟩
    · exact ⟨t ++ [u], by rw [ht]; rfl⟩

theorem dfsi_ref_spec {g : graph_t} (hg : g.wf) (s : Nat) :
    ∀ (fuel : Nat) (out st : List Nat),
      dfsi_inv g s out st → st.length + unseen g (out ++ st) < fuel →
      ∃ o, dfsi_ref g fuel out st = some o ∧ dfsi_inv g s o [] := by
  intro fuel
  induction fuel with
  | zero => intro out st _ h; omega
  | succ fuel ih =>
    intro out st hinv hfuel
    cases st with
    | nil => exact ⟨out, by simp [dfsi_ref], hinv⟩
    | cons u st =>
      simp only [dfsi_ref]
      refine ih _ _ (dfsi_inv_step hg hinv) ?_
      have h1 := unseen_fresh g ((succs g u).map Prod.fst) (out ++ u :: st)
        (fun t ht => adj_lt hg ((adj_iff hg u t).2 ht))
      have h2 : unseen g (out ++ [u] ++
          ((fresh (out ++ u :: st) ((succs g u).map Prod.fst)).reverse ++ st)) =
          unseen g ((out ++ u :: st) ++ fresh (out ++ u :: st) ((succs g u).map Prod.fst)) := by
        apply unseen_congr
        intro v
        simp only [List.mem_append, List.mem_cons, List.mem_singleton, List.mem_reverse,
          List.not_mem_nil, or_false]
        tauto
      rw [h2]
      simp only [List.length_append, List.length_cons, List.length_reverse] at hfuel ⊢
      omega

/-- Running `graph_dfs_iter` on a well-formed graph from a valid start with
enough fuel returns `SUCCESS` with the output of the stack-level traversal,
which satisfies the loop invariant with an empty stack. -/
theorem graph_dfs_iter_run {g : graph_t} (hg : g.wf) {start : Nat} (hs : start < g.n_vertices)
    {fuel : Nat} (hf : g.n_vertices < fuel) :
    ∃ out, graph_dfs_iter fuel g start = .ret (SUCCESS, out) ∧ dfsi_inv g start out [] := by
  have hinit : dfsi_inv g start [] [start] := by
    refine ⟨by simp, by simpa using hs, by simp, ?_, by simp, Or.inl ⟨rfl, rfl⟩⟩
    intro v hv
    simp only [List.nil_append, List.mem_singleton] at hv
    subst hv
    exact Relation.ReflTransGen.refl
  have hfuel : [start].length + unseen g ([] ++ [start]) < fuel := by
    have h1 := @unseen_snoc g [] start hs (by simp)
    have h2 := unseen_le g []
    simp only [List.length_singleton]
    omega
  obtain ⟨o, h1, h2⟩ := dfsi_ref_spec hg start fuel [] [start] hinit hfuel
  obtain ⟨hv1, hv2⟩ := vis_rel_set (vis_rel_init g) hs
  obtain ⟨v', h3⟩ := dfsi_loop_sim g hg fuel _ [] [start] o hv2 h1
  refine ⟨o, ?_, h2⟩
  unfold graph_dfs_iter
  simp only [vlist_init, ne_eq, not_true_eq_false, if_false, get_vertex_ok hs, hv1, Run.ret_bind,
    vlist_push, vlist_insert_head]
  simp only [List.length_singleton, List.map_cons, List.map_nil] at h3
  have h4 : ∀ x : Nat, Int.ofNat x = (x : Int) := fun _ => rfl
  rw [h4] at h3
  simp only [zero_add]
  rw [h3]
  rfl

/-! ### The graph built by `graph_spanning_tree` -/

theorem vertex_of_no_edges {t : graph_t} (h : no_edges t) (p : Int) :
    (vertex_of t p).edges = [] := by
  unfold vertex_of
  rw [List.getD_eq_getElem?_getD]
  cases hx : t.vertices[p.toNat]? with
  | none => rfl
  | some x => exact h x (List.getElem?_mem hx)

theorem set_label_shape (t : graph_t) (i : Nat) (lab : Option (List Char)) :
    (graph_set_label t i lab).2.n_vertices = t.n_vertices ∧
    (graph_set_label t i lab).2.vertices.length = t.vertices.length ∧
    (no_edges t → no_edges (graph_set_label t i lab).2) := by
  unfold graph_set_label
  by_cases hi : i ≥ t.n_vertices
  · rw [if_pos hi]; exact ⟨rfl, rfl, fun h => h⟩
  · rw [if_neg hi]
    cases lab with
    | none =>
      refine ⟨rfl, by simp, fun h v hv => ?_⟩
      rcases List.mem_or_eq_of_mem_set hv with h1 | h1
      · exact h v h1
      · rw [h1]; exact vertex_of_no_edges h _
    | some l =>
      refine ⟨rfl, by simp, fun h v hv => ?_⟩
      rcases List.mem_or_eq_of_mem_set hv with h1 | h1
      · exact h v h1
      · rw [h1]; exact vertex_of_no_edges h _

theorem spanning_labels_shape (g : graph_t) : ∀ (is : List Nat) (t : graph_t),
    (graph_spanning_tree_labels g is t).n_vertices = t.n_vertices ∧
    (graph_spanning_tree_labels g is t).vertices.length = t.vertices.length ∧
    (no_edges t → no_edges (graph_spanning_tree_labels g is t)) := by
  intro is
  induction is with
  | nil => intro t; exact ⟨rfl, rfl, fun h => h⟩
  | cons i is ih =>
    intro t
    rw [graph_spanning_tree_labels]
    have h1 := ih (graph_set_label t i (vertex_of g i).label).2
    have h2 := set_label_shape t i (vertex_of g i).label
    exact ⟨h1.1.trans h2.1, h1.2.1.trans h2.2.1, fun h => h1.2.2 (h2.2.2 h)⟩

theorem add_edge_len (t : graph_t) (a b : Nat) (w : Rat) :
    (graph_add_edge t a b w).2.vertices.length = t.vertices.length := by
  unfold graph_add_edge
  split
  · rfl
  · simp

theorem add_edges_len (T : List (Nat × Nat × Rat)) : ∀ (t : graph_t),
    (add_edges t T).vertices.length = t.vertices.length := by
  induction T with
  | nil => intro t; rfl
  | cons e T ih => intro t; rw [add_edges_cons, ih, add_edge_len]

theorem add_edge_edges {t : graph_t} (hl : t.vertices.length = t.n_vertices) {a b : Nat}
    (ha : a < t.n_vertices) (hb : b < t.n_vertices) (w : Rat) (x : Nat) :
    (vertex_of (graph_add_edge t a b w).2 (x : Int)).edges =
      if x = a then ⟨(b : Int), w⟩ :: (vertex_of t (a : Int)).edges
      else (vertex_of t (x : Int)).edges := by
  have hcond : ¬ (a ≥ t.n_vertices ∨ b ≥ t.n_vertices) := by omega
  unfold graph_add_edge
  rw [if_neg hcond]
  unfold vertex_of
  simp only [Int.toNat_natCast, List.getD_eq_getElem?_getD, List.getElem?_set]
  by_cases hxa : x = a
  · subst hxa
    simp [hl, ha]
  · have : ¬ a = x := fun h => hxa h.symm
    simp [hxa, this]

theorem add_edges_edges (T : List (Nat × Nat × Rat)) : ∀ (t : graph_t),
    t.vertices.length = t.n_vertices →
    (∀ e ∈ T, e.1 < t.n_vertices ∧ e.2.1 < t.n_vertices) →
    ∀ (x : Nat) (e : edge_t), e ∈ (vertex_of (add_edges t T) (x : Int)).edges ↔
      e ∈ (vertex_of t (x : Int)).edges ∨ ∃ b w, (x, b, w) ∈ T ∧ e = ⟨(b : Int), w⟩ := by
  induction T with
  | nil => intro t _ _ x e; simp [add_edges]
  | cons e0 T ih =>
    intro t hl hT x e
    have h0 := hT e0 (List.mem_cons_self _ _)
    have hT' : ∀ e' ∈ T, e'.1 < (graph_add_edge t e0.1 e0.2.1 e0.2.2).2.n_vertices ∧
        e'.2.1 < (graph_add_edge t e0.1 e0.2.1 e0.2.2).2.n_vertices := by
      intro e' he'
      rw [add_edge_n]
      exact hT e' (List.mem_cons_of_mem _ he')
    rw [add_edges_cons, ih _ (by rw [add_edge_len, add_edge_n, hl]) hT' x e,
      add_edge_edges hl h0.1 h0.2]
    by_cases hx : x = e0.1
    · subst hx
      simp only [if_true, List.mem_cons]
      constructor
      · rintro ((h | h) | ⟨b, w, h1, h2⟩)
        · exact Or.inr ⟨e0.2.1, e0.2.2, Or.inl rfl, h⟩
        · exact Or.inl h
        · exact Or.inr ⟨b, w, Or.inr h1, h2⟩
      · rintro (h | ⟨b, w, h1 | h1, h2⟩)
        · exact Or.inl (Or.inr h)
        · refine Or.inl (Or.inl ?_)
          rw [h2, ← h1]
        · exact Or.inr ⟨b, w, h1, h2⟩
    · simp only [hx, if_false, List.mem_cons]
      constructor
      · rintro (h | ⟨b, w, h1, h2⟩)
        · exact Or.inl h
        · exact Or.inr ⟨b, w, Or.inr h1, h2⟩
      · rintro (h | ⟨b, w, h1 | h1, h2⟩)
        · exact Or.inl h
        · exact absurd (by rw [← h1]) hx
        · exact Or.inr ⟨b, w, h1, h2⟩

theorem sum_map_set (f : vertex_t → Nat) (d : vertex_t) : ∀ (l : List vertex_t) (a : Nat)
    (x : vertex_t), a < l.length →
    ((l.set a x).map f).sum + f (l.getD a d) = (l.map f).sum + f x := by
  intro l
  induction l with
  | nil => intro a x h; simp at h
  | cons y l ih =>
    intro a x h
    cases a with
    | zero => simp; omega
    | succ a =>
      have := ih a x (by simpa using h)
      simp only [List.set_cons_succ, List.map_cons, List.sum_cons, List.getD_cons_succ]
      omega

theorem add_edge_in_degree {t : graph_t} (hl : t.vertices.length = t.n_vertices) {a b : Nat}
    (ha : a < t.n_vertices) (hb : b < t.n_vertices) (w : Rat) (v : Nat) :
    in_degree (graph_add_edge t a b w).2 v = in_degree t v + if b = v then 1 else 0 := by
  have hcond : ¬ (a ≥ t.n_vertices ∨ b ≥ t.n_vertices) := by omega
  unfold in_degree graph_add_edge
  rw [if_neg hcond]
  have h := sum_map_set (fun x => x.edges.countP fun e => decide (e.to_ = (v : Int)))
    ⟨none, []⟩ t.vertices a
    { vertex_of t (a : Int) with edges := ⟨(b : Int), w⟩ :: (vertex_of t (a : Int)).edges }
    (by rw [hl]; exact ha)
  simp only [List.countP_cons] at h
  have hv : t.vertices.getD a ⟨none, []⟩ = vertex_of t (a : Int) := by
    simp [vertex_of]
  rw [hv] at h
  have hdec : (decide (((b : Nat) : Int) = (v : Int)) = true) ↔ b = v := by
    simp
  simp only [hdec] at h
  simp only []
  omega

theorem add_edges_in_degree (T : List (Nat × Nat × Rat)) : ∀ (t : graph_t),
    t.vertices.length = t.n_vertices →
    (∀ e ∈ T, e.1 < t.n_vertices ∧ e.2.1 < t.n_vertices) →
    ∀ v, in_degree (add_edges t T) v = in_degree t v + (T.map fun e => e.2.1).count v := by
  induction T with
  | nil => intro t _ _ v; simp [add_edges]
  | cons e0 T ih =>
    intro t hl hT v
    have h0 := hT e0 (List.mem_cons_self _ _)
    have hT' : ∀ e' ∈ T, e'.1 < (graph_add_edge t e0.1 e0.2.1 e0.2.2).2.n_vertices ∧
        e'.2.1 < (graph_add_edge t e0.1 e0.2.1 e0.2.2).2.n_vertices := by
      intro e' he'
      rw [add_edge_n]
      exact hT e' (List.mem_cons_of_mem _ he')
    rw [add_edges_cons, ih _ (by rw [add_edge_len, add_edge_n, hl]) hT' v,
      add_edge_in_degree hl h0.1 h0.2, List.map_cons, List.count_cons]
    simp only [beq_iff_eq]
    omega

theorem in_degree_no_edges {t : graph_t} (h : no_edges t) (v : Nat) : in_degree t v = 0 := by
  unfold in_degree
  apply List.sum_eq_zero
  intro x hx
  obtain ⟨y, hy, rfl⟩ := List.mem_map.1 hx
  rw [h y hy]
  rfl

theorem before_index {l : List Nat} (hl : l.Nodup) {a b : Nat} (h : before l a b) :
    l.indexOf a < l.indexOf b := by
  obtain ⟨l₁, l₂, l₃, rfl⟩ := h
  have h0 : l₁ ++ a :: l₂ ++ b :: l₃ = l₁ ++ (a :: (l₂ ++ b :: l₃)) := by simp
  rw [h0] at hl ⊢
  have hd := List.nodup_append.1 hl
  have ha : a ∉ l₁ := fun h => hd.2.2 h (List.mem_cons_self _ _)
  have hb : b ∉ l₁ := fun h => hd.2.2 h (by simp)
  have hab : a ≠ b := by
    intro hab
    have := (List.nodup_cons.1 hd.2.1).1
    rw [hab] at this
    exact this (by simp)
  rw [List.indexOf_append_of_not_mem ha, List.indexOf_append_of_not_mem hb,
    List.indexOf_cons_self, List.indexOf_cons_ne _ hab]
  omega

/-- Running `graph_spanning_tree` on a well-formed graph from a valid start
with enough fuel returns `SUCCESS` and the edge-free copy `tree0` of the vertex
array to which the tree edges of the list-level visit were added in order. -/
theorem graph_spanning_tree_run {g : graph_t} (hg : g.wf) {start : Nat}
    (hs : start < g.n_vertices) {fuel : Nat} (hf : g.n_vertices < fuel) :
    ∃ (r : dfs_res) (tree0 : graph_t), dfs_post g start [start] r ∧
      tree0.n_vertices = g.n_vertices ∧ tree0.vertices.length = g.n_vertices ∧ no_edges tree0 ∧
      (∀ e ∈ r.tree, e.1 < g.n_vertices ∧ e.2.1 < g.n_vertices) ∧
      graph_spanning_tree fuel g start = .ret (SUCCESS, add_edges tree0 r.tree) := by
  obtain ⟨r, hr, P⟩ := dfs_core_spec hg fuel start [start] (unseen_start hs hf)
  obtain ⟨hv1, hv2⟩ := vis_rel_set (vis_rel_init g) hs
  have hn : g.n_vertices ≠ 0 := by omega
  have hinit : (graph_init ⟨0, []⟩ g.n_vertices).2 =
      ⟨g.n_vertices, List.replicate g.n_vertices ⟨none, []⟩⟩ := by
    unfold graph_init
    rw [if_neg hn]
  have hsh := spanning_labels_shape g (List.range g.n_vertices)
    (graph_init ⟨0, []⟩ g.n_vertices).2
  rw [hinit] at hsh
  have h0 : no_edges ⟨g.n_vertices, List.replicate g.n_vertices ⟨none, []⟩⟩ := by
    intro v hv
    rw [(List.mem_replicate.1 hv).2]
  have hlen0 : (graph_spanning_tree_labels g (List.range g.n_vertices)
      ⟨g.n_vertices, List.replicate g.n_vertices ⟨none, []⟩⟩).vertices.length = g.n_vertices := by
    rw [hsh.2.1]; simp
  obtain ⟨v1, hc, _⟩ := spanning_visit_sim hg fuel start _ _
    (graph_spanning_tree_labels g (List.range g.n_vertices)
      ⟨g.n_vertices, List.replicate g.n_vertices ⟨none, []⟩⟩) [] r hs hv2 hsh.1 hr
  refine ⟨r, _, P, hsh.1, hlen0, hsh.2.2 h0, ?_, ?_⟩
  · intro e he
    constructor
    · obtain ⟨l₁, l₂, l₃, hl⟩ := P.tree_order e he
      have hmem : e.1 ∈ start :: r.pre := by rw [hl]; simp
      rcases List.mem_cons.1 hmem with h | h
      · rw [h]; exact hs
      · exact P.pre_lt _ h
    · apply P.pre_lt
      rw [← P.tree_tgt]
      exact List.mem_map.2 ⟨e, he, rfl⟩
  · unfold graph_spanning_tree
    simp only [hinit, hv1, Run.ret_bind, hc, ne_eq, not_true_eq_false, if_false]

theorem tree_edges_iff {g : graph_t} {tree0 : graph_t} {T : List (Nat × Nat × Rat)}
    (h1 : tree0.n_vertices = g.n_vertices) (h2 : tree0.vertices.length = g.n_vertices)
    (h3 : no_edges tree0) (h4 : ∀ e ∈ T, e.1 < g.n_vertices ∧ e.2.1 < g.n_vertices)
    (x : Nat) (e : edge_t) :
    e ∈ (vertex_of (add_edges tree0 T) (x : Int)).edges ↔
      ∃ b w, (x, b, w) ∈ T ∧ e = ⟨(b : Int), w⟩ := by
  rw [add_edges_edges T tree0 (by rw [h1, h2]) (by rw [h1]; exact h4) x e,
    vertex_of_no_edges h3]
  simp

theorem tree_adj_iff {g : graph_t} {tree0 : graph_t} {T : List (Nat × Nat × Rat)}
    (h1 : tree0.n_vertices = g.n_vertices) (h2 : tree0.vertices.length = g.n_vertices)
    (h3 : no_edges tree0) (h4 : ∀ e ∈ T, e.1 < g.n_vertices ∧ e.2.1 < g.n_vertices)
    (a b : Nat) : adj (add_edges tree0 T) a b ↔ tadj T a b := by
  constructor
  · rintro ⟨_, e, he, hev⟩
    obtain ⟨b', w, hT, rfl⟩ := (tree_edges_iff h1 h2 h3 h4 a e).1 he
    have hev' : (b' : Int) = (b : Int) := hev
    have : b' = b := by exact_mod_cast hev'
    subst this
    exact ⟨w, hT⟩
  · rintro ⟨w, hw⟩
    refine ⟨?_, ⟨(b : Int), w⟩, (tree_edges_iff h1 h2 h3 h4 a _).2 ⟨b, w, hw, rfl⟩, rfl⟩
    rw [add_edges_n, h1]
    exact (h4 _ hw).1

/-! ### Graphs built through the interface are well formed -/

theorem graph_init_wf (g : graph_t) {n : Nat} (hn : n ≠ 0) : (graph_init g n).2.wf := by
  unfold graph_init
  rw [if_neg hn]
  refine ⟨by simp, fun v hv e he => ?_⟩
  rw [(List.mem_replicate.1 hv).2] at he
  simp at he

theorem graph_add_edge_wf {g : graph_t} (hg : g.wf) (a b : Nat) (w : Rat) :
    (graph_add_edge g a b w).2.wf := by
  unfold graph_add_edge
  by_cases hc : a ≥ g.n_vertices ∨ b ≥ g.n_vertices
  · rw [if_pos hc]; exact hg
  · rw [if_neg hc]
    refine ⟨by simpa using hg.1, fun v hv e he => ?_⟩
    rcases List.mem_or_eq_of_mem_set hv with h | h
    · exact hg.2 v h e he
    · rw [h] at he
      rcases List.mem_cons.1 he with h1 | h1
      · rw [h1]
        exact ⟨Int.ofNat_nonneg b, by simp only [Nat.cast_lt]; omega⟩
      · exact wf_edges hg _ e h1

theorem graph_set_label_wf {g : graph_t} (hg : g.wf) (i : Nat) (lab : Option (List Char)) :
    (graph_set_label g i lab).2.wf := by
  unfold graph_set_label
  by_cases hc : i ≥ g.n_vertices
  · rw [if_pos hc]; exact hg
  · rw [if_neg hc]
    cases lab with
    | none =>
      refine ⟨by simpa using hg.1, fun v hv e he => ?_⟩
      rcases List.mem_or_eq_of_mem_set hv with h | h
      · exact hg.2 v h e he
      · rw [h] at he; exact wf_edges hg _ e he
    | some l =>
      refine ⟨by simpa using hg.1, fun v hv e he => ?_⟩
      rcases List.mem_or_eq_of_mem_set hv with h | h
      · exact hg.2 v h e he
      · rw [h] at he; exact wf_edges hg _ e he

theorem mk_graph_wf {n : Nat} (hn : n ≠ 0) (es : List (Nat × Nat × Rat)) : (mk_graph n es).wf := by
  unfold mk_graph
  have key : ∀ (l : List (Nat × Nat × Rat)) (g : graph_t), g.wf →
      (l.foldl (fun g e => (graph_add_edge g e.1 e.2.1 e.2.2).2) g).wf := by
    intro l
    induction l with
    | nil => intro g hg; exact hg
    | cons e l ih => intro g hg; exact ih _ (graph_add_edge_wf hg _ _ _)
  exact key es _ (graph_init_wf _ hn)

/-! ### Effect of `graph_add_edge` on edge lists and labels -/

theorem add_edge_success {g : graph_t} {a b : Nat} {w : Rat}
    (h : (graph_add_edge g a b w).1 = SUCCESS) : a < g.n_vertices ∧ b < g.n_vertices := by
  by_contra hc
  have hc' : a ≥ g.n_vertices ∨ b ≥ g.n_vertices := by omega
  unfold graph_add_edge at h
  rw [if_pos hc'] at h
  have hne : ¬ (EINDEX = SUCCESS) := by decide
  exact hne h

theorem add_edge_label {t : graph_t} (a b : Nat) (w : Rat) (x : Nat) :
    (vertex_of (graph_add_edge t a b w).2 (x : Int)).label = (vertex_of t (x : Int)).label := by
  unfold graph_add_edge
  by_cases hc : a ≥ t.n_vertices ∨ b ≥ t.n_vertices
  · rw [if_pos hc]
  · rw [if_neg hc]
    unfold vertex_of
    simp only [Int.toNat_natCast, List.getD_eq_getElem?_getD, List.getElem?_set]
    by_cases hxa : a = x
    · subst hxa
      by_cases hlen : a < t.vertices.length
      · simp [hlen]
      · simp [hlen, List.getElem?_eq_none (not_lt.1 hlen)]
    · simp [hxa]

theorem add_edges_edges_eq (T : List (Nat × Nat × Rat)) : ∀ (t : graph_t),
    t.vertices.length = t.n_vertices →
    (∀ e ∈ T, e.1 < t.n_vertices ∧ e.2.1 < t.n_vertices) →
    ∀ x : Nat, (vertex_of (add_edges t T) (x : Int)).edges =
      ((T.filter fun e => decide (e.1 = x)).reverse.map
        fun e => (⟨(e.2.1 : Int), e.2.2⟩ : edge_t)) ++ (vertex_of t (x : Int)).edges := by
  induction T with
  | nil => intro t _ _ x; simp [add_edges]
  | cons e0 T ih =>
    intro t hl hT x
    have h0 := hT e0 (List.mem_cons_self _ _)
    have hT' : ∀ e' ∈ T, e'.1 < (graph_add_edge t e0.1 e0.2.1 e0.2.2).2.n_vertices ∧
        e'.2.1 < (graph_add_edge t e0.1 e0.2.1 e0.2.2).2.n_vertices := by
      intro e' he'
      rw [add_edge_n]
      exact hT e' (List.mem_cons_of_mem _ he')
    rw [add_edges_cons, ih _ (by rw [add_edge_len, add_edge_n, hl]) hT' x,
      add_edge_edges hl h0.1 h0.2, List.filter_cons]
    by_cases hx : x = e0.1
    · subst hx
      simp
    · have hx' : ¬ e0.1 = x := fun h => hx h.symm
      simp [hx, hx']

theorem get_edge_after_add {g : graph_t} (hl : g.vertices.length = g.n_vertices) {a b : Nat}
    {w : Rat} (h : (graph_add_edge g a b w).1 = SUCCESS) :
    graph_get_edge (graph_add_edge g a b w).2 a b = (SUCCESS, some ⟨(b : Int), w⟩) := by
  obtain ⟨ha, hb⟩ := add_edge_success h
  have hcond : ¬ (a ≥ (graph_add_edge g a b w).2.n_vertices ∨
      b ≥ (graph_add_edge g a b w).2.n_vertices) := by
    rw [add_edge_n]; omega
  unfold graph_get_edge
  rw [if_neg hcond]
  simp only [add_edge_edges hl ha hb, if_true, graph_get_edge_loop]

/-! ### Labels of the graph built by `graph_spanning_tree` -/

theorem set_label_label {t : graph_t} (hl : t.vertices.length = t.n_vertices) (i : Nat)
    (lab : Option (List Char)) (x : Nat) :
    (vertex_of (graph_set_label t i lab).2 (x : Int)).label =
      if x = i ∧ i < t.n_vertices then lab.map (fun s => s.take 100)
      else (vertex_of t (x : Int)).label := by
  unfold graph_set_label
  by_cases hc : i ≥ t.n_vertices
  · rw [if_pos hc, if_neg (by omega)]
  · rw [if_neg hc]
    have hi : i < t.vertices.length := by rw [hl]; omega
    cases lab with
    | none =>
      unfold vertex_of
      simp only [Int.toNat_natCast, List.getD_eq_getElem?_getD, List.getElem?_set]
      by_cases hxi : x = i
      · subst hxi
        have hlt : x < t.n_vertices := by omega
        simp [hi, hlt]
      · have : ¬ i = x := fun h => hxi h.symm
        simp [hxi, this]
    | some l =>
      unfold vertex_of
      simp only [Int.toNat_natCast, List.getD_eq_getElem?_getD, List.getElem?_set]
      by_cases hxi : x = i
      · subst hxi
        have hlt : x < t.n_vertices := by omega
        simp [hi, hlt]
      · have : ¬ i = x := fun h => hxi h.symm
        simp [hxi, this]

theorem spanning_labels_label (g : graph_t) : ∀ (is : List Nat) (t : graph_t),
    t.vertices.length = t.n_vertices →
    ∀ x : Nat, (vertex_of (graph_spanning_tree_labels g is t) (x : Int)).label =
      if x ∈ is ∧ x < t.n_vertices then (vertex_of g (x : Int)).label.map (fun s => s.take 100)
      else (vertex_of t (x : Int)).label := by
  intro is
  induction is with
  | nil => intro t _ x; simp [graph_spanning_tree_labels]
  | cons i is ih =>
    intro t hl x
    have hsh := set_label_shape t i (vertex_of g i).label
    rw [graph_spanning_tree_labels, ih _ (by rw [hsh.2.1, hsh.1, hl]) x, hsh.1,
      set_label_label hl]
    by_cases h1 : x ∈ is ∧ x < t.n_vertices
    · rw [if_pos h1, if_pos ⟨List.mem_cons_of_mem _ h1.1, h1.2⟩]
    · rw [if_neg h1]
      by_cases h2 : x = i ∧ i < t.n_vertices
      · rw [if_pos h2, if_pos ⟨by rw [h2.1]; exact List.mem_cons_self _ _, by rw [h2.1]; exact h2.2⟩,
          h2.1]
      · rw [if_neg h2, if_neg]
        rintro ⟨h3, h4⟩
        rcases List.mem_cons.1 h3 with h | h
        · exact h2 ⟨h, by rw [← h]; exact h4⟩
        · exact h1 ⟨h, h4⟩

theorem add_edges_label (T : List (Nat × Nat × Rat)) : ∀ (t : graph_t) (x : Nat),
    (vertex_of (add_edges t T) (x : Int)).label = (vertex_of t (x : Int)).label := by
  induction T with
  | nil => intro t x; rfl
  | cons e T ih => intro t x; rw [add_edges_cons, ih, add_edge_label]

theorem labels_ok_take {g : graph_t} (h : labels_ok g) (p : Int) :
    (vertex_of g p).label.map (fun s => s.take 100) = (vertex_of g p).label := by
  unfold vertex_of
  rw [List.getD_eq_getElem?_getD]
  cases hx : g.vertices[p.toNat]? with
  | none => rfl
  | some v =>
    simp only [Option.getD_some]
    cases hlab : v.label with
    | none => rfl
    | some l =>
      simp only [Option.map_some', Option.some.injEq]
      exact List.take_of_length_le (h v (List.getElem?_mem hx) l hlab)

theorem graph_set_label_labels_ok {g : graph_t} (h : labels_ok g) (i : Nat)
    (lab : Option (List Char)) : labels_ok (graph_set_label g i lab).2 := by
  unfold graph_set_label
  by_cases hc : i ≥ g.n_vertices
  · rw [if_pos hc]; exact h
  · rw [if_neg hc]
    cases lab with
    | none =>
      intro v hv s hs
      rcases List.mem_or_eq_of_mem_set hv with h1 | h1
      · exact h v h1 s hs
      · rw [h1] at hs; simp at hs
    | some l =>
      intro v hv s hs
      rcases List.mem_or_eq_of_mem_set hv with h1 | h1
      · exact h v h1 s hs
      · rw [h1] at hs
        simp only [Option.some.injEq] at hs
        rw [← hs]
        simp

theorem graph_init_labels_ok (g : graph_t) {n : Nat} (hn : n ≠ 0) :
    labels_ok (graph_init g n).2 := by
  unfold graph_init
  rw [if_neg hn]
  intro v hv s hs
  rw [(List.mem_replicate.1 hv).2] at hs
  simp at hs

theorem graph_add_edge_labels_ok {g : graph_t} (h : labels_ok g) (a b : Nat) (w : Rat) :
    labels_ok (graph_add_edge g a b w).2 := by
  unfold graph_add_edge
  by_cases hc : a ≥ g.n_vertices ∨ b ≥ g.n_vertices
  · rw [if_pos hc]; exact h
  · rw [if_neg hc]
    intro v hv s hs
    rcases List.mem_or_eq_of_mem_set hv with h1 | h1
    · exact h v h1 s hs
    · rw [h1] at hs
      have h2 := labels_ok_take h (a : Int)
      have hs' : (vertex_of g (a : Int)).label = some s := hs
      rw [hs'] at h2
      simp only [Option.map_some', Option.some.injEq] at h2
      rw [← h2]
      simp

/-- Running `graph_spanning_tree` on a well-formed graph from a valid start
with enough fuel returns the label-copying loop's graph with the tree edges of
the list-level visit added. -/
theorem graph_spanning_tree_run_labels {g : graph_t} (hg : g.wf) {start : Nat}
    (hs : start < g.n_vertices) {fuel : Nat} (hf : g.n_vertices < fuel) :
    ∃ (r : dfs_res), graph_spanning_tree fuel g start =
      .ret (SUCCESS, add_edges (graph_spanning_tree_labels g (List.range g.n_vertices)
        ⟨g.n_vertices, List.replicate g.n_vertices ⟨none, []⟩⟩) r.tree) := by
  obtain ⟨r, hr, _⟩ := dfs_core_spec hg fuel start [start] (unseen_start hs hf)
  obtain ⟨hv1, hv2⟩ := vis_rel_set (vis_rel_init g) hs
  have hn : g.n_vertices ≠ 0 := by omega
  have hinit : (graph_init ⟨0, []⟩ g.n_vertices).2 =
      ⟨g.n_vertices, List.replicate g.n_vertices ⟨none, []⟩⟩ := by
    unfold graph_init
    rw [if_neg hn]
  have hsh := spanning_labels_shape g (List.range g.n_vertices)
    (graph_init ⟨0, []⟩ g.n_vertices).2
  rw [hinit] at hsh
  obtain ⟨v1, hc, _⟩ := spanning_visit_sim hg fuel start _ _
    (graph_spanning_tree_labels g (List.range g.n_vertices)
      ⟨g.n_vertices, List.replicate g.n_vertices ⟨none, []⟩⟩) [] r hs hv2 hsh.1 hr
  refine ⟨r, ?_⟩
  unfold graph_spanning_tree
  simp only [hinit, hv1, Run.ret_bind, hc, ne_eq, not_true_eq_false, if_false]

/-! ### An invalid start index -/

theorem get_vertex_invalid {g : graph_t} {i : Nat} (h : g.n_vertices ≤ i) :
    graph_get_vertex g i = (EINDEX, none) := by
  unfold graph_get_vertex
  rw [if_pos h]

theorem visited_set_invalid (n : Nat) {i : Nat} (h : n ≤ i) (b : Bool) :
    visited_set (List.replicate n false) i b = .fault := by
  unfold visited_set
  rw [if_neg (by simp; omega)]

theorem graph_bfs_invalid_start (fuel : Nat) (g : graph_t) {start : Nat}
    (h : g.n_vertices ≤ start) : graph_bfs fuel g start = .ret (EINDEX, []) := by
  unfold graph_bfs
  have hne : ¬ (EINDEX = SUCCESS) := by decide
  simp [vlist_init, get_vertex_invalid h]

theorem graph_dfs_iter_invalid_start (fuel : Nat) (g : graph_t) {start : Nat}
    (h : g.n_vertices ≤ start) : graph_dfs_iter fuel g start = .ret (EINDEX, []) := by
  unfold graph_dfs_iter
  simp [vlist_init, get_vertex_invalid h]

theorem graph_dfs_invalid_start (fuel : Nat) (g : graph_t) {start : Nat}
    (h : g.n_vertices ≤ start) : graph_dfs fuel g start = .fault := by
  unfold graph_dfs
  simp only [visited_set_invalid _ h]
  rfl

theorem graph_toposort_invalid_start (fuel : Nat) (g : graph_t) {start : Nat}
    (h : g.n_vertices ≤ start) : graph_toposort fuel g start = .fault := by
  unfold graph_toposort
  simp only [vlist_init, ne_eq, not_true_eq_false, if_false, visited_set_invalid _ h]
  rfl

theorem graph_spanning_tree_invalid_start (fuel : Nat) (g : graph_t) {start : Nat}
    (h : g.n_vertices ≤ start) : graph_spanning_tree fuel g start = .fault := by
  unfold graph_spanning_tree
  simp only [visited_set_invalid _ h]
  rfl

theorem graph_spanning_tree_visit_invalid (fuel : Nat) (g : graph_t) {i : Nat}
    (h : g.n_vertices ≤ i) (visited : List Bool) (tree : graph_t) (out : List (Nat × Nat)) :
    graph_spanning_tree_visit g (fuel + 1) i visited tree out = .abort := by
  rw [graph_spanning_tree_visit]
  simp [get_vertex_invalid h]

theorem graph_dfs_visit_invalid (fuel : Nat) (g : graph_t) {i : Nat}
    (h : g.n_vertices ≤ i) (visited : List Bool) (out : List Nat) :
    graph_dfs_visit g (fuel + 1) i visited out = .ret (EINDEX, visited, out) := by
  rw [graph_dfs_visit]
  simp [get_vertex_invalid h]

theorem graph_toposort_visit_invalid (fuel : Nat) (g : graph_t) {i : Nat}
    (h : g.n_vertices ≤ i) (visited : List Bool) (l : vlist_t) :
    graph_toposort_visit g (fuel + 1) i visited l = .ret (EINDEX, visited, l) := by
  rw [graph_toposort_visit]
  simp [get_vertex_invalid h]

/-! ### Labels, self-loops -/

theorem set_label_edges (t : graph_t) (i : Nat) (lab : Option (List Char)) (x : Nat) :
    (vertex_of (graph_set_label t i lab).2 (x : Int)).edges = (vertex_of t (x : Int)).edges := by
  unfold graph_set_label
  by_cases hc : i ≥ t.n_vertices
  · rw [if_pos hc]
  · rw [if_neg hc]
    cases lab with
    | none =>
      unfold vertex_of
      simp only [Int.toNat_natCast, List.getD_eq_getElem?_getD, List.getElem?_set]
      by_cases hxi : i = x
      · subst hxi
        by_cases hlen : i < t.vertices.length
        · simp [hlen]
        · simp [hlen, List.getElem?_eq_none (not_lt.1 hlen)]
      · simp [hxi]
    | some l =>
      unfold vertex_of
      simp only [Int.toNat_natCast, List.getD_eq_getElem?_getD, List.getElem?_set]
      by_cases hxi : i = x
      · subst hxi
        by_cases hlen : i < t.vertices.length
        · simp [hlen]
        · simp [hlen, List.getElem?_eq_none (not_lt.1 hlen)]
      · simp [hxi]

theorem loops_edges_iff (self : Int) : ∀ (es : List edge_t),
    graph_num_vertex_with_loops_edges self es = true ↔ ∃ e ∈ es, e.to_ = self := by
  intro es
  induction es with
  | nil => simp [graph_num_vertex_with_loops_edges]
  | cons e es ih =>
    rw [graph_num_vertex_with_loops_edges]
    by_cases h : e.to_ = self
    · simp [h]
    · simp [h, ih]

theorem loops_from_eq (g : graph_t) : ∀ (is : List Nat) (n : Int),
    graph_num_vertex_with_loops_from g is n =
      n + ((is.filter fun i : Nat =>
        decide (∃ e ∈ (vertex_of g (i : Int)).edges, e.to_ = (i : Int))).length : Nat) := by
  intro is
  induction is with
  | nil => intro n; simp [graph_num_vertex_with_loops_from]
  | cons i is ih =>
    intro n
    rw [graph_num_vertex_with_loops_from, List.filter_cons]
    by_cases h : ∃ e ∈ (vertex_of g (i : Int)).edges, e.to_ = (i : Int)
    · rw [if_pos ((loops_edges_iff _ _).2 h), ih, if_pos (by simpa using h)]
      simp only [List.length_cons, Nat.cast_add, Nat.cast_one]
      omega
    · have h' : ¬ graph_num_vertex_with_loops_edges (i : Int) (vertex_of g (i : Int)).edges = true :=
        fun hh => h ((loops_edges_iff _ _).1 hh)
      rw [if_neg h', ih, if_neg (by simpa using h)]

/-! ### Label lookup and `graph_from_file` -/

theorem graph_label_to_index_from_eq {g : graph_t} (hg : all_labelled g) (t : List Char) :
    ∀ is : List Nat, (∀ i ∈ is, i < g.n_vertices) →
    graph_label_to_index_from g (some t) is =
      .ret (match is.find? (fun i : Nat =>
          decide (((vertex_of g (i : Int)).label.getD []).take 100 = t.take 100)) with
        | some i => (i : Int)
        | none => ENOTFOUND) := by
  intro is
  induction is with
  | nil => intro _; rfl
  | cons i rest ih =>
    intro h
    have hi := h i (List.mem_cons_self _ _)
    have hne := hg i hi
    obtain ⟨s, hs⟩ := Option.ne_none_iff_exists'.mp hne
    rw [graph_label_to_index_from, hs, List.find?_cons, hs]
    simp only [strncmp_eq, Run.bind, Option.getD_some]
    by_cases hc : s.take 100 = t.take 100
    · simp [hc]
    · simp only [hc, decide_False, Bool.false_eq_true, if_false]
      exact ih (fun j hj => h j (List.mem_cons_of_mem _ hj))

theorem graph_label_to_index_eq {g : graph_t} (hg : all_labelled g) (t : List Char) :
    graph_label_to_index g (some t) =
      .ret (match find_label g t with
        | some i => (i : Int)
        | none => ENOTFOUND) := by
  unfold graph_label_to_index find_label
  exact graph_label_to_index_from_eq hg t _ (fun i hi => List.mem_range.mp hi)

theorem find_label_lt {g : graph_t} {t : List Char} {i : Nat} (h : find_label g t = some i) :
    i < g.n_vertices := by
  unfold find_label at h
  exact List.mem_range.mp (List.mem_of_find?_eq_some h)

theorem find_label_congr {g g' : graph_t} (hn : g'.n_vertices = g.n_vertices)
    (hl : ∀ x : Nat, (vertex_of g' (x : Int)).label = (vertex_of g (x : Int)).label)
    (t : List Char) : find_label g' t = find_label g t := by
  unfold find_label
  rw [hn]
  congr 1
  funext i
  rw [hl]

theorem all_labelled_congr {g g' : graph_t} (hn : g'.n_vertices = g.n_vertices)
    (hl : ∀ x : Nat, (vertex_of g' (x : Int)).label = (vertex_of g (x : Int)).label)
    (hg : all_labelled g) : all_labelled g' := by
  intro i hi
  rw [hl]
  exact hg i (by omega)

theorem add_edge_rc {g : graph_t} {a b : Nat} (ha : a < g.n_vertices) (hb : b < g.n_vertices)
    (w : Rat) : (graph_add_edge g a b w).1 = SUCCESS := by
  have hcond : ¬ (a ≥ g.n_vertices ∨ b ≥ g.n_vertices) := by omega
  unfold graph_add_edge
  rw [if_neg hcond]

theorem graph_add_edge_lbl_found {g : graph_t} (hg : all_labelled g) {a b : List Char}
    {i j : Nat} (ha : find_label g a = some i) (hb : find_label g b = some j) (w : Rat) :
    graph_add_edge_lbl g (some a) (some b) w = .ret (graph_add_edge g i j w) := by
  have hi : ¬ ((i : Int) = ENOTFOUND) := by
    have : (0 : Int) ≤ (i : Int) := Int.ofNat_nonneg i
    simp only [ENOTFOUND]; omega
  have hj : ¬ ((j : Int) = ENOTFOUND) := by
    have : (0 : Int) ≤ (j : Int) := Int.ofNat_nonneg j
    simp only [ENOTFOUND]; omega
  unfold graph_add_edge_lbl
  rw [graph_label_to_index_eq hg, graph_label_to_index_eq hg, ha, hb]
  simp only [Run.bind, if_neg hi, if_neg hj, Int.toNat_natCast]

theorem graph_add_edge_lbl_returns {g : graph_t} (hg : all_labelled g) (a b : List Char)
    (w : Rat) :
    ∃ r, graph_add_edge_lbl g (some a) (some b) w = .ret r ∧ all_labelled r.2 := by
  unfold graph_add_edge_lbl
  rw [graph_label_to_index_eq hg, graph_label_to_index_eq hg]
  simp only [Run.bind]
  split
  · exact ⟨_, rfl, hg⟩
  · split
    · exact ⟨_, rfl, hg⟩
    · exact ⟨_, rfl, all_labelled_congr (add_edge_n _ _ _ _) (fun x => add_edge_label _ _ _ x) hg⟩

theorem graph_from_file_labels_short : ∀ (lines : List (List Char)) (is : List Nat)
    (g : graph_t), lines.length < is.length →
    ∃ g' rest, graph_from_file_labels g is lines = (some EPARSE, g', rest) := by
  intro lines
  induction lines with
  | nil =>
    intro is g h
    cases is with
    | nil => simp at h
    | cons i is => exact ⟨g, [], rfl⟩
  | cons line lines ih =>
    intro is g h
    cases is with
    | nil => simp at h
    | cons i is =>
      rw [graph_from_file_labels]
      exact ih is _ (by simpa using h)

theorem graph_from_file_labels_eq : ∀ (ls : List (List Char)) (done : List vertex_t)
    (rest : List (List Char)),
    graph_from_file_labels
        ⟨done.length + ls.length, done ++ List.replicate ls.length ⟨none, []⟩⟩
        (List.range' done.length ls.length) (ls ++ rest) =
      (none, ⟨done.length + ls.length,
        done ++ ls.map fun l => ⟨some ((strip_newline l).take 100), []⟩⟩, rest) := by
  intro ls
  induction ls with
  | nil => intro done rest; simp [graph_from_file_labels]
  | cons l ls ih =>
    intro done rest
    have h := ih (done ++ [⟨some ((strip_newline l).take 100), []⟩]) rest
    simp only [List.length_append, List.length_singleton, List.append_assoc,
      List.singleton_append] at h
    have hcond : ¬ (done.length ≥ done.length + (ls.length + 1)) := by omega
    simp only [List.length_cons, List.range'_succ, List.cons_append, graph_from_file_labels,
      graph_set_label, if_neg hcond, List.map_cons, List.replicate_succ]
    have hv : vertex_of ⟨done.length + (ls.length + 1),
        done ++ (⟨none, []⟩ : vertex_t) :: List.replicate ls.length ⟨none, []⟩⟩
        (done.length : Int) = ⟨none, []⟩ := by
      simp only [vertex_of, Int.toNat_natCast, List.getD_eq_getElem?_getD]
      rw [List.getElem?_append_right (le_refl _)]
      simp
    rw [hv]
    have hs : (done ++ (⟨none, []⟩ : vertex_t) :: List.replicate ls.length ⟨none, []⟩).set
        done.length ⟨some ((strip_newline l).take 100), []⟩ =
        done ++ ⟨some ((strip_newline l).take 100), []⟩ ::
          List.replicate ls.length ⟨none, []⟩ := by
      simp
    have hn : done.length + (ls.length + 1) = done.length + 1 + ls.length := by omega
    simp only [strip_newline] at hs h ⊢
    rw [hs, hn]
    exact h

theorem labelled_graph_all_labelled (labels : List (List Char)) :
    all_labelled (labelled_graph labels) := by
  intro i hi
  have hi' : i < labels.length := hi
  simp [vertex_of, labelled_graph, hi']

theorem graph_from_file_labels_init (ls rest : List (List Char)) :
    graph_from_file_labels ⟨ls.length, List.replicate ls.length ⟨none, []⟩⟩
        (List.range ls.length) (ls ++ rest) =
      (none, labelled_graph (ls.map strip_newline), rest) := by
  have h := graph_from_file_labels_eq ls [] rest
  simp only [List.length_nil, Nat.zero_add, List.nil_append] at h
  rw [List.range_eq_range', h]
  simp [labelled_graph, List.map_map, Function.comp_def]

theorem graph_from_file_edges_short
    (sscanf_ssf : List Char → Option (List Char × List Char × Rat)) (undirected : Bool) :
    ∀ (lines : List (List Char)) (n : Nat) (g : graph_t), all_labelled g →
    lines.length < n →
    ∃ g', graph_from_file_edges sscanf_ssf undirected n g lines = .ret (EPARSE, g') := by
  intro lines
  induction lines with
  | nil =>
    intro n g _ h
    cases n with
    | zero => simp at h
    | succ n => exact ⟨g, rfl⟩
  | cons line lines ih =>
    intro n g hg h
    cases n with
    | zero => simp at h
    | succ n =>
      have hlt : lines.length < n := by simpa using h
      rw [graph_from_file_edges]
      cases hsc : sscanf_ssf line with
      | none => exact ⟨g, rfl⟩
      | some t =>
        obtain ⟨a, b, w⟩ := t
        obtain ⟨r, hr, hgr⟩ := graph_add_edge_lbl_returns hg a b w
        simp only [hr, Run.bind]
        by_cases h1 : r.1 = ENOTFOUND
        · rw [if_pos h1]; exact ⟨_, rfl⟩
        · rw [if_neg h1]
          cases undirected with
          | false => simpa using ih n r.2 hgr hlt
          | true =>
            obtain ⟨r2, hr2, hgr2⟩ := graph_add_edge_lbl_returns hgr b a w
            simp only [hr2, Run.bind, if_true]
            by_cases h2 : r2.1 = ENOTFOUND
            · rw [if_pos h2]; exact ⟨_, rfl⟩
            · rw [if_neg h2]; exact ih n r2.2 hgr2 hlt

theorem graph_add_edge_lbl_add_edges {g0 : graph_t} (hg0 : all_labelled g0)
    (T0 : List (Nat × Nat × Rat)) {a b : List Char} {i j : Nat}
    (ha : find_label g0 a = some i) (hb : find_label g0 b = some j) (w : Rat) :
    graph_add_edge_lbl (add_edges g0 T0) (some a) (some b) w =
      .ret (SUCCESS, add_edges g0 (T0 ++ [(i, j, w)])) := by
  have hg : all_labelled (add_edges g0 T0) :=
    all_labelled_congr (add_edges_n T0 g0) (add_edges_label T0 g0) hg0
  have hfa : find_label (add_edges g0 T0) a = some i := by
    rw [find_label_congr (add_edges_n T0 g0) (add_edges_label T0 g0)]; exact ha
  have hfb : find_label (add_edges g0 T0) b = some j := by
    rw [find_label_congr (add_edges_n T0 g0) (add_edges_label T0 g0)]; exact hb
  rw [graph_add_edge_lbl_found hg hfa hfb w]
  have hi : i < (add_edges g0 T0).n_vertices := find_label_lt hfa
  have hj : j < (add_edges g0 T0).n_vertices := find_label_lt hfb
  have h2 : (graph_add_edge (add_edges g0 T0) i j w).2 = add_edges g0 (T0 ++ [(i, j, w)]) := by
    rw [add_edges_append]; rfl
  rw [← h2, ← add_edge_rc hi hj w]

theorem graph_from_file_edges_eq
    (sscanf_ssf : List Char → Option (List Char × List Char × Rat)) (undirected : Bool)
    {g0 : graph_t} (hg0 : all_labelled g0) (extra : List (List Char)) :
    ∀ (lines : List (List Char)) (T0 : List (Nat × Nat × Rat)),
    (∀ line ∈ lines, edge_line_ok sscanf_ssf g0 line = true) →
    graph_from_file_edges sscanf_ssf undirected lines.length (add_edges g0 T0)
        (lines ++ extra) =
      .ret (SUCCESS, add_edges g0 (T0 ++ file_edges sscanf_ssf undirected g0 lines)) := by
  intro lines
  induction lines with
  | nil => intro T0 _; simp [graph_from_file_edges, file_edges]
  | cons line lines ih =>
    intro T0 hok
    have h0 := hok line (List.mem_cons_self _ _)
    have hrest : ∀ l ∈ lines, edge_line_ok sscanf_ssf g0 l = true :=
      fun l hl => hok l (List.mem_cons_of_mem _ hl)
    have hne : ¬ (SUCCESS = ENOTFOUND) := by decide
    unfold edge_line_ok at h0
    cases hsc : sscanf_ssf line with
    | none => rw [hsc] at h0; simp at h0
    | some t =>
      obtain ⟨a, b, w⟩ := t
      rw [hsc] at h0
      simp only [Bool.and_eq_true, Option.isSome_iff_exists] at h0
      obtain ⟨⟨i, hi⟩, ⟨j, hj⟩⟩ := h0
      rw [List.length_cons, List.cons_append, graph_from_file_edges, hsc]
      simp only [graph_add_edge_lbl_add_edges hg0 T0 hi hj w, Run.bind, if_neg hne]
      cases undirected with
      | false =>
        simp only [Bool.false_eq_true, if_false]
        rw [ih _ hrest]
        simp [file_edges, hsc, hi, hj]
      | true =>
        simp only [if_true, graph_add_edge_lbl_add_edges hg0 _ hj hi w, Run.bind, if_neg hne]
        rw [ih _ hrest]
        simp [file_edges, hsc, hi, hj]

theorem file_edges_lt (sscanf_ssf : List Char → Option (List Char × List Char × Rat))
    (undirected : Bool) (g0 : graph_t) : ∀ (lines : List (List Char)),
    ∀ e ∈ file_edges sscanf_ssf undirected g0 lines,
      e.1 < g0.n_vertices ∧ e.2.1 < g0.n_vertices := by
  intro lines
  induction lines with
  | nil => intro e he; simp [file_edges] at he
  | cons line lines ih =>
    intro e he
    rw [file_edges] at he
    cases hsc : sscanf_ssf line with
    | none => rw [hsc] at he; exact ih e he
    | some t =>
      obtain ⟨a, b, w⟩ := t
      rw [hsc] at he
      cases hi : find_label g0 a with
      | none => simp only [hi] at he; exact ih e he
      | some i =>
        cases hj : find_label g0 b with
        | none => simp only [hi, hj] at he; exact ih e he
        | some j =>
          simp only [hi, hj, List.mem_append] at he
          have hil := find_label_lt hi
          have hjl := find_label_lt hj
          rcases he with he | he
          · cases undirected with
            | false =>
              simp only [Bool.false_eq_true, if_false, List.mem_singleton] at he
              subst he; exact ⟨hil, hjl⟩
            | true =>
              simp only [if_true, List.mem_cons, List.mem_singleton, List.not_mem_nil,
                or_false] at he
              rcases he with he | he
              · subst he; exact ⟨hil, hjl⟩
              · subst he; exact ⟨hjl, hil⟩
          · exact ih e he

theorem mem_file_edges (sscanf_ssf : List Char → Option (List Char × List Char × Rat))
    (undirected : Bool) (g0 : graph_t) (i j : Nat) (w : Rat) : ∀ (lines : List (List Char)),
    (i, j, w) ∈ file_edges sscanf_ssf undirected g0 lines ↔
      ∃ line ∈ lines, ∃ a b, sscanf_ssf line = some (a, b, w) ∧
        ((find_label g0 a = some i ∧ find_label g0 b = some j) ∨
         (undirected = true ∧ find_label g0 a = some j ∧ find_label g0 b = some i)) := by
  intro lines
  induction lines with
  | nil => simp [file_edges]
  | cons line lines ih =>
    rw [file_edges]
    cases hsc : sscanf_ssf line with
    | none =>
      simp only [ih, List.mem_cons, exists_eq_or_imp, hsc]
      simp
    | some t =>
      obtain ⟨a0, b0, w0⟩ := t
      cases hi : find_label g0 a0 with
      | none =>
        simp only [hi, ih, List.mem_cons, exists_eq_or_imp, hsc]
        constructor
        · intro h; exact Or.inr h
        · rintro (⟨a, b, hab, h⟩ | h)
          · simp only [Option.some.injEq, Prod.mk.injEq] at hab
            obtain ⟨rfl, rfl, rfl⟩ := hab
            rw [hi] at h
            simp at h
          · exact h
      | some i0 =>
        cases hj : find_label g0 b0 with
        | none =>
          simp only [hi, hj, ih, List.mem_cons, exists_eq_or_imp, hsc]
          constructor
          · intro h; exact Or.inr h
          · rintro (⟨a, b, hab, h⟩ | h)
            · simp only [Option.some.injEq, Prod.mk.injEq] at hab
              obtain ⟨rfl, rfl, rfl⟩ := hab
              rw [hj] at h
              simp at h
            · exact h
        | some j0 =>
          simp only [hi, hj, ih, List.mem_cons, List.mem_append, exists_eq_or_imp, hsc]
          constructor
          · rintro (h | h)
            · left
              refine ⟨a0, b0, ?_⟩
              cases undirected with
              | false =>
                simp only [Bool.false_eq_true, if_false, List.mem_singleton,
                  Prod.mk.injEq] at h
                obtain ⟨rfl, rfl, rfl⟩ := h
                exact ⟨rfl, Or.inl ⟨hi, hj⟩⟩
              | true =>
                simp only [if_true, List.mem_cons, List.mem_singleton, List.not_mem_nil,
                  or_false, Prod.mk.injEq] at h
                rcases h with ⟨rfl, rfl, rfl⟩ | ⟨rfl, rfl, rfl⟩
                · exact ⟨rfl, Or.inl ⟨hi, hj⟩⟩
                · exact ⟨rfl, Or.inr ⟨rfl, hi, hj⟩⟩
            · exact Or.inr h
          · rintro (⟨a, b, hab, h⟩ | h)
            · left
              simp only [Option.some.injEq, Prod.mk.injEq] at hab
              obtain ⟨rfl, rfl, rfl⟩ := hab
              rw [hi, hj] at h
              simp only [Option.some.injEq] at h
              rcases h with ⟨rfl, rfl⟩ | ⟨hu, rfl, rfl⟩
              · cases undirected <;> simp
              · subst hu; simp
            · exact Or.inr h

theorem graph_get_edge_loop_skip (tv : Int) : ∀ (A rest : List edge_t),
    (∀ e ∈ A, e.to_ ≠ tv) →
    graph_get_edge_loop tv (A ++ rest) = graph_get_edge_loop tv rest := by
  intro A
  induction A with
  | nil => intro rest _; rfl
  | cons e A ih =>
    intro rest h
    rw [List.cons_append, graph_get_edge_loop, if_neg (h e (List.mem_cons_self _ _))]
    exact ih rest (fun e' he' => h e' (List.mem_cons_of_mem _ he'))

theorem labelled_graph_edges (labels : List (List Char)) (x : Nat) :
    (vertex_of (labelled_graph labels) (x : Int)).edges = [] := by
  by_cases hx : x < labels.length
  · simp [vertex_of, labelled_graph, hx]
  · have hx' : labels.length ≤ x := by omega
    simp [vertex_of, labelled_graph, List.getElem?_eq_none hx']

theorem get_edge_add_edges {g0 : graph_t} (hl : g0.vertices.length = g0.n_vertices)
    {i j : Nat} (he0 : (vertex_of g0 (i : Int)).edges = []) {T : List (Nat × Nat × Rat)}
    (hT : ∀ e ∈ T, e.1 < g0.n_vertices ∧ e.2.1 < g0.n_vertices)
    (hi : i < g0.n_vertices) (hj : j < g0.n_vertices) :
    graph_get_edge (add_edges g0 T) i j =
      (SUCCESS, graph_get_edge_loop (j : Int)
        ((T.filter fun e => decide (e.1 = i)).reverse.map
          fun e => (⟨(e.2.1 : Int), e.2.2⟩ : edge_t))) := by
  have hcond : ¬ (i ≥ (add_edges g0 T).n_vertices ∨ j ≥ (add_edges g0 T).n_vertices) := by
    rw [add_edges_n]; omega
  unfold graph_get_edge
  rw [if_neg hcond]
  simp only [add_edges_edges_eq T g0 hl hT i, he0, List.append_nil]

theorem adjacent_add_edges_last {g0 : graph_t} (hl : g0.vertices.length = g0.n_vertices)
    {i j : Nat} (he0 : (vertex_of g0 (i : Int)).edges = []) {T T1 T2 : List (Nat × Nat × Rat)}
    {w : Rat} (hT : ∀ e ∈ T, e.1 < g0.n_vertices ∧ e.2.1 < g0.n_vertices)
    (hd : T = T1 ++ (i, j, w) :: T2) (hlast : ∀ e ∈ T2, ¬ (e.1 = i ∧ e.2.1 = j)) (x : Rat) :
    graph_is_vertex_adjacent (add_edges g0 T) i j (some x) = (1, some w) := by
  have hij := hT (i, j, w) (by rw [hd]; simp)
  have hne : ¬ (SUCCESS = EINDEX) := by decide
  have hskip : ∀ e ∈ ((T2.filter fun e => decide (e.1 = i)).reverse.map
      fun e => (⟨(e.2.1 : Int), e.2.2⟩ : edge_t)), e.to_ ≠ (j : Int) := by
    intro e he
    simp only [List.mem_map, List.mem_reverse, List.mem_filter, decide_eq_true_eq] at he
    obtain ⟨e0, ⟨h0, h1⟩, rfl⟩ := he
    intro hc
    have hc0 : (e0.2.1 : Int) = (j : Int) := hc
    have hc' : e0.2.1 = j := by exact_mod_cast hc0
    exact hlast e0 h0 ⟨h1, hc'⟩
  have hloop : graph_get_edge_loop (j : Int)
      ((T.filter fun e => decide (e.1 = i)).reverse.map
        fun e => (⟨(e.2.1 : Int), e.2.2⟩ : edge_t)) = some ⟨(j : Int), w⟩ := by
    rw [hd]
    simp only [List.filter_append, List.filter_cons, decide_True, if_true, List.reverse_append,
      List.reverse_cons, List.map_append, List.append_assoc, List.map_cons, List.map_nil]
    rw [graph_get_edge_loop_skip _ _ _ hskip]
    simp [graph_get_edge_loop]
  unfold graph_is_vertex_adjacent
  simp only [get_edge_add_edges hl he0 hT hij.1 hij.2, hloop, if_neg hne]

theorem adjacent_add_edges_none {g0 : graph_t} (hl : g0.vertices.length = g0.n_vertices)
    {i j : Nat} (he0 : (vertex_of g0 (i : Int)).edges = []) {T : List (Nat × Nat × Rat)}
    (hT : ∀ e ∈ T, e.1 < g0.n_vertices ∧ e.2.1 < g0.n_vertices)
    (hi : i < g0.n_vertices) (hj : j < g0.n_vertices)
    (hno : ∀ e ∈ T, ¬ (e.1 = i ∧ e.2.1 = j)) (x : Rat) :
    graph_is_vertex_adjacent (add_edges g0 T) i j (some x) = (0, some x) := by
  have hne : ¬ (SUCCESS = EINDEX) := by decide
  have hskip : ∀ e ∈ ((T.filter fun e => decide (e.1 = i)).reverse.map
      fun e => (⟨(e.2.1 : Int), e.2.2⟩ : edge_t)), e.to_ ≠ (j : Int) := by
    intro e he
    simp only [List.mem_map, List.mem_reverse, List.mem_filter, decide_eq_true_eq] at he
    obtain ⟨e0, ⟨h0, h1⟩, rfl⟩ := he
    intro hc
    have hc0 : (e0.2.1 : Int) = (j : Int) := hc
    have hc' : e0.2.1 = j := by exact_mod_cast hc0
    exact hno e0 h0 ⟨h1, hc'⟩
  have hloop : graph_get_edge_loop (j : Int)
      ((T.filter fun e => decide (e.1 = i)).reverse.map
        fun e => (⟨(e.2.1 : Int), e.2.2⟩ : edge_t)) = none := by
    have h := graph_get_edge_loop_skip (j : Int) _ [] hskip
    rw [List.append_nil] at h
    rw [h]; rfl
  unfold graph_is_vertex_adjacent
  simp only [get_edge_add_edges hl he0 hT hi hj, hloop, if_neg hne]

theorem exists_last_edge (i j : Nat) : ∀ (T : List (Nat × Nat × Rat)),
    (∃ e ∈ T, e.1 = i ∧ e.2.1 = j) →
    ∃ (T1 T2 : List (Nat × Nat × Rat)) (w : Rat), T = T1 ++ (i, j, w) :: T2 ∧
      ∀ e ∈ T2, ¬ (e.1 = i ∧ e.2.1 = j) := by
  intro T
  induction T with
  | nil => intro h; obtain ⟨e, he, _⟩ := h; simp at he
  | cons e0 T ih =>
    intro h
    by_cases hT : ∃ e ∈ T, e.1 = i ∧ e.2.1 = j
    · obtain ⟨T1, T2, w, hd, hl⟩ := ih hT
      exact ⟨e0 :: T1, T2, w, by rw [hd]; rfl, hl⟩
    · obtain ⟨e, he, hij⟩ := h
      have he0 : e = e0 := by
        rcases List.mem_cons.mp he with h1 | h1
        · exact h1
        · exact absurd ⟨e, h1, hij⟩ hT
      subst he0
      obtain ⟨a, b, w⟩ := e
      obtain ⟨rfl, rfl⟩ := hij
      exact ⟨[], T, w, rfl, fun e' he' hc => hT ⟨e', he', hc⟩⟩

theorem graph_from_file_run (sscanf_ii : List Char → Option (Nat × Nat))
    (sscanf_ssf : List Char → Option (List Char × List Char × Rat))
    (g : graph_t) (header cline : List Char) (label_lines edge_lines extra : List (List Char))
    (undirected : Bool)
    (hh : graph_from_file_header header = some undirected)
    (hc : sscanf_ii cline = some (label_lines.length, edge_lines.length))
    (hnv : label_lines ≠ [])
    (hok : ∀ line ∈ edge_lines,
      edge_line_ok sscanf_ssf (labelled_graph (label_lines.map strip_newline)) line = true) :
    graph_from_file sscanf_ii sscanf_ssf g
        (some (header :: cline :: (label_lines ++ (edge_lines ++ extra)))) =
      .ret (SUCCESS, add_edges (labelled_graph (label_lines.map strip_newline))
        (file_edges sscanf_ssf undirected (labelled_graph (label_lines.map strip_newline))
          edge_lines)) := by
  have hn : ¬ (label_lines.length = 0) := by
    intro h; exact hnv (List.length_eq_zero.mp h)
  have h1 : ¬ (SUCCESS = ENOMEM) := by decide
  have h2 : ¬ (SUCCESS = EINVAL) := by decide
  have hedges := graph_from_file_edges_eq sscanf_ssf undirected
    (labelled_graph_all_labelled (label_lines.map strip_newline)) extra edge_lines [] hok
  simp only [add_edges, List.foldl_nil, List.nil_append] at hedges
  simp only [graph_from_file, hh, hc, if_neg hn, graph_init, if_neg h1, if_neg h2,
    graph_from_file_labels_init]
  simpa only [add_edges] using hedges

/-! ### The doubly linked representation of the vertex list -/

namespace Ptr

theorem ptr_getD_append_lt (h : heap_t) (x : Option vlist_node_t) {a : Nat}
    (ha : a < h.length) : (h ++ [x]).getD a none = h.getD a none := by
  simp [List.getD_eq_getElem?_getD, List.getElem?_append_left ha]

theorem ptr_getD_append_len (h : heap_t) (x : Option vlist_node_t) :
    (h ++ [x]).getD h.length none = x := by
  rw [List.getD_eq_getElem?_getD, List.getElem?_append_right (le_refl _)]
  simp

theorem ptr_getD_set_eq (h : heap_t) {a : Nat} (ha : a < h.length) (x : Option vlist_node_t) :
    (h.set a x).getD a none = x := by
  simp [List.getD_eq_getElem?_getD, List.getElem?_set, ha]

theorem ptr_getD_set_ne (h : heap_t) {a b : Nat} (hab : a ≠ b) (x : Option vlist_node_t) :
    (h.set a x).getD b none = h.getD b none := by
  simp [List.getD_eq_getElem?_getD, List.getElem?_set, hab]

theorem ptr_load_eq {h : heap_t} {a : Nat} {n : vlist_node_t}
    (hn : h.getD a none = some n) : load h (some a) = .ret n := by
  simp only [load, hn]

theorem first_or_append (q : Option Nat) (L1 L2 : List (Nat × Int)) :
    first_or q (L1 ++ L2) = first_or (first_or q L2) L1 := by
  cases L1 with
  | nil => rfl
  | cons x L1 => rfl

theorem last_or_append (p : Option Nat) : ∀ (L1 L2 : List (Nat × Int)),
    last_or p (L1 ++ L2) = last_or (last_or p L1) L2 := by
  intro L1
  induction L1 generalizing p with
  | nil => intro L2; rfl
  | cons x L1 ih => intro L2; obtain ⟨a, v⟩ := x; exact ih (some a) L2

theorem last_or_some (a : Nat) : ∀ (L : List (Nat × Int)), ∃ t, last_or (some a) L = some t := by
  intro L
  induction L generalizing a with
  | nil => exact ⟨a, rfl⟩
  | cons x L ih => obtain ⟨b, v⟩ := x; exact ih b

theorem last_or_mem (a : Nat) : ∀ (L : List (Nat × Int)) (t : Nat),
    last_or (some a) L = some t → t = a ∨ t ∈ L.map Prod.fst := by
  intro L
  induction L generalizing a with
  | nil => intro t h; left; simp only [last_or, Option.some.injEq] at h; exact h.symm
  | cons x L ih =>
    obtain ⟨b, v⟩ := x
    intro t h
    right
    rcases ih b t h with h1 | h1
    · simp [h1]
    · simp [h1]

theorem linked_frame {h h' : heap_t} : ∀ (L : List (Nat × Int)) (p q : Option Nat),
    linked h p L q → (∀ a ∈ L.map Prod.fst, h'.getD a none = h.getD a none) →
    linked h' p L q := by
  intro L
  induction L with
  | nil => intro p q _ _; trivial
  | cons x L ih =>
    obtain ⟨a, v⟩ := x
    intro p q hl hf
    obtain ⟨h1, h2⟩ := hl
    refine ⟨?_, ih (some a) q h2 (fun b hb => hf b ?_)⟩
    · rw [hf a (by simp)]; exact h1
    · simp only [List.map_cons, List.mem_cons]; exact Or.inr hb

theorem linked_append {h : heap_t} : ∀ (L1 L2 : List (Nat × Int)) (p q : Option Nat),
    linked h p (L1 ++ L2) q ↔
      linked h p L1 (first_or q L2) ∧ linked h (last_or p L1) L2 q := by
  intro L1
  induction L1 with
  | nil => intro L2 p q; simp [linked, first_or, last_or]
  | cons x L1 ih =>
    obtain ⟨a, v⟩ := x
    intro L2 p q
    simp only [List.cons_append, linked, List.append_eq, ih L2 (some a) q, first_or_append,
      last_or, and_assoc]

theorem count_next_linked {h : heap_t} : ∀ (L : List (Nat × Int)) (p : Option Nat)
    (fuel : Nat), linked h p L none → L.length ≤ fuel →
    count_next h fuel (first_or none L) = .ret L.length := by
  intro L
  induction L with
  | nil => intro p fuel _ _; cases fuel <;> rfl
  | cons x L ih =>
    obtain ⟨a, v⟩ := x
    intro p fuel hl hf
    obtain ⟨h1, h2⟩ := hl
    cases fuel with
    | zero => simp at hf
    | succ fuel =>
      have hf' : L.length ≤ fuel := by simpa using hf
      show count_next h (fuel + 1) (some a) = _
      rw [count_next, ptr_load_eq h1]
      simp only [Run.bind, ih (some a) fuel h2 hf', List.length_cons]

theorem count_prev_linked {h : heap_t} : ∀ (L : List (Nat × Int)) (q : Option Nat)
    (fuel : Nat), linked h none L q → L.length ≤ fuel →
    count_prev h fuel (last_or none L) = .ret L.length := by
  intro L
  induction L using List.reverseRecOn with
  | nil => intro q fuel _ _; cases fuel <;> rfl
  | append_singleton L x ih =>
    obtain ⟨t, v⟩ := x
    intro q fuel hl hf
    rw [linked_append] at hl
    obtain ⟨h1, h2, _⟩ := hl
    cases fuel with
    | zero => simp at hf
    | succ fuel =>
      have hf' : L.length ≤ fuel := by simpa using hf
      have hlast : last_or none (L ++ [(t, v)]) = some t := by
        rw [last_or_append]; rfl
      rw [hlast, count_prev, ptr_load_eq h2]
      simp only [Run.bind, ih _ fuel h1 hf', List.length_append, List.length_singleton]

end Ptr

namespace Ptr

theorem vlist_insert_head_inv {h : heap_t} {l : vlist_t} {L : List (Nat × Int)}
    (hi : list_inv h l L) (v : Int) :
    ∃ h' l', vlist_insert_head h l v true = .ret (SUCCESS, h', l') ∧
      list_inv h' l' ((h.length, v) :: L) := by
  have hft : ¬ (true = false) := by decide
  cases L with
  | nil =>
    have hhead : l.head = none := hi.head_eq
    have htail : l.tail = none := hi.tail_eq
    have hlen := hi.length_eq
    refine ⟨h ++ [some ⟨v, none, none⟩],
      ⟨(l.length + 1) % 4294967296, some h.length, some h.length⟩, ?_, ?_⟩
    · simp only [vlist_insert_head, if_neg hft, hhead, htail, Run.bind, if_true]
    · exact {
        links := ⟨by rw [ptr_getD_append_len]; rfl, trivial⟩
        nodup := by simp
        bound := by simp
        head_eq := rfl
        tail_eq := rfl
        length_eq := by
          simp only [List.length_nil, List.length_cons] at hlen ⊢
          omega
        length_le := by simp }
  | cons x rest =>
    obtain ⟨a, va⟩ := x
    have hhead : l.head = some a := hi.head_eq
    obtain ⟨t, ht⟩ := last_or_some a rest
    have htail : l.tail = some t := by rw [hi.tail_eq]; exact ht
    have hlen := hi.length_eq
    obtain ⟨hl1, hl2⟩ := hi.links
    have ha : a < h.length := hi.bound a (by simp)
    have hnd : a ∉ rest.map Prod.fst ∧ (rest.map Prod.fst).Nodup := by
      have := hi.nodup
      simpa using this
    have hbd : ∀ b ∈ rest.map Prod.fst, b < h.length := fun b hb' =>
      hi.bound b (by simp only [List.map_cons, List.mem_cons]; exact Or.inr hb')
    have hload : (h ++ [some (⟨v, none, some a⟩ : vlist_node_t)]).getD a none =
        some ⟨va, none, first_or none rest⟩ := by
      rw [ptr_getD_append_lt _ _ ha]; exact hl1
    have hts : ¬ ((some t : Option Nat) = none) := by simp
    refine ⟨(h ++ [some (⟨v, none, some a⟩ : vlist_node_t)]).set a
        (some ⟨va, some h.length, first_or none rest⟩),
      ⟨(l.length + 1) % 4294967296, some h.length, some t⟩, ?_, ?_⟩
    · simp only [vlist_insert_head, if_neg hft, hhead, htail, ptr_load_eq hload,
        Run.bind, if_neg hts]
    · have hla : a < (h ++ [some (⟨v, none, some a⟩ : vlist_node_t)]).length := by
        simp; omega
      have hne : a ≠ h.length := by omega
      exact {
        links := by
          refine ⟨?_, ?_, ?_⟩
          · rw [ptr_getD_set_ne _ hne, ptr_getD_append_len]; rfl
          · rw [ptr_getD_set_eq _ hla]
          · refine linked_frame rest (some a) none hl2 (fun b hb' => ?_)
            have hba : a ≠ b := fun hc => hnd.1 (hc ▸ hb')
            rw [ptr_getD_set_ne _ hba, ptr_getD_append_lt _ _ (hbd b hb')]
        nodup := by
          have hfresh : h.length ∉ (((a, va) :: rest).map Prod.fst) := fun hc =>
            Nat.lt_irrefl _ (hi.bound _ hc)
          exact List.nodup_cons.mpr ⟨hfresh, hi.nodup⟩
        bound := by
          intro b hb'
          simp only [List.length_set, List.length_append, List.length_singleton]
          simp only [List.map_cons, List.mem_cons] at hb'
          rcases hb' with hb' | hb'
          · subst hb'; omega
          · have := hi.bound b (by simpa using hb'); omega
        head_eq := rfl
        tail_eq := by simp only [last_or]; exact ht.symm
        length_eq := by
          simp only [List.length_cons] at hlen ⊢
          omega
        length_le := by
          have := hi.length_le
          simp only [List.length_set, List.length_append, List.length_singleton,
            List.length_cons] at this ⊢
          omega }

end Ptr

namespace Ptr

theorem first_or_some (a : Nat) (L : List (Nat × Int)) : ∃ x, first_or (some a) L = some x := by
  cases L with
  | nil => exact ⟨a, rfl⟩
  | cons y L => exact ⟨y.1, rfl⟩

theorem ptr_nodup_concat {L0 : List (Nat × Int)} {t : Nat} {vt : Int}
    (h : ((L0 ++ [(t, vt)]).map Prod.fst).Nodup) :
    t ∉ L0.map Prod.fst ∧ (L0.map Prod.fst).Nodup := by
  rw [List.map_append, List.nodup_append] at h
  exact ⟨fun hc => h.2.2 hc (by simp), h.1⟩

theorem vlist_insert_tail_inv {h : heap_t} {l : vlist_t} {L : List (Nat × Int)}
    (hi : list_inv h l L) (v : Int) :
    ∃ h' l', vlist_insert_tail h l v true = .ret (SUCCESS, h', l') ∧
      list_inv h' l' (L ++ [(h.length, v)]) := by
  have hft : ¬ (true = false) := by decide
  rcases List.eq_nil_or_concat L with hL | ⟨L0, x, hL⟩
  · subst hL
    have hhead : l.head = none := hi.head_eq
    have htail : l.tail = none := hi.tail_eq
    have hlen := hi.length_eq
    refine ⟨h ++ [some ⟨v, none, none⟩],
      ⟨(l.length + 1) % 4294967296, some h.length, some h.length⟩, ?_, ?_⟩
    · simp only [vlist_insert_tail, if_neg hft, hhead, htail, Run.bind, if_true]
    · exact {
        links := ⟨by rw [ptr_getD_append_len]; rfl, trivial⟩
        nodup := by simp
        bound := by simp
        head_eq := rfl
        tail_eq := rfl
        length_eq := by
          simp only [List.length_nil, List.length_append, List.length_singleton] at hlen ⊢
          omega
        length_le := by simp }
  · obtain ⟨t, vt⟩ := x
    rw [List.concat_eq_append] at hL
    subst hL
    have htail : l.tail = some t := by rw [hi.tail_eq, last_or_append]; rfl
    obtain ⟨hd, hhd⟩ := first_or_some t L0
    have hhead : l.head = some hd := by
      rw [hi.head_eq, first_or_append]; exact hhd
    have hlen := hi.length_eq
    obtain ⟨hl0, hl1, _⟩ := (linked_append L0 [(t, vt)] none none).mp hi.links
    have ht : t < h.length := hi.bound t (by simp)
    obtain ⟨hnt, hnd0⟩ := ptr_nodup_concat hi.nodup
    have hbd : ∀ b ∈ L0.map Prod.fst, b < h.length := fun b hb' =>
      hi.bound b (by simp only [List.map_append, List.mem_append]; exact Or.inl hb')
    have hload : (h ++ [some (⟨v, some t, none⟩ : vlist_node_t)]).getD t none =
        some ⟨vt, last_or none L0, none⟩ := by
      rw [ptr_getD_append_lt _ _ ht]; exact hl1
    have hts : ¬ ((some hd : Option Nat) = none) := by simp
    refine ⟨(h ++ [some (⟨v, some t, none⟩ : vlist_node_t)]).set t
        (some ⟨vt, last_or none L0, some h.length⟩),
      ⟨(l.length + 1) % 4294967296, some hd, some h.length⟩, ?_, ?_⟩
    · simp only [vlist_insert_tail, if_neg hft, hhead, htail, ptr_load_eq hload,
        Run.bind, if_neg hts]
    · have hlt : t < (h ++ [some (⟨v, some t, none⟩ : vlist_node_t)]).length := by
        simp; omega
      have hne : t ≠ h.length := by omega
      exact {
        links := by
          rw [List.append_assoc]
          refine (linked_append L0 _ none none).mpr ⟨?_, ?_, ?_, trivial⟩
          · refine linked_frame L0 none _ hl0 (fun b hb' => ?_)
            have hbt : t ≠ b := fun hc => hnt (hc ▸ hb')
            rw [ptr_getD_set_ne _ hbt, ptr_getD_append_lt _ _ (hbd b hb')]
          · rw [ptr_getD_set_eq _ hlt]; rfl
          · rw [ptr_getD_set_ne _ hne, ptr_getD_append_len]; rfl
        nodup := by
          rw [List.map_append, List.nodup_append]
          refine ⟨hi.nodup, by simp, ?_⟩
          intro b hb1 hb2
          simp only [List.map_cons, List.map_nil, List.mem_singleton] at hb2
          subst hb2
          exact Nat.lt_irrefl _ (hi.bound _ hb1)
        bound := by
          intro b hb'
          simp only [List.length_set, List.length_append, List.length_singleton]
          rw [List.map_append, List.mem_append] at hb'
          rcases hb' with hb' | hb'
          · have := hi.bound b hb'; omega
          · simp only [List.map_cons, List.map_nil, List.mem_singleton] at hb'
            omega
        head_eq := by
          show some hd = first_or none ((L0 ++ [(t, vt)]) ++ [(h.length, v)])
          rw [first_or_append, first_or_append]; exact hhd.symm
        tail_eq := by rw [last_or_append]; rfl
        length_eq := by
          simp only [List.length_append, List.length_singleton, List.length_cons,
            List.length_nil] at hlen ⊢
          omega
        length_le := by
          have := hi.length_le
          simp only [List.length_set, List.length_append, List.length_singleton] at this ⊢
          omega }

theorem vlist_remove_head_inv {h : heap_t} {l : vlist_t} {L : List (Nat × Int)}
    (hi : list_inv h l L) (hne : l.length ≠ 0) :
    ∃ a va rest h' l', L = (a, va) :: rest ∧
      vlist_remove_head h l = .ret (SUCCESS, h', l', some va) ∧ list_inv h' l' rest := by
  have hlen := hi.length_eq
  cases L with
  | nil => exact absurd hlen hne
  | cons x rest =>
    obtain ⟨a, va⟩ := x
    have hhead : l.head = some a := hi.head_eq
    obtain ⟨hl1, hl2⟩ := hi.links
    have ha : a < h.length := hi.bound a (by simp)
    have hnd : a ∉ rest.map Prod.fst ∧ (rest.map Prod.fst).Nodup := by
      have := hi.nodup
      simpa using this
    cases rest with
    | nil =>
      refine ⟨a, va, [], h.set a none, ⟨l.length - 1, none, none⟩, rfl, ?_, ?_⟩
      · simp only [vlist_remove_head, if_neg hne, hhead, ptr_load_eq hl1, Run.bind, first_or]
      · exact {
          links := trivial
          nodup := by simp
          bound := by simp
          head_eq := rfl
          tail_eq := rfl
          length_eq := by
            simp only [List.length_cons, List.length_nil] at hlen ⊢
            omega
          length_le := by simp }
    | cons y rest2 =>
      obtain ⟨b, vb⟩ := y
      obtain ⟨hb1, hb2⟩ := hl2
      have hab : a ≠ b := fun hc => hnd.1 (by simp [hc])
      have hb : b < h.length := hi.bound b (by simp)
      have hnd2 : b ∉ rest2.map Prod.fst ∧ (rest2.map Prod.fst).Nodup := by
        have := hnd.2
        simpa using this
      have hload : (h.set a none).getD b none = some ⟨vb, some a, first_or none rest2⟩ := by
        rw [ptr_getD_set_ne _ hab]; exact hb1
      refine ⟨a, va, (b, vb) :: rest2,
        (h.set a none).set b (some ⟨vb, none, first_or none rest2⟩),
        ⟨l.length - 1, some b, l.tail⟩, rfl, ?_, ?_⟩
      · simp only [vlist_remove_head, if_neg hne, hhead, ptr_load_eq hl1, Run.bind, first_or,
          ptr_load_eq hload]
      · have hlb : b < (h.set a none).length := by simpa using hb
        exact {
          links := by
            refine ⟨?_, ?_⟩
            · rw [ptr_getD_set_eq _ hlb]
            · refine linked_frame rest2 (some b) none hb2 (fun c hc => ?_)
              have hbc : b ≠ c := fun hc' => hnd2.1 (hc' ▸ hc)
              have hac : a ≠ c := fun hc' => hnd.1 (by simp [hc', hc])
              rw [ptr_getD_set_ne _ hbc, ptr_getD_set_ne _ hac]
          nodup := hnd.2
          bound := by
            intro c hc
            simp only [List.length_set]
            exact hi.bound c (by
              simp only [List.map_cons, List.mem_cons] at hc ⊢
              exact Or.inr hc)
          head_eq := rfl
          tail_eq := hi.tail_eq
          length_eq := by
            simp only [List.length_cons] at hlen ⊢
            omega
          length_le := by
            have := hi.length_le
            simp only [List.length_set, List.length_cons] at this ⊢
            omega }

theorem vlist_remove_tail_inv {h : heap_t} {l : vlist_t} {L : List (Nat × Int)}
    (hi : list_inv h l L) (hne : l.length ≠ 0) :
    ∃ L0 t vt h' l', L = L0 ++ [(t, vt)] ∧
      vlist_remove_tail h l = .ret (SUCCESS, h', l', some vt) ∧ list_inv h' l' L0 := by
  have hlen := hi.length_eq
  rcases List.eq_nil_or_concat L with hL | ⟨L0, x, hL⟩
  · subst hL
    exact absurd hlen hne
  · obtain ⟨t, vt⟩ := x
    rw [List.concat_eq_append] at hL
    subst hL
    have htail : l.tail = some t := by rw [hi.tail_eq, last_or_append]; rfl
    obtain ⟨hl0, hl1, _⟩ := (linked_append L0 [(t, vt)] none none).mp hi.links
    have hl1' : h.getD t none = some ⟨vt, last_or none L0, none⟩ := hl1
    have ht : t < h.length := hi.bound t (by simp)
    obtain ⟨hnt, hnd0⟩ := ptr_nodup_concat hi.nodup
    have hbd : ∀ b ∈ L0.map Prod.fst, b < h.length := fun b hb' =>
      hi.bound b (by simp only [List.map_append, List.mem_append]; exact Or.inl hb')
    rcases List.eq_nil_or_concat L0 with hL0 | ⟨L00, y, hL0⟩
    · subst hL0
      refine ⟨[], t, vt, h.set t none, ⟨l.length - 1, none, none⟩, rfl, ?_, ?_⟩
      · simp only [vlist_remove_tail, if_neg hne, htail, ptr_load_eq hl1', Run.bind, last_or]
      · exact {
          links := trivial
          nodup := by simp
          bound := by simp
          head_eq := rfl
          tail_eq := rfl
          length_eq := by
            simp only [List.length_append, List.length_singleton, List.length_nil] at hlen ⊢
            omega
          length_le := by simp }
    · obtain ⟨s, vs⟩ := y
      rw [List.concat_eq_append] at hL0
      subst hL0
      have hlast : last_or none (L00 ++ [(s, vs)]) = some s := by
        rw [last_or_append]; rfl
      obtain ⟨hl00, hls, _⟩ := (linked_append L00 [(s, vs)] none (some t)).mp hl0
      have hls' : h.getD s none = some ⟨vs, last_or none L00, some t⟩ := hls
      have hs : s < h.length := hbd s (by simp)
      have hts : t ≠ s := fun hc => hnt (by simp [hc])
      obtain ⟨hns, hnd00⟩ := ptr_nodup_concat hnd0
      have hload : (h.set t none).getD s none = some ⟨vs, last_or none L00, some t⟩ := by
        rw [ptr_getD_set_ne _ hts]; exact hls'
      refine ⟨L00 ++ [(s, vs)], t, vt,
        (h.set t none).set s (some ⟨vs, last_or none L00, none⟩),
        ⟨l.length - 1, l.head, some s⟩, rfl, ?_, ?_⟩
      · simp only [vlist_remove_tail, if_neg hne, htail, ptr_load_eq hl1', Run.bind, hlast,
          ptr_load_eq hload]
      · have hls2 : s < (h.set t none).length := by simpa using hs
        exact {
          links := by
            refine (linked_append L00 _ none none).mpr ⟨?_, ?_, trivial⟩
            · refine linked_frame L00 none _ hl00 (fun c hc => ?_)
              have hsc : s ≠ c := fun hc' => hns (hc' ▸ hc)
              have htc : t ≠ c := fun hc' => hnt (by
                simp only [List.map_append, List.mem_append]; exact Or.inl (hc' ▸ hc))
              rw [ptr_getD_set_ne _ hsc, ptr_getD_set_ne _ htc]
            · rw [ptr_getD_set_eq _ hls2]; rfl
          nodup := hnd0
          bound := by
            intro c hc
            simp only [List.length_set]
            exact hbd c hc
          head_eq := by
            show l.head = first_or none (L00 ++ [(s, vs)])
            rw [hi.head_eq, first_or_append, first_or_append, first_or_append]
            rfl
          tail_eq := hlast.symm
          length_eq := by
            simp only [List.length_append, List.length_singleton] at hlen ⊢
            omega
          length_le := by
            have := hi.length_le
            simp only [List.length_set, List.length_append, List.length_singleton] at this ⊢
            omega }

theorem vlist_remove_head_empty (h : heap_t) {l : vlist_t} (h0 : l.length = 0) :
    vlist_remove_head h l = .ret (EEMPTY, h, l, none) := by
  simp only [vlist_remove_head, if_pos h0]

theorem vlist_remove_tail_empty (h : heap_t) {l : vlist_t} (h0 : l.length = 0) :
    vlist_remove_tail h l = .ret (EEMPTY, h, l, none) := by
  simp only [vlist_remove_tail, if_pos h0]

theorem vlist_peek_head_inv {h : heap_t} {l : vlist_t} {L : List (Nat × Int)}
    (hi : list_inv h l L) :
    ∃ rc out, vlist_peek_head h l = .ret (rc, h, l, out) := by
  by_cases h0 : l.length = 0
  · exact ⟨EEMPTY, none, by simp only [vlist_peek_head, if_pos h0]⟩
  · have hlen := hi.length_eq
    cases L with
    | nil => exact absurd hlen h0
    | cons x rest =>
      obtain ⟨a, va⟩ := x
      have hhead : l.head = some a := hi.head_eq
      exact ⟨SUCCESS, some va, by
        simp only [vlist_peek_head, if_neg h0, hhead, ptr_load_eq hi.links.1, Run.bind]⟩

theorem vlist_peek_tail_inv {h : heap_t} {l : vlist_t} {L : List (Nat × Int)}
    (hi : list_inv h l L) :
    ∃ rc out, vlist_peek_tail h l = .ret (rc, h, l, out) := by
  by_cases h0 : l.length = 0
  · exact ⟨EEMPTY, none, by simp only [vlist_peek_tail, if_pos h0]⟩
  · have hlen := hi.length_eq
    rcases List.eq_nil_or_concat L with hL | ⟨L0, x, hL⟩
    · subst hL
      exact absurd hlen h0
    · obtain ⟨t, vt⟩ := x
      rw [List.concat_eq_append] at hL
      subst hL
      have htail : l.tail = some t := by rw [hi.tail_eq, last_or_append]; rfl
      obtain ⟨_, hl1, _⟩ := (linked_append L0 [(t, vt)] none none).mp hi.links
      have hl1' : h.getD t none = some ⟨vt, last_or none L0, none⟩ := hl1
      exact ⟨SUCCESS, some vt, by
        simp only [vlist_peek_tail, if_neg h0, htail, ptr_load_eq hl1', Run.bind]⟩

theorem apply_op_inv {h : heap_t} {l : vlist_t} {L : List (Nat × Int)}
    (hi : list_inv h l L) (o : op) :
    ∃ h' l' L', apply_op (h, l) o = .ret (h', l') ∧ list_inv h' l' L' := by
  cases o with
  | insert_head v ok =>
    cases ok with
    | false => exact ⟨h, l, L, by simp [apply_op, vlist_insert_head, Run.bind], hi⟩
    | true =>
      obtain ⟨h', l', hr, hi'⟩ := vlist_insert_head_inv hi v
      exact ⟨h', l', _, by simp only [apply_op, hr, Run.bind], hi'⟩
  | insert_tail v ok =>
    cases ok with
    | false => exact ⟨h, l, L, by simp [apply_op, vlist_insert_tail, Run.bind], hi⟩
    | true =>
      obtain ⟨h', l', hr, hi'⟩ := vlist_insert_tail_inv hi v
      exact ⟨h', l', _, by simp only [apply_op, hr, Run.bind], hi'⟩
  | remove_head =>
    by_cases h0 : l.length = 0
    · exact ⟨h, l, L, by simp only [apply_op, vlist_remove_head_empty h h0, Run.bind], hi⟩
    · obtain ⟨a, va, rest, h', l', _, hr, hi'⟩ := vlist_remove_head_inv hi h0
      exact ⟨h', l', _, by simp only [apply_op, hr, Run.bind], hi'⟩
  | remove_tail =>
    by_cases h0 : l.length = 0
    · exact ⟨h, l, L, by simp only [apply_op, vlist_remove_tail_empty h h0, Run.bind], hi⟩
    · obtain ⟨L0, t, vt, h', l', _, hr, hi'⟩ := vlist_remove_tail_inv hi h0
      exact ⟨h', l', _, by simp only [apply_op, hr, Run.bind], hi'⟩
  | peek_head =>
    obtain ⟨rc, out, hr⟩ := vlist_peek_head_inv hi
    exact ⟨h, l, L, by simp only [apply_op, hr, Run.bind], hi⟩
  | peek_tail =>
    obtain ⟨rc, out, hr⟩ := vlist_peek_tail_inv hi
    exact ⟨h, l, L, by simp only [apply_op, hr, Run.bind], hi⟩

theorem run_ops_inv : ∀ (ops : List op) (h : heap_t) (l : vlist_t) (L : List (Nat × Int)),
    list_inv h l L →
    ∃ h' l' L', run_ops ops (h, l) = .ret (h', l') ∧ list_inv h' l' L' := by
  intro ops
  induction ops with
  | nil => intro h l L hi; exact ⟨h, l, L, rfl, hi⟩
  | cons o ops ih =>
    intro h l L hi
    obtain ⟨h1, l1, L1, hr, hi1⟩ := apply_op_inv hi o
    obtain ⟨h2, l2, L2, hr2, hi2⟩ := ih h1 l1 L1 hi1
    exact ⟨h2, l2, L2, by simp only [run_ops, hr, Run.bind, hr2], hi2⟩

theorem list_inv_init (h : heap_t) (l : vlist_t) : list_inv h (vlist_init l).2 [] :=
  { links := trivial
    nodup := by simp
    bound := by simp
    head_eq := rfl
    tail_eq := rfl
    length_eq := rfl
    length_le := by simp }

theorem list_inv_counts {h : heap_t} {l : vlist_t} {L : List (Nat × Int)}
    (hi : list_inv h l L) :
    count_next h h.length l.head = .ret L.length ∧
    count_prev h h.length l.tail = .ret L.length ∧
    l.length = L.length % 4294967296 ∧
    (l.head = none ↔ L.length = 0) ∧ (l.tail = none ↔ L.length = 0) := by
  refine ⟨?_, ?_, hi.length_eq, ?_, ?_⟩
  · rw [hi.head_eq]
    exact count_next_linked L none _ hi.links hi.length_le
  · rw [hi.tail_eq]
    exact count_prev_linked L none _ hi.links hi.length_le
  · rw [hi.head_eq]
    cases L with
    | nil => simp [first_or]
    | cons x L => simp [first_or]
  · rw [hi.tail_eq]
    cases L with
    | nil => simp [last_or]
    | cons x L =>
      obtain ⟨t, ht⟩ := last_or_some x.1 L
      simp [last_or, ht]

end Ptr

/-! ### The vertex list as a stack and as a queue, on nodes and links -/

namespace Ptr

theorem push_all_inv : ∀ (ps : List Int) (h : heap_t) (l : vlist_t) (L : List (Nat × Int)),
    list_inv h l L →
    ∃ h' l' L', push_all (h, l) ps = .ret (h', l') ∧ list_inv h' l' L' ∧
      L'.map Prod.snd = ps.reverse ++ L.map Prod.snd := by
  intro ps
  induction ps with
  | nil => intro h l L hi; exact ⟨h, l, L, rfl, hi, by simp⟩
  | cons p ps ih =>
    intro h l L hi
    obtain ⟨h1, l1, hr, hi1⟩ := vlist_insert_head_inv hi p
    obtain ⟨h2, l2, L2, hr2, hi2, hv⟩ := ih h1 l1 _ hi1
    refine ⟨h2, l2, L2, ?_, hi2, ?_⟩
    · simp only [push_all, vlist_push, hr, Run.bind, hr2]
    · rw [hv]; simp

theorem pop_times_eq : ∀ (k : Nat) (h : heap_t) (l : vlist_t) (L : List (Nat × Int)),
    list_inv h l L → L.length < 4294967296 → k ≤ L.length →
    ∃ h' l', pop_times k (h, l) =
        .ret ((L.take k).map (fun x => (SUCCESS, some x.2)), h', l') ∧
      list_inv h' l' (L.drop k) := by
  intro k
  induction k with
  | zero => intro h l L hi _ _; exact ⟨h, l, rfl, hi⟩
  | succ k ih =>
    intro h l L hi hb hk
    have hlen := hi.length_eq
    have hne : l.length ≠ 0 := by omega
    obtain ⟨a, va, rest, h1, l1, hL, hr, hi1⟩ := vlist_remove_head_inv hi hne
    subst hL
    simp only [List.length_cons] at hb hk
    obtain ⟨h2, l2, hr2, hi2⟩ := ih h1 l1 rest hi1 (by omega) (by omega)
    refine ⟨h2, l2, ?_, hi2⟩
    simp only [pop_times, vlist_pop, hr, Run.bind, hr2, List.take_succ_cons, List.map_cons]

theorem pop_times_empty : ∀ (k : Nat) (h : heap_t) (l : vlist_t), l.length = 0 →
    pop_times k (h, l) = .ret (List.replicate k (EEMPTY, none), h, l) := by
  intro k
  induction k with
  | zero => intro h l _; rfl
  | succ k ih =>
    intro h l h0
    simp only [pop_times, vlist_pop, vlist_remove_head_empty h h0, Run.bind, ih h l h0,
      List.replicate_succ]

theorem run_queue_eq : ∀ (ops : List queue_op) (h : heap_t) (l : vlist_t)
    (L : List (Nat × Int)), list_inv h l L → L.length < 4294967296 →
    no_underflow L.length ops = true → no_overflow L.length ops = true →
    ∃ h' l' L', run_queue ops (h, l) =
        .ret ((((L.map Prod.snd).reverse ++ enqueued ops).take (dequeues ops)).map
          (fun p => (SUCCESS, some p)), h', l') ∧
      list_inv h' l' L' ∧ L'.length < 4294967296 ∧
      (L'.map Prod.snd).reverse =
        ((L.map Prod.snd).reverse ++ enqueued ops).drop (dequeues ops) := by
  intro ops
  induction ops with
  | nil =>
    intro h l L hi hb _ _
    exact ⟨h, l, L, by simp [run_queue, enqueued, dequeues], hi, hb,
      by simp [enqueued, dequeues]⟩
  | cons o ops ih =>
    intro h l L hi hb hu ho
    cases o with
    | enqueue v =>
      simp only [no_underflow] at hu
      simp only [no_overflow, Bool.and_eq_true, decide_eq_true_eq] at ho
      obtain ⟨h1, l1, hr, hi1⟩ := vlist_insert_head_inv hi v
      obtain ⟨h2, l2, L2, hr2, hi2, hb2, hv⟩ := ih h1 l1 _ hi1
        (by simpa using ho.1) (by simpa using hu) (by simpa using ho.2)
      refine ⟨h2, l2, L2, ?_, hi2, hb2, ?_⟩
      · simp only [run_queue, vlist_enqueue, hr, Run.bind, hr2, enqueued, dequeues]
        simp
      · rw [hv]; simp [enqueued, dequeues]
    | dequeue =>
      simp only [no_underflow, Bool.and_eq_true, decide_eq_true_eq] at hu
      simp only [no_overflow] at ho
      have hlen := hi.length_eq
      have hne : l.length ≠ 0 := by omega
      obtain ⟨L0, t, vt, h1, l1, hL, hr, hi1⟩ := vlist_remove_tail_inv hi hne
      subst hL
      simp only [List.length_append, List.length_singleton, Nat.add_sub_cancel] at hb hu ho
      obtain ⟨h2, l2, L2, hr2, hi2, hb2, hv⟩ := ih h1 l1 L0 hi1 (by omega) hu.2 ho
      refine ⟨h2, l2, L2, ?_, hi2, hb2, ?_⟩
      · simp only [run_queue, vlist_dequeue, hr, Run.bind, hr2, enqueued, dequeues]
        simp
      · rw [hv]; simp [enqueued, dequeues]

theorem run_queue_enqueues (v : Int) (ops : List queue_op) : ∀ (n : Nat) (h : heap_t)
    (l : vlist_t) (L : List (Nat × Int)), list_inv h l L →
    ∃ h' l' L', run_queue (List.replicate n (queue_op.enqueue v) ++ ops) (h, l) =
        run_queue ops (h', l') ∧
      list_inv h' l' L' ∧ L'.length = L.length + n := by
  intro n
  induction n with
  | zero => intro h l L hi; exact ⟨h, l, L, rfl, hi, rfl⟩
  | succ n ih =>
    intro h l L hi
    obtain ⟨h1, l1, hr, hi1⟩ := vlist_insert_head_inv hi v
    obtain ⟨h2, l2, L2, hr2, hi2, hl2⟩ := ih h1 l1 _ hi1
    refine ⟨h2, l2, L2, ?_, hi2, ?_⟩
    · simp only [List.replicate_succ, List.cons_append, run_queue, vlist_enqueue, hr, Run.bind,
        List.append_eq, hr2]
    · rw [hl2, List.length_cons]; omega

theorem run_ops_insert_heads (v : Int) : ∀ (n : Nat) (h : heap_t) (l : vlist_t)
    (L : List (Nat × Int)), list_inv h l L →
    ∃ h' l' L', run_ops (List.replicate n (op.insert_head v true)) (h, l) = .ret (h', l') ∧
      list_inv h' l' L' ∧ L'.length = L.length + n := by
  intro n
  induction n with
  | zero => intro h l L hi; exact ⟨h, l, L, rfl, hi, rfl⟩
  | succ n ih =>
    intro h l L hi
    obtain ⟨h1, l1, hr, hi1⟩ := vlist_insert_head_inv hi v
    obtain ⟨h2, l2, L2, hr2, hi2, hl2⟩ := ih h1 l1 _ hi1
    refine ⟨h2, l2, L2, ?_, hi2, ?_⟩
    · simp only [List.replicate_succ, run_ops, apply_op, hr, Run.bind, hr2]
    · rw [hl2, List.length_cons]; omega

theorem no_underflow_enqueues (v : Int) : ∀ (n size : Nat),
    no_underflow size (List.replicate n (queue_op.enqueue v) ++ [queue_op.dequeue]) =
      decide (0 < size + n) := by
  intro n
  induction n with
  | zero => intro size; simp [no_underflow]
  | succ n ih =>
    intro size
    simp only [List.replicate_succ, List.cons_append, no_underflow, List.append_eq, ih]
    rw [decide_eq_decide]
    omega

theorem list_inv_head_ne {h : heap_t} {l : vlist_t} {L : List (Nat × Int)}
    (hi : list_inv h l L) (hL : 0 < L.length) : l.head ≠ none := by
  rw [hi.head_eq]
  cases L with
  | nil => simp at hL
  | cons x L => simp [first_or]

theorem push_all_wraps (n : Nat) (v : Int) (hpos : 0 < n) (hn : n % 4294967296 = 0) :
    ∃ h l, push_all ([], (vlist_init ⟨0, none, none⟩).2) (List.replicate n v) = .ret (h, l) ∧
      l.head ≠ none ∧
      pop_times n (h, l) = .ret (List.replicate n (EEMPTY, none), h, l) := by
  obtain ⟨h, l, L, hr, hi, hv⟩ := push_all_inv (List.replicate n v) [] _ []
    (list_inv_init [] ⟨0, none, none⟩)
  have hlen : L.length = n := by
    have := congrArg List.length hv
    simpa using this
  have h0 : l.length = 0 := by rw [hi.length_eq, hlen, hn]
  exact ⟨h, l, hr, list_inv_head_ne hi (by omega), pop_times_empty n h l h0⟩

theorem run_queue_wraps (n : Nat) (v : Int) (hpos : 0 < n) (hn : n % 4294967296 = 0) :
    no_underflow 0 (List.replicate n (queue_op.enqueue v) ++ [queue_op.dequeue]) = true ∧
    ∃ h l, run_queue (List.replicate n (queue_op.enqueue v) ++ [queue_op.dequeue])
          ([], (vlist_init ⟨0, none, none⟩).2) = .ret ([(EEMPTY, none)], h, l) ∧
      l.head ≠ none := by
  refine ⟨by rw [no_underflow_enqueues]; simpa using hpos, ?_⟩
  obtain ⟨h, l, L, hr, hi, hlen⟩ := run_queue_enqueues v [queue_op.dequeue] n [] _ []
    (list_inv_init [] ⟨0, none, none⟩)
  have h0 : l.length = 0 := by rw [hi.length_eq, hlen]; simpa using hn
  refine ⟨h, l, ?_, list_inv_head_ne hi (by rw [hlen]; simpa using hpos)⟩
  rw [hr]
  simp only [run_queue, vlist_dequeue, vlist_remove_tail_empty h h0, Run.bind]

theorem run_ops_wraps (n : Nat) (v : Int) (hpos : 0 < n) (hn : n % 4294967296 = 0) :
    ∃ h l, run_ops (List.replicate n (op.insert_head v true))
          ([], (vlist_init ⟨0, none, none⟩).2) = .ret (h, l) ∧
      count_next h h.length l.head = .ret n ∧ count_prev h h.length l.tail = .ret n ∧
      l.length = 0 ∧ l.head ≠ none ∧ l.tail ≠ none := by
  obtain ⟨h, l, L, hr, hi, hlen⟩ := run_ops_insert_heads v n [] _ []
    (list_inv_init [] ⟨0, none, none⟩)
  have hlen' : L.length = n := by simpa using hlen
  obtain ⟨c1, c2, c3, c4, c5⟩ := list_inv_counts hi
  rw [hlen'] at c1 c2 c3 c4 c5
  refine ⟨h, l, hr, c1, c2, by rw [c3, hn], ?_, ?_⟩
  · intro hc; have := c4.mp hc; omega
  · intro hc; have := c5.mp hc; omega

end Ptr

/-! ## Claims -/

/-- C1: on a well-formed graph, from a valid start index and with enough fuel,
`graph_bfs` returns `SUCCESS`, and the sequence of vertices it prints has no
repetition and contains exactly the vertices reachable from `start`. -/
theorem graph_bfs_visits_reachable (g : graph_t) (start fuel : Nat) (hg : g.wf)
    (hs : start < g.n_vertices) (hf : g.n_vertices < fuel) :
    ∃ out, graph_bfs fuel g start = .ret (SUCCESS, out) ∧ out.Nodup ∧
      ∀ v, v ∈ out ↔ reach g start v := by
  obtain ⟨out, lev, h1, _, h3⟩ := graph_bfs_run hg hs hf
  refine ⟨out, h1, by simpa using h3.nodup, fun v => ⟨fun hv => ?_, fun hv => ?_⟩⟩
  · exact walk_reach (h3.wlk v (by simpa using hv))
  · obtain ⟨k, hk⟩ := reach_walk hv
    exact (bfs_inv_complete h3 hk).1

theorem graph_bfs_visits_reachable_witness :
    (mk_graph 4 [(0, 1, 1), (0, 2, 1), (1, 3, 1), (2, 3, 1)]).wf ∧
    0 < (mk_graph 4 [(0, 1, 1), (0, 2, 1), (1, 3, 1), (2, 3, 1)]).n_vertices ∧
    (mk_graph 4 [(0, 1, 1), (0, 2, 1), (1, 3, 1), (2, 3, 1)]).n_vertices < 5 ∧
    ∃ out, graph_bfs 5 (mk_graph 4 [(0, 1, 1), (0, 2, 1), (1, 3, 1), (2, 3, 1)]) 0 =
        .ret (SUCCESS, out) ∧ out.Nodup ∧
      ∀ v, v ∈ out ↔ reach (mk_graph 4 [(0, 1, 1), (0, 2, 1), (1, 3, 1), (2, 3, 1)]) 0 v :=
  ⟨by decide, by decide, by decide,
    graph_bfs_visits_reachable (mk_graph 4 [(0, 1, 1), (0, 2, 1), (1, 3, 1), (2, 3, 1)]) 0 5
      (by decide) (by decide) (by decide)⟩

/-- C2: on a well-formed graph, from a valid start and with enough fuel,
`graph_bfs` prints the vertices in a breadth-first order: a vertex whose
shortest distance from `start` is smaller than that of another is printed
before it; the printed sequence is the one of the queue-level traversal that
examines each vertex's edges in store order (newest first); and on the graph
with edges added in order (0,1), (0,2), (1,3), (2,3) the traversal from 0
prints 0, 2, 1, 3. -/
theorem graph_bfs_order (g : graph_t) (start fuel : Nat) (hg : g.wf)
    (hs : start < g.n_vertices) (hf : g.n_vertices < fuel) :
    (∃ out, graph_bfs fuel g start = .ret (SUCCESS, out) ∧
      (∀ u v, dist_lt g start u v → before out u v) ∧
      bfs_ref g fuel [] [start] = some out) ∧
    graph_bfs 5 (mk_graph 4 [(0, 1, 1), (0, 2, 1), (1, 3, 1), (2, 3, 1)]) 0 =
      .ret (SUCCESS, [0, 2, 1, 3]) := by
  refine ⟨?_, by decide⟩
  obtain ⟨out, lev, h1, h2, h3⟩ := graph_bfs_run hg hs hf
  refine ⟨out, h1, fun u v huv => ?_, h2⟩
  obtain ⟨k, hk, ⟨j, hj⟩, hmin⟩ := huv
  have hu := bfs_inv_complete h3 hk
  have hv := bfs_inv_complete h3 hj
  have hlv : k < lev v := hmin _ (h3.wlk v (by simpa using hv.1))
  have hne : u ≠ v := by
    intro h
    subst h
    omega
  rcases before_or hu.1 hv.1 hne with h | h
  · exact h
  · have hsorted : out.Pairwise fun a b => lev a ≤ lev b := by simpa using h3.sorted
    have := pairwise_before hsorted h
    omega

theorem graph_bfs_order_witness :
    (mk_graph 4 [(0, 1, 1), (0, 2, 1), (1, 3, 1), (2, 3, 1)]).wf ∧
    0 < (mk_graph 4 [(0, 1, 1), (0, 2, 1), (1, 3, 1), (2, 3, 1)]).n_vertices ∧
    (mk_graph 4 [(0, 1, 1), (0, 2, 1), (1, 3, 1), (2, 3, 1)]).n_vertices < 6 ∧
    ((∃ out, graph_bfs 6 (mk_graph 4 [(0, 1, 1), (0, 2, 1), (1, 3, 1), (2, 3, 1)]) 0 =
        .ret (SUCCESS, out) ∧
      (∀ u v, dist_lt (mk_graph 4 [(0, 1, 1), (0, 2, 1), (1, 3, 1), (2, 3, 1)]) 0 u v →
        before out u v) ∧
      bfs_ref (mk_graph 4 [(0, 1, 1), (0, 2, 1), (1, 3, 1), (2, 3, 1)]) 6 [] [0] = some out) ∧
    graph_bfs 5 (mk_graph 4 [(0, 1, 1), (0, 2, 1), (1, 3, 1), (2, 3, 1)]) 0 =
      .ret (SUCCESS, [0, 2, 1, 3])) :=
  ⟨by decide, by decide, by decide,
    graph_bfs_order (mk_graph 4 [(0, 1, 1), (0, 2, 1), (1, 3, 1), (2, 3, 1)]) 0 6
      (by decide) (by decide) (by decide)⟩

/-- C3: on a well-formed graph whose part reachable from a valid start has no
cycle, with enough fuel, `graph_toposort` returns `SUCCESS` and a list (head to
tail, as vertex indices) in which, for every edge from `u` to `v` with both
endpoints in the list, `u` occurs before `v`. -/
theorem graph_toposort_topological (g : graph_t) (start fuel : Nat) (hg : g.wf)
    (hs : start < g.n_vertices) (hf : g.n_vertices < fuel) (hac : acyclic_from g start) :
    ∃ order : List Nat,
      graph_toposort fuel g start = .ret (SUCCESS, ⟨order.length, order.map Int.ofNat⟩) ∧
      ∀ u v, adj g u v → u ∈ order → v ∈ order → before order u v := by
  obtain ⟨r, P, hrun⟩ := graph_toposort_run hg hs hf
  refine ⟨r.post.reverse, hrun, ?_⟩
  intro u v huv hu _
  have ht : topo_post g [] r.post := by
    refine P.topo [] hac ?_
    intro a ha _
    simp only [List.mem_singleton] at ha
    subst ha
    exact Relation.ReflTransGen.refl
  obtain ⟨l₁, l₂, hl⟩ := List.append_of_mem (List.mem_reverse.1 hu)
  rcases topo_post_before g r.post [] l₁ l₂ u v ht hl huv with h | h
  · simp at h
  · obtain ⟨m₁, m₂, rfl⟩ := List.append_of_mem h
    exact ⟨l₂.reverse, m₂.reverse, m₁.reverse, by rw [hl]; simp⟩

theorem graph_toposort_topological_witness :
    (mk_graph 4 [(0, 1, 1), (0, 2, 1), (1, 3, 1), (2, 3, 1)]).wf ∧
    0 < (mk_graph 4 [(0, 1, 1), (0, 2, 1), (1, 3, 1), (2, 3, 1)]).n_vertices ∧
    (mk_graph 4 [(0, 1, 1), (0, 2, 1), (1, 3, 1), (2, 3, 1)]).n_vertices < 5 ∧
    acyclic_from (mk_graph 4 [(0, 1, 1), (0, 2, 1), (1, 3, 1), (2, 3, 1)]) 0 ∧
    ∃ order : List Nat,
      graph_toposort 5 (mk_graph 4 [(0, 1, 1), (0, 2, 1), (1, 3, 1), (2, 3, 1)]) 0 =
        .ret (SUCCESS, ⟨order.length, order.map Int.ofNat⟩) ∧
      ∀ u v, adj (mk_graph 4 [(0, 1, 1), (0, 2, 1), (1, 3, 1), (2, 3, 1)]) u v →
        u ∈ order → v ∈ order → before order u v :=
  ⟨by decide, by decide, by decide, dag4_acyclic,
    graph_toposort_topological (mk_graph 4 [(0, 1, 1), (0, 2, 1), (1, 3, 1), (2, 3, 1)]) 0 5
      (by decide) (by decide) (by decide) dag4_acyclic⟩

/-- C4: on every well-formed graph, cyclic or not, from a valid start and with
enough fuel, `graph_toposort` returns `SUCCESS` and a list that holds exactly
the vertices reachable from `start`, each once; on the graph with the two
edges (0,1) and (2,3) the list returned from 0 is exactly [0, 1]. -/
theorem graph_toposort_reachable (g : graph_t) (start fuel : Nat) (hg : g.wf)
    (hs : start < g.n_vertices) (hf : g.n_vertices < fuel) :
    (∃ order : List Nat,
      graph_toposort fuel g start = .ret (SUCCESS, ⟨order.length, order.map Int.ofNat⟩) ∧
      order.Nodup ∧ ∀ v, v ∈ order ↔ reach g start v) ∧
    graph_toposort 5 (mk_graph 4 [(0, 1, 1), (2, 3, 1)]) 0 = .ret (SUCCESS, ⟨2, [0, 1]⟩) := by
  refine ⟨?_, by decide⟩
  obtain ⟨r, P, hrun⟩ := graph_toposort_run hg hs hf
  refine ⟨r.post.reverse, hrun, ?_, fun v => ?_⟩
  · exact List.nodup_reverse.2 (P.post_perm.nodup_iff.2 (dfs_post_nodup P))
  · rw [List.mem_reverse, P.post_perm.mem_iff]
    exact dfs_post_mem_iff hg P v

theorem graph_toposort_reachable_witness :
    (mk_graph 3 [(0, 1, 1), (1, 0, 1)]).wf ∧
    0 < (mk_graph 3 [(0, 1, 1), (1, 0, 1)]).n_vertices ∧
    (mk_graph 3 [(0, 1, 1), (1, 0, 1)]).n_vertices < 4 ∧
    ((∃ order : List Nat,
      graph_toposort 4 (mk_graph 3 [(0, 1, 1), (1, 0, 1)]) 0 =
        .ret (SUCCESS, ⟨order.length, order.map Int.ofNat⟩) ∧
      order.Nodup ∧ ∀ v, v ∈ order ↔ reach (mk_graph 3 [(0, 1, 1), (1, 0, 1)]) 0 v) ∧
    graph_toposort 5 (mk_graph 4 [(0, 1, 1), (2, 3, 1)]) 0 = .ret (SUCCESS, ⟨2, [0, 1]⟩)) :=
  ⟨by decide, by decide, by decide,
    graph_toposort_reachable (mk_graph 3 [(0, 1, 1), (1, 0, 1)]) 0 4
      (by decide) (by decide) (by decide)⟩

/-- C7 (fails on the code): `graph_dfs` does not mark the vertex at which the
restart scan starts a new tree, so that vertex is printed again when an edge
leads to it later. With two vertices and the self-loop (1,1), the run from 0
prints 0, 1, 1; with three vertices and the edge (2,1), it prints 0, 1, 2, 1. -/
theorem graph_dfs_prints_restart_vertex_twice :
    graph_dfs 3 (mk_graph 2 [(1, 1, 1)]) 0 = .ret (2, [0, 1, 1]) ∧
    graph_dfs 4 (mk_graph 3 [(2, 1, 1)]) 0 = .ret (3, [0, 1, 2, 1]) := by
  decide

/-- C8: on a well-formed graph, from a valid start and with enough fuel,
`graph_dfs` returns the count `c` of trees started: `c` is one plus the number
of vertices found unvisited by the index-order scan (listed in `roots`),
`c ≥ 1`, and `c = 1` exactly when every vertex is reachable from `start`. -/
theorem graph_dfs_count (g : graph_t) (start fuel : Nat) (hg : g.wf)
    (hs : start < g.n_vertices) (hf : g.n_vertices < fuel) :
    ∃ (c : Nat) (out roots : List Nat),
      graph_dfs fuel g start = .ret ((c : Int), out) ∧
      c = 1 + roots.length ∧ roots.Nodup ∧ (∀ i, i ∈ roots ↔ found_unvisited g start i) ∧
      1 ≤ c ∧ (c = 1 ↔ ∀ v, v < g.n_vertices → reach g start v) := by
  obtain ⟨out, roots, h1, h2, h3⟩ := graph_dfs_run hg hs hf
  refine ⟨1 + roots.length, out, roots, h1, rfl, h2, h3, by omega, ?_⟩
  constructor
  · intro hc
    have hnil : roots = [] := List.length_eq_zero.1 (by omega)
    intro v
    induction v using Nat.strong_induction_on with
    | _ v ih =>
      intro hv
      by_contra hnr
      have : found_unvisited g start v := by
        refine ⟨hv, hnr, fun j hj htg => ?_⟩
        exact hnr ((ih j hj (by omega)).trans (Relation.TransGen.to_reflTransGen htg))
      have := (h3 v).2 this
      rw [hnil] at this
      simp at this
  · intro hall
    have hnil : roots = [] := by
      apply List.eq_nil_iff_forall_not_mem.2
      intro i hi
      have := (h3 i).1 hi
      exact this.2.1 (hall i this.1)
    rw [hnil]
    rfl

theorem graph_dfs_count_witness :
    (mk_graph 3 [(2, 1, 1)]).wf ∧ 0 < (mk_graph 3 [(2, 1, 1)]).n_vertices ∧
    (mk_graph 3 [(2, 1, 1)]).n_vertices < 4 ∧
    ∃ (c : Nat) (out roots : List Nat),
      graph_dfs 4 (mk_graph 3 [(2, 1, 1)]) 0 = .ret ((c : Int), out) ∧
      c = 1 + roots.length ∧ roots.Nodup ∧
      (∀ i, i ∈ roots ↔ found_unvisited (mk_graph 3 [(2, 1, 1)]) 0 i) ∧
      1 ≤ c ∧ (c = 1 ↔ ∀ v, v < (mk_graph 3 [(2, 1, 1)]).n_vertices →
        reach (mk_graph 3 [(2, 1, 1)]) 0 v) :=
  ⟨by decide, by decide, by decide,
    graph_dfs_count (mk_graph 3 [(2, 1, 1)]) 0 4 (by decide) (by decide) (by decide)⟩

/-- C9 (fails on the code): on success `graph_dfs` returns the number of trees
started, not 0; on the graph with a single vertex it returns 1. -/
theorem graph_dfs_returns_count_not_zero :
    graph_dfs 2 (mk_graph 1 []) 0 = .ret (1, [0]) ∧
    graph_dfs 5 (mk_graph 4 [(0, 1, 1), (2, 3, 1)]) 0 = .ret (2, [0, 1, 2, 3]) := by
  decide

/-- C10 (as stated, fails): on the graph with edges added in order (0,1), (0,2),
(1,3), (2,3), `graph_dfs_iter` from 0 prints 0, 1, 3, 2 while the recursive
visit from 0, with only 0 marked, prints 0, 2, 3, 1. -/
theorem graph_dfs_iter_order_differs :
    graph_dfs_iter 5 (mk_graph 4 [(0, 1, 1), (0, 2, 1), (1, 3, 1), (2, 3, 1)]) 0 =
      .ret (SUCCESS, [0, 1, 3, 2]) ∧
    graph_dfs_visit (mk_graph 4 [(0, 1, 1), (0, 2, 1), (1, 3, 1), (2, 3, 1)]) 5 0
      ((List.replicate 4 false).set 0 true) [] =
      .ret (SUCCESS, [true, true, true, true], [0, 2, 3, 1]) ∧
    ([0, 1, 3, 2] : List Nat) ≠ [0, 2, 3, 1] := by
  decide

/-- C10 (amended): on a well-formed graph, from a valid start and with enough
fuel, `graph_dfs_iter` and the recursive visit from `start` (with only `start`
marked) both succeed and print the same vertices: each sequence begins with
`start`, has no repetition and holds exactly the vertices reachable from
`start`, so one is a permutation of the other. -/
theorem graph_dfs_iter_same_vertices (g : graph_t) (start fuel : Nat) (hg : g.wf)
    (hs : start < g.n_vertices) (hf : g.n_vertices < fuel) :
    ∃ (out_iter out_rec : List Nat) (visited' : List Bool),
      graph_dfs_iter fuel g start = .ret (SUCCESS, out_iter) ∧
      graph_dfs_visit g fuel start ((List.replicate g.n_vertices false).set start true) [] =
        .ret (SUCCESS, visited', out_rec) ∧
      out_iter.Perm out_rec ∧ out_iter.Nodup ∧
      out_iter.head? = some start ∧ out_rec.head? = some start ∧
      ∀ v, v ∈ out_iter ↔ reach g start v := by
  obtain ⟨oi, h1, I⟩ := graph_dfs_iter_run hg hs hf
  obtain ⟨r, hr, P⟩ := dfs_core_spec hg fuel start [start] (unseen_start hs hf)
  obtain ⟨_, hv2⟩ := vis_rel_set (vis_rel_init g) hs
  obtain ⟨v1, hc, _⟩ := dfs_visit_sim hg fuel start _ _ [] r hs hv2 hr
  have hnd : oi.Nodup := by simpa using I.nodup
  have hmem : ∀ v, v ∈ oi ↔ reach g start v := by
    intro v
    constructor
    · intro hv; exact I.rch v (by simpa using hv)
    · intro hv
      have hstart : start ∈ oi := by simpa using I.start
      have hcl : ∀ u ∈ oi, ∀ x, adj g u x → x ∈ oi := fun u hu x hux => by
        simpa using I.closed u hu x hux
      exact closed_reach hcl hstart hv
  refine ⟨oi, start :: r.pre, v1, h1, by simpa using hc, ?_, hnd, ?_, rfl, hmem⟩
  · rw [List.perm_ext_iff_of_nodup hnd (dfs_post_nodup P)]
    intro v
    rw [hmem v, dfs_post_mem_iff hg P v]
  · rcases I.first with ⟨h, h'⟩ | ⟨t, ht⟩
    · simp at h'
    · rw [ht]; rfl

theorem graph_dfs_iter_same_vertices_witness :
    (mk_graph 4 [(0, 1, 1), (0, 2, 1), (1, 3, 1), (2, 3, 1)]).wf ∧
    0 < (mk_graph 4 [(0, 1, 1), (0, 2, 1), (1, 3, 1), (2, 3, 1)]).n_vertices ∧
    (mk_graph 4 [(0, 1, 1), (0, 2, 1), (1, 3, 1), (2, 3, 1)]).n_vertices < 5 ∧
    ∃ (out_iter out_rec : List Nat) (visited' : List Bool),
      graph_dfs_iter 5 (mk_graph 4 [(0, 1, 1), (0, 2, 1), (1, 3, 1), (2, 3, 1)]) 0 =
        .ret (SUCCESS, out_iter) ∧
      graph_dfs_visit (mk_graph 4 [(0, 1, 1), (0, 2, 1), (1, 3, 1), (2, 3, 1)]) 5 0
        ((List.replicate (mk_graph 4 [(0, 1, 1), (0, 2, 1), (1, 3, 1), (2, 3, 1)]).n_vertices
          false).set 0 true) [] = .ret (SUCCESS, visited', out_rec) ∧
      out_iter.Perm out_rec ∧ out_iter.Nodup ∧
      out_iter.head? = some 0 ∧ out_rec.head? = some 0 ∧
      ∀ v, v ∈ out_iter ↔ reach (mk_graph 4 [(0, 1, 1), (0, 2, 1), (1, 3, 1), (2, 3, 1)]) 0 v :=
  ⟨by decide, by decide, by decide,
    graph_dfs_iter_same_vertices (mk_graph 4 [(0, 1, 1), (0, 2, 1), (1, 3, 1), (2, 3, 1)]) 0 5
      (by decide) (by decide) (by decide)⟩

/-- C5: on a well-formed graph, from a valid start and with enough fuel,
`graph_spanning_tree` returns `SUCCESS` and a graph in which every edge stored
at a vertex `i` has, in the source graph, an edge of vertex `i` with the same
target and the same weight. -/
theorem graph_spanning_tree_edges_from_source (g : graph_t) (start fuel : Nat) (hg : g.wf)
    (hs : start < g.n_vertices) (hf : g.n_vertices < fuel) :
    ∃ tree, graph_spanning_tree fuel g start = .ret (SUCCESS, tree) ∧
      ∀ (i : Nat) (e : edge_t), e ∈ (vertex_of tree (i : Int)).edges →
        ∃ e' ∈ (vertex_of g (i : Int)).edges, e'.to_ = e.to_ ∧ e'.weight = e.weight := by
  obtain ⟨r, tree0, P, h1, h2, h3, h4, hrun⟩ := graph_spanning_tree_run hg hs hf
  refine ⟨_, hrun, fun i e he => ?_⟩
  obtain ⟨b, w, hT, rfl⟩ := (tree_edges_iff h1 h2 h3 h4 i e).1 he
  have hsucc := P.tree_edge _ hT
  rw [succs_eq] at hsucc
  obtain ⟨e', he', heq⟩ := List.mem_map.1 hsucc
  simp only [Prod.mk.injEq] at heq
  refine ⟨e', he', ?_, heq.2⟩
  have := (wf_edges hg _ e' he').1
  show e'.to_ = (b : Int)
  rw [← heq.1]
  exact (Int.toNat_of_nonneg this).symm

theorem graph_spanning_tree_edges_from_source_witness :
    (mk_graph 4 [(0, 1, 1), (0, 2, 5), (1, 3, 1), (2, 3, 7)]).wf ∧
    0 < (mk_graph 4 [(0, 1, 1), (0, 2, 5), (1, 3, 1), (2, 3, 7)]).n_vertices ∧
    (mk_graph 4 [(0, 1, 1), (0, 2, 5), (1, 3, 1), (2, 3, 7)]).n_vertices < 5 ∧
    ∃ tree, graph_spanning_tree 5 (mk_graph 4 [(0, 1, 1), (0, 2, 5), (1, 3, 1), (2, 3, 7)]) 0 =
        .ret (SUCCESS, tree) ∧
      ∀ (i : Nat) (e : edge_t), e ∈ (vertex_of tree (i : Int)).edges →
        ∃ e' ∈ (vertex_of (mk_graph 4 [(0, 1, 1), (0, 2, 5), (1, 3, 1), (2, 3, 7)]) (i : Int)).edges,
          e'.to_ = e.to_ ∧ e'.weight = e.weight :=
  ⟨by decide, by decide, by decide,
    graph_spanning_tree_edges_from_source
      (mk_graph 4 [(0, 1, 1), (0, 2, 5), (1, 3, 1), (2, 3, 7)]) 0 5
      (by decide) (by decide) (by decide)⟩

/-- C6: on a well-formed graph, from a valid start and with enough fuel, the
graph returned by `graph_spanning_tree` is a tree rooted at `start` spanning
exactly the vertices reachable from `start` in the source: `start` has no
incoming edge; every other reachable vertex has exactly one incoming edge and
is reachable from `start` in the result; a vertex not reachable from `start`
has no incoming and no outgoing edge; only reachable vertices are reachable in
the result; and the result has no cycle. -/
theorem graph_spanning_tree_is_tree (g : graph_t) (start fuel : Nat) (hg : g.wf)
    (hs : start < g.n_vertices) (hf : g.n_vertices < fuel) :
    ∃ tree, graph_spanning_tree fuel g start = .ret (SUCCESS, tree) ∧
      in_degree tree start = 0 ∧
      (∀ v, v ≠ start → reach g start v → in_degree tree v = 1 ∧ reach tree start v) ∧
      (∀ v, ¬ reach g start v → in_degree tree v = 0 ∧ (vertex_of tree (v : Int)).edges = []) ∧
      (∀ v, reach tree start v → reach g start v) ∧
      (∀ v, ¬ Relation.TransGen (adj tree) v v) := by
  obtain ⟨r, tree0, P, h1, h2, h3, h4, hrun⟩ := graph_spanning_tree_run hg hs hf
  have hdeg : ∀ v, in_degree (add_edges tree0 r.tree) v = r.pre.count v := by
    intro v
    rw [add_edges_in_degree r.tree tree0 (by rw [h1, h2]) (by rw [h1]; exact h4) v,
      in_degree_no_edges h3, P.tree_tgt]
    omega
  have hadj := tree_adj_iff h1 h2 h3 h4 (T := r.tree)
  have hnd := dfs_post_nodup P
  have hmem := dfs_post_mem_iff hg P
  have hsrc : ∀ e ∈ r.tree, e.1 ∈ start :: r.pre := by
    intro e he
    obtain ⟨l₁, l₂, l₃, hl⟩ := P.tree_order e he
    rw [hl]; simp
  refine ⟨_, hrun, ?_, ?_, ?_, ?_, ?_⟩
  · rw [hdeg]
    exact List.count_eq_zero_of_not_mem (List.nodup_cons.1 hnd).1
  · intro v hv hr
    have hvp : v ∈ r.pre := by
      rcases List.mem_cons.1 ((hmem v).2 hr) with h | h
      · exact absurd h hv
      · exact h
    refine ⟨by rw [hdeg]; exact List.count_eq_one_of_mem P.pre_nodup hvp, ?_⟩
    exact Relation.ReflTransGen.mono (fun a b h => (hadj a b).2 h) (P.tree_reach v hvp)
  · intro v hv
    refine ⟨?_, ?_⟩
    · rw [hdeg]
      exact List.count_eq_zero_of_not_mem fun h => hv ((hmem v).1 (List.mem_cons_of_mem _ h))
    · apply List.eq_nil_iff_forall_not_mem.2
      intro e he
      obtain ⟨b, w, hT, _⟩ := (tree_edges_iff h1 h2 h3 h4 v e).1 he
      exact hv ((hmem v).1 (hsrc _ hT))
  · intro v hv
    exact Relation.ReflTransGen.mono
      (fun a b h => tadj_adj hg P.tree_edge ((hadj a b).1 h)) hv
  · intro v hc
    have key : ∀ a b, Relation.TransGen (adj (add_edges tree0 r.tree)) a b →
        (start :: r.pre).indexOf a < (start :: r.pre).indexOf b := by
      intro a b hab
      induction hab with
      | single h =>
        obtain ⟨w, hw⟩ := (hadj _ _).1 h
        exact before_index hnd (P.tree_order _ hw)
      | tail _ h ih =>
        obtain ⟨w, hw⟩ := (hadj _ _).1 h
        exact lt_trans ih (before_index hnd (P.tree_order _ hw))
    exact absurd (key v v hc) (lt_irrefl _)

theorem graph_spanning_tree_is_tree_witness :
    (mk_graph 5 [(0, 1, 1), (0, 2, 5), (1, 3, 1), (2, 3, 7), (3, 0, 2)]).wf ∧
    0 < (mk_graph 5 [(0, 1, 1), (0, 2, 5), (1, 3, 1), (2, 3, 7), (3, 0, 2)]).n_vertices ∧
    (mk_graph 5 [(0, 1, 1), (0, 2, 5), (1, 3, 1), (2, 3, 7), (3, 0, 2)]).n_vertices < 6 ∧
    ∃ tree,
      graph_spanning_tree 6 (mk_graph 5 [(0, 1, 1), (0, 2, 5), (1, 3, 1), (2, 3, 7), (3, 0, 2)]) 0 =
        .ret (SUCCESS, tree) ∧
      in_degree tree 0 = 0 ∧
      (∀ v, v ≠ 0 → reach (mk_graph 5 [(0, 1, 1), (0, 2, 5), (1, 3, 1), (2, 3, 7), (3, 0, 2)]) 0 v →
        in_degree tree v = 1 ∧ reach tree 0 v) ∧
      (∀ v, ¬ reach (mk_graph 5 [(0, 1, 1), (0, 2, 5), (1, 3, 1), (2, 3, 7), (3, 0, 2)]) 0 v →
        in_degree tree v = 0 ∧ (vertex_of tree (v : Int)).edges = []) ∧
      (∀ v, reach tree 0 v →
        reach (mk_graph 5 [(0, 1, 1), (0, 2, 5), (1, 3, 1), (2, 3, 7), (3, 0, 2)]) 0 v) ∧
      (∀ v, ¬ Relation.TransGen (adj tree) v v) :=
  ⟨by decide, by decide, by decide,
    graph_spanning_tree_is_tree
      (mk_graph 5 [(0, 1, 1), (0, 2, 5), (1, 3, 1), (2, 3, 7), (3, 0, 2)]) 0 6
      (by decide) (by decide) (by decide)⟩

/-- C11: on a well-formed graph, from a valid start and with enough fuel,
`graph_dfs_iter` returns `SUCCESS` and prints exactly the vertices reachable
from `start`, each once; no unreachable vertex is printed. -/
theorem graph_dfs_iter_visits_reachable (g : graph_t) (start fuel : Nat) (hg : g.wf)
    (hs : start < g.n_vertices) (hf : g.n_vertices < fuel) :
    ∃ out, graph_dfs_iter fuel g start = .ret (SUCCESS, out) ∧ out.Nodup ∧
      ∀ v, v ∈ out ↔ reach g start v := by
  obtain ⟨out, h1, I⟩ := graph_dfs_iter_run hg hs hf
  have hcl : ∀ u ∈ out, ∀ x, adj g u x → x ∈ out := fun u hu x hux => by
    simpa using I.closed u hu x hux
  refine ⟨out, h1, by simpa using I.nodup, fun v => ⟨fun hv => ?_, fun hv => ?_⟩⟩
  · exact I.rch v (by simpa using hv)
  · exact closed_reach hcl (by simpa using I.start) hv

theorem graph_dfs_iter_visits_reachable_witness :
    (mk_graph 4 [(0, 1, 1), (1, 0, 1), (2, 3, 1)]).wf ∧
    0 < (mk_graph 4 [(0, 1, 1), (1, 0, 1), (2, 3, 1)]).n_vertices ∧
    (mk_graph 4 [(0, 1, 1), (1, 0, 1), (2, 3, 1)]).n_vertices < 5 ∧
    ∃ out, graph_dfs_iter 5 (mk_graph 4 [(0, 1, 1), (1, 0, 1), (2, 3, 1)]) 0 =
        .ret (SUCCESS, out) ∧ out.Nodup ∧
      ∀ v, v ∈ out ↔ reach (mk_graph 4 [(0, 1, 1), (1, 0, 1), (2, 3, 1)]) 0 v :=
  ⟨by decide, by decide, by decide,
    graph_dfs_iter_visits_reachable (mk_graph 4 [(0, 1, 1), (1, 0, 1), (2, 3, 1)]) 0 5
      (by decide) (by decide) (by decide)⟩

/-- C12: for every graph and every index `i < n_vertices`, `graph_get_vertex`
succeeds and `graph_vertex_index` of the returned pointer is `i`; for a
pointer below or beyond the vertex array `graph_vertex_index` returns
`ENOTFOUND`. -/
theorem graph_vertex_index_get_vertex (g : graph_t) :
    (∀ i : Nat, i < g.n_vertices →
      ∃ v, graph_get_vertex g i = (SUCCESS, some v) ∧ graph_vertex_index g v = (i : Int)) ∧
    (∀ p : Int, p < 0 ∨ (g.n_vertices : Int) ≤ p → graph_vertex_index g p = ENOTFOUND) := by
  constructor
  · intro i hi
    refine ⟨(i : Int), get_vertex_ok hi, vertex_index_ok (Int.ofNat_nonneg i) ?_⟩
    exact_mod_cast hi
  · intro p hp
    unfold graph_vertex_index
    simp only []
    rw [if_pos]
    rcases hp with h | h
    · exact Or.inl h
    · exact Or.inr h

theorem graph_vertex_index_get_vertex_witness :
    (2 : Nat) < (mk_graph 3 []).n_vertices ∧
    (∃ v, graph_get_vertex (mk_graph 3 []) 2 = (SUCCESS, some v) ∧
      graph_vertex_index (mk_graph 3 []) v = ((2 : Nat) : Int)) ∧
    (((3 : Int) < 0 ∨ ((mk_graph 3 []).n_vertices : Int) ≤ 3) ∧
      graph_vertex_index (mk_graph 3 []) 3 = ENOTFOUND) ∧
    (((-1 : Int) < 0 ∨ ((mk_graph 3 []).n_vertices : Int) ≤ -1) ∧
      graph_vertex_index (mk_graph 3 []) (-1) = ENOTFOUND) :=
  ⟨by decide,
    (graph_vertex_index_get_vertex (mk_graph 3 [])).1 2 (by decide),
    ⟨by decide, (graph_vertex_index_get_vertex (mk_graph 3 [])).2 3 (by decide)⟩,
    ⟨by decide, (graph_vertex_index_get_vertex (mk_graph 3 [])).2 (-1) (by decide)⟩⟩

/-- C15: with allocation succeeding, `graph_add_edge` returns `EINDEX` exactly
when `from` or `to` is not below `n_vertices`, and a call that returns `EINDEX`
leaves the graph as it was. -/
theorem graph_add_edge_eindex (g : graph_t) (from_ to_ : Nat) (w : Rat) :
    ((graph_add_edge g from_ to_ w).1 = EINDEX ↔
      (from_ ≥ g.n_vertices ∨ to_ ≥ g.n_vertices)) ∧
    ((graph_add_edge g from_ to_ w).1 = EINDEX → (graph_add_edge g from_ to_ w).2 = g) := by
  unfold graph_add_edge
  by_cases hc : from_ ≥ g.n_vertices ∨ to_ ≥ g.n_vertices
  · rw [if_pos hc]
    exact ⟨⟨fun _ => hc, fun _ => rfl⟩, fun _ => rfl⟩
  · rw [if_neg hc]
    have hne : ¬ (SUCCESS = EINDEX) := by decide
    exact ⟨⟨fun h => absurd h hne, fun h => absurd h hc⟩, fun h => absurd h hne⟩

theorem graph_add_edge_eindex_witness :
    (graph_add_edge (mk_graph 2 [(0, 1, 1)]) 1 2 3).1 = EINDEX ∧
    (graph_add_edge (mk_graph 2 [(0, 1, 1)]) 1 2 3).2 = mk_graph 2 [(0, 1, 1)] :=
  ⟨by decide,
    (graph_add_edge_eindex (mk_graph 2 [(0, 1, 1)]) 1 2 3).2 (by decide)⟩

/-- C13: on a graph whose vertex array has `n_vertices` entries, after a
successful `graph_add_edge(g, from, to, w)` the call
`graph_is_vertex_adjacent(g, from, to, &x)` returns 1 and stores `w` in `x`,
whatever edges `from` already had (with a `NULL` weight pointer it returns 1
and stores nothing). -/
theorem graph_is_vertex_adjacent_after_add (g : graph_t) (from_ to_ : Nat) (w x : Rat)
    (hl : g.vertices.length = g.n_vertices)
    (hsucc : (graph_add_edge g from_ to_ w).1 = SUCCESS) :
    graph_is_vertex_adjacent (graph_add_edge g from_ to_ w).2 from_ to_ (some x) = (1, some w) ∧
    graph_is_vertex_adjacent (graph_add_edge g from_ to_ w).2 from_ to_ none = (1, none) := by
  have h := get_edge_after_add hl hsucc
  have hne : ¬ (SUCCESS = EINDEX) := by decide
  unfold graph_is_vertex_adjacent
  simp only [h, hne, if_false, and_self]

theorem graph_is_vertex_adjacent_after_add_witness :
    (mk_graph 3 [(0, 1, 7), (0, 2, 4), (0, 1, 9)]).vertices.length =
      (mk_graph 3 [(0, 1, 7), (0, 2, 4), (0, 1, 9)]).n_vertices ∧
    (graph_add_edge (mk_graph 3 [(0, 1, 7), (0, 2, 4), (0, 1, 9)]) 0 1 5).1 = SUCCESS ∧
    graph_is_vertex_adjacent
      (graph_add_edge (mk_graph 3 [(0, 1, 7), (0, 2, 4), (0, 1, 9)]) 0 1 5).2 0 1 (some 0) =
        (1, some 5) ∧
    graph_is_vertex_adjacent
      (graph_add_edge (mk_graph 3 [(0, 1, 7), (0, 2, 4), (0, 1, 9)]) 0 1 5).2 0 1 none =
        (1, none) :=
  ⟨by decide, by decide,
    graph_is_vertex_adjacent_after_add (mk_graph 3 [(0, 1, 7), (0, 2, 4), (0, 1, 9)]) 0 1 5 0
      (by decide) (by decide)⟩

/-- C14: on a graph whose vertex array has `n_vertices` entries, a successful
`graph_add_edge(g, from, to, w)` puts the edge `(to, w)` in front of the edge
list of `from` and changes nothing else: the other edge lists, all labels and
the vertex count are as before. Hence after a series of additions the edge
list of a vertex is its additions in reverse order of insertion, parallel
edges included, followed by the edges it had before. -/
theorem graph_add_edge_prepends (g : graph_t) (from_ to_ : Nat) (w : Rat)
    (hl : g.vertices.length = g.n_vertices)
    (hsucc : (graph_add_edge g from_ to_ w).1 = SUCCESS) :
    (vertex_of (graph_add_edge g from_ to_ w).2 (from_ : Int)).edges =
      ⟨(to_ : Int), w⟩ :: (vertex_of g (from_ : Int)).edges ∧
    (∀ x : Nat, x ≠ from_ →
      (vertex_of (graph_add_edge g from_ to_ w).2 (x : Int)).edges =
        (vertex_of g (x : Int)).edges) ∧
    (∀ x : Nat, (vertex_of (graph_add_edge g from_ to_ w).2 (x : Int)).label =
      (vertex_of g (x : Int)).label) ∧
    (graph_add_edge g from_ to_ w).2.n_vertices = g.n_vertices ∧
    (graph_add_edge g from_ to_ w).2.vertices.length = g.vertices.length ∧
    (∀ T : List (Nat × Nat × Rat), (∀ e ∈ T, e.1 < g.n_vertices ∧ e.2.1 < g.n_vertices) →
      ∀ x : Nat, (vertex_of (add_edges g T) (x : Int)).edges =
        ((T.filter fun e => decide (e.1 = x)).reverse.map
          fun e => (⟨(e.2.1 : Int), e.2.2⟩ : edge_t)) ++ (vertex_of g (x : Int)).edges) := by
  obtain ⟨ha, hb⟩ := add_edge_success hsucc
  refine ⟨?_, fun x hx => ?_, fun x => add_edge_label _ _ _ x, add_edge_n _ _ _ _,
    add_edge_len _ _ _ _, fun T hT x => add_edges_edges_eq T g hl hT x⟩
  · rw [add_edge_edges hl ha hb, if_pos rfl]
  · rw [add_edge_edges hl ha hb, if_neg hx]

theorem graph_add_edge_prepends_witness :
    (mk_graph 3 [(0, 1, 7), (1, 2, 4)]).vertices.length =
      (mk_graph 3 [(0, 1, 7), (1, 2, 4)]).n_vertices ∧
    (graph_add_edge (mk_graph 3 [(0, 1, 7), (1, 2, 4)]) 0 1 5).1 = SUCCESS ∧
    (vertex_of (graph_add_edge (mk_graph 3 [(0, 1, 7), (1, 2, 4)]) 0 1 5).2 ((0 : Nat) : Int)).edges =
      ⟨((1 : Nat) : Int), 5⟩ :: (vertex_of (mk_graph 3 [(0, 1, 7), (1, 2, 4)]) ((0 : Nat) : Int)).edges ∧
    (vertex_of (add_edges (mk_graph 3 [(0, 1, 7), (1, 2, 4)]) [(0, 2, 1), (1, 0, 2), (0, 2, 3)])
        ((0 : Nat) : Int)).edges =
      [⟨2, 3⟩, ⟨2, 1⟩, ⟨1, 7⟩] :=
  ⟨by decide, by decide,
    (graph_add_edge_prepends (mk_graph 3 [(0, 1, 7), (1, 2, 4)]) 0 1 5 (by decide) (by decide)).1,
    by decide⟩

/-- C18: on a well-formed graph, from a valid start and with enough fuel,
`graph_spanning_tree` returns a graph with the `n_vertices` of the source in
which vertex `i` carries the first 100 characters of the label of source
vertex `i` (no label where the source has none); hence, labels having at most
100 characters as `graph_set_label` stores them, the same label. -/
theorem graph_spanning_tree_labels_copied (g : graph_t) (start fuel : Nat) (hg : g.wf)
    (hs : start < g.n_vertices) (hf : g.n_vertices < fuel) (hlab : labels_ok g) :
    ∃ tree, graph_spanning_tree fuel g start = .ret (SUCCESS, tree) ∧
      tree.n_vertices = g.n_vertices ∧
      (∀ i : Nat, (vertex_of tree (i : Int)).label =
        (vertex_of g (i : Int)).label.map fun s => s.take 100) ∧
      (∀ i : Nat, (vertex_of tree (i : Int)).label = (vertex_of g (i : Int)).label) := by
  obtain ⟨r, hrun⟩ := graph_spanning_tree_run_labels hg hs hf
  have hkey : ∀ i : Nat, (vertex_of (add_edges (graph_spanning_tree_labels g
      (List.range g.n_vertices) ⟨g.n_vertices, List.replicate g.n_vertices ⟨none, []⟩⟩) r.tree)
      (i : Int)).label = (vertex_of g (i : Int)).label.map fun s => s.take 100 := by
    intro i
    rw [add_edges_label, spanning_labels_label g _ _ (by simp)]
    by_cases hi : i < g.n_vertices
    · rw [if_pos ⟨List.mem_range.2 hi, hi⟩]
    · rw [if_neg (fun h => hi h.2)]
      have h1 : (vertex_of g (i : Int)).label = none := by
        unfold vertex_of
        rw [List.getD_eq_getElem?_getD, Int.toNat_natCast,
          List.getElem?_eq_none (by rw [hg.1]; omega)]
        rfl
      have h2 : (vertex_of (⟨g.n_vertices, List.replicate g.n_vertices ⟨none, []⟩⟩ : graph_t)
          (i : Int)).label = none := by
        unfold vertex_of
        rw [List.getD_eq_getElem?_getD, Int.toNat_natCast,
          List.getElem?_eq_none (by simp; omega)]
        rfl
      rw [h1, h2]
      rfl
  refine ⟨_, hrun, ?_, hkey, fun i => ?_⟩
  · rw [add_edges_n, (spanning_labels_shape g _ _).1]
  · rw [hkey i, labels_ok_take hlab]

theorem graph_spanning_tree_labels_copied_witness :
    (graph_set_label (mk_graph 3 [(0, 1, 1), (1, 2, 1)]) 1 (some ['a', 'b'])).2.wf ∧
    0 < (graph_set_label (mk_graph 3 [(0, 1, 1), (1, 2, 1)]) 1 (some ['a', 'b'])).2.n_vertices ∧
    (graph_set_label (mk_graph 3 [(0, 1, 1), (1, 2, 1)]) 1 (some ['a', 'b'])).2.n_vertices < 4 ∧
    labels_ok (graph_set_label (mk_graph 3 [(0, 1, 1), (1, 2, 1)]) 1 (some ['a', 'b'])).2 ∧
    ∃ tree,
      graph_spanning_tree 4
        (graph_set_label (mk_graph 3 [(0, 1, 1), (1, 2, 1)]) 1 (some ['a', 'b'])).2 0 =
        .ret (SUCCESS, tree) ∧
      tree.n_vertices =
        (graph_set_label (mk_graph 3 [(0, 1, 1), (1, 2, 1)]) 1 (some ['a', 'b'])).2.n_vertices ∧
      (∀ i : Nat, (vertex_of tree (i : Int)).label =
        (vertex_of (graph_set_label (mk_graph 3 [(0, 1, 1), (1, 2, 1)]) 1 (some ['a', 'b'])).2
          (i : Int)).label.map fun s => s.take 100) ∧
      (∀ i : Nat, (vertex_of tree (i : Int)).label =
        (vertex_of (graph_set_label (mk_graph 3 [(0, 1, 1), (1, 2, 1)]) 1 (some ['a', 'b'])).2
          (i : Int)).label) :=
  ⟨by decide, by decide, by decide, by decide,
    graph_spanning_tree_labels_copied
      (graph_set_label (mk_graph 3 [(0, 1, 1), (1, 2, 1)]) 1 (some ['a', 'b'])).2 0 4
      (by decide) (by decide) (by decide) (by decide)⟩

/-- C16 (fails on the code): with a start index that is not below
`n_vertices`, `graph_bfs` and `graph_dfs_iter` return `EINDEX`, but `graph_dfs`
and `graph_toposort` first write `visited[start]` outside the array they
allocated; only past that write do their visits return `EINDEX`. On the
one-vertex graph with start 1000000000: -/
theorem graph_dfs_toposort_write_before_check :
    graph_bfs 3 (mk_graph 1 []) 1000000000 = .ret (EINDEX, []) ∧
    graph_dfs_iter 3 (mk_graph 1 []) 1000000000 = .ret (EINDEX, []) ∧
    graph_dfs 3 (mk_graph 1 []) 1000000000 = .fault ∧
    graph_toposort 3 (mk_graph 1 []) 1000000000 = .fault ∧
    graph_dfs_visit (mk_graph 1 []) 3 1000000000 [false] [] = .ret (EINDEX, [false], []) ∧
    graph_toposort_visit (mk_graph 1 []) 3 1000000000 [false] ⟨0, []⟩ =
      .ret (EINDEX, [false], ⟨0, []⟩) := by
  decide

/-- C17 (fails on the code): with a start index that is not below `n_vertices`,
`graph_spanning_tree` writes `visited[start]` outside the array it allocated,
and `graph_spanning_tree_visit` then fails its `assert(rc == SUCCESS)` on the
result of `graph_get_vertex`: the call does not return `EINDEX`. On the
one-vertex graph with start 1: -/
theorem graph_spanning_tree_invalid_start_aborts :
    graph_spanning_tree 3 (mk_graph 1 []) 1 = .fault ∧
    graph_get_vertex (mk_graph 1 []) 1 = (EINDEX, none) ∧
    graph_spanning_tree_visit (mk_graph 1 []) 3 1 [false] (mk_graph 1 []) [] = .abort := by
  decide

/-- C19 (as stated, fails): after 2^32 calls of `vlist_push` on the empty list
the `unsigned int` field `length` has wrapped to 0 while the list holds 2^32
nodes, so each of the 2^32 calls of `vlist_pop` that follow returns `EEMPTY`,
stores no vertex and leaves the list as it is. -/
theorem vlist_pop_after_wrap :
    ∃ h l, Ptr.push_all ([], (Ptr.vlist_init ⟨0, none, none⟩).2)
          (List.replicate 4294967296 7) = .ret (h, l) ∧
      l.head ≠ none ∧
      Ptr.pop_times 4294967296 (h, l) =
        .ret (List.replicate 4294967296 (EEMPTY, none), h, l) :=
  Ptr.push_all_wraps 4294967296 7 (by norm_num) (by norm_num)

/-- C19 (amended): used as a stack the list is LIFO for fewer than 2^32
vertices: starting from `vlist_init`, pushing `P1 .. Pk` with `k < 2^32` (with
`calloc` succeeding) and then popping `k` times returns `Pk .. P1` in that
order, each pop with `SUCCESS`, and leaves the list empty (length 0, `head`
and `tail` both `NULL`). -/
theorem vlist_stack_lifo (ps : List Int) (h0 : Ptr.heap_t) (l0 : Ptr.vlist_t)
    (hk : ps.length < 4294967296) :
    ∃ h1 l1 h2, Ptr.push_all (h0, (Ptr.vlist_init l0).2) ps = .ret (h1, l1) ∧
      Ptr.pop_times ps.length (h1, l1) =
        .ret (ps.reverse.map (fun p => (SUCCESS, some p)), h2, ⟨0, none, none⟩) := by
  obtain ⟨h1, l1, L, hr, hi, hv⟩ := Ptr.push_all_inv ps h0 _ [] (Ptr.list_inv_init h0 l0)
  have hlen : L.length = ps.length := by
    have := congrArg List.length hv
    simpa using this
  obtain ⟨h2, l2, hr2, hi2⟩ := Ptr.pop_times_eq ps.length h1 l1 L hi (by omega) (by omega)
  have hout : (L.take ps.length).map (fun x => ((SUCCESS, some x.2) : Int × Option Int)) =
      ps.reverse.map (fun p => (SUCCESS, some p)) := by
    have hv' : L.map Prod.snd = ps.reverse := by simpa using hv
    rw [List.take_of_length_le (by omega), ← hv', List.map_map]
    rfl
  have hnil : L.drop ps.length = [] := List.drop_of_length_le (by omega)
  rw [hnil] at hi2
  have hl2 : l2 = ⟨0, none, none⟩ := by
    obtain ⟨len, hd, tl⟩ := l2
    have e1 : len = 0 := hi2.length_eq
    have e2 : hd = none := hi2.head_eq
    have e3 : tl = none := hi2.tail_eq
    rw [e1, e2, e3]
  rw [hout, hl2] at hr2
  exact ⟨h1, l1, h2, hr, hr2⟩

theorem vlist_stack_lifo_witness :
    ([3, 5, 8] : List Int).length < 4294967296 ∧
    ∃ h1 l1 h2, Ptr.push_all ([], (Ptr.vlist_init ⟨7, some 2, none⟩).2) [3, 5, 8] =
        .ret (h1, l1) ∧
      Ptr.pop_times ([3, 5, 8] : List Int).length (h1, l1) =
        .ret (([3, 5, 8] : List Int).reverse.map (fun p => (SUCCESS, some p)), h2,
          ⟨0, none, none⟩) :=
  ⟨by decide, vlist_stack_lifo [3, 5, 8] [] ⟨7, some 2, none⟩ (by decide)⟩

/-- C20 (as stated, fails): 2^32 calls of `vlist_enqueue` on the empty list
followed by one `vlist_dequeue` is a sequence in which no dequeue is issued on
an empty list, yet the dequeue returns `EEMPTY` and no vertex: the `unsigned
int` field `length` has wrapped to 0 while the list holds 2^32 nodes. -/
theorem vlist_dequeue_after_wrap :
    no_underflow 0
        (List.replicate 4294967296 (queue_op.enqueue 7) ++ [queue_op.dequeue]) = true ∧
    ∃ h l, Ptr.run_queue
          (List.replicate 4294967296 (queue_op.enqueue 7) ++ [queue_op.dequeue])
          ([], (Ptr.vlist_init ⟨0, none, none⟩).2) = .ret ([(EEMPTY, none)], h, l) ∧
      l.head ≠ none :=
  Ptr.run_queue_wraps 4294967296 7 (by norm_num) (by norm_num)

/-- C20 (amended): used as a queue the list is FIFO while it holds fewer than
2^32 vertices: starting from `vlist_init`, for every sequence of
`vlist_enqueue` (with `calloc` succeeding) and `vlist_dequeue` calls in which
no dequeue is issued on an empty list and the list never holds 2^32 vertices,
every dequeue returns `SUCCESS` and the `j`-th dequeue returns the `j`-th
enqueued vertex; the list is left with the remaining enqueued vertices, their
number in `length`. -/
theorem vlist_queue_fifo (ops : List queue_op) (h0 : Ptr.heap_t) (l0 : Ptr.vlist_t)
    (hu : no_underflow 0 ops = true) (ho : no_overflow 0 ops = true) :
    ∃ h l, Ptr.run_queue ops (h0, (Ptr.vlist_init l0).2) =
        .ret (((enqueued ops).take (dequeues ops)).map (fun p => (SUCCESS, some p)), h, l) ∧
      Ptr.count_next h h.length l.head =
        .ret ((enqueued ops).drop (dequeues ops)).length ∧
      l.length = ((enqueued ops).drop (dequeues ops)).length := by
  obtain ⟨h, l, L, hr, hi, hb, hv⟩ := Ptr.run_queue_eq ops h0 _ []
    (Ptr.list_inv_init h0 l0) (by simp) hu ho
  simp only [List.map_nil, List.reverse_nil, List.nil_append] at hr hv
  have hlen : L.length = ((enqueued ops).drop (dequeues ops)).length := by
    have := congrArg List.length hv
    simpa using this
  obtain ⟨c1, _, c3, _, _⟩ := Ptr.list_inv_counts hi
  refine ⟨h, l, hr, ?_, ?_⟩
  · rw [c1, hlen]
  · rw [c3, Nat.mod_eq_of_lt hb, hlen]

theorem vlist_queue_fifo_witness :
    no_underflow 0 [.enqueue 4, .enqueue 7, .dequeue, .enqueue 5, .dequeue, .dequeue,
      .enqueue 9] = true ∧
    no_overflow 0 [.enqueue 4, .enqueue 7, .dequeue, .enqueue 5, .dequeue, .dequeue,
      .enqueue 9] = true ∧
    ∃ h l, Ptr.run_queue [.enqueue 4, .enqueue 7, .dequeue, .enqueue 5, .dequeue, .dequeue,
          .enqueue 9] ([], (Ptr.vlist_init ⟨7, some 2, none⟩).2) =
        .ret (((enqueued [.enqueue 4, .enqueue 7, .dequeue, .enqueue 5, .dequeue, .dequeue,
            .enqueue 9]).take
          (dequeues [.enqueue 4, .enqueue 7, .dequeue, .enqueue 5, .dequeue, .dequeue,
            .enqueue 9])).map (fun p => (SUCCESS, some p)), h, l) ∧
      Ptr.count_next h h.length l.head =
        .ret ((enqueued [.enqueue 4, .enqueue 7, .dequeue, .enqueue 5, .dequeue, .dequeue,
            .enqueue 9]).drop
          (dequeues [.enqueue 4, .enqueue 7, .dequeue, .enqueue 5, .dequeue, .dequeue,
            .enqueue 9])).length ∧
      l.length = ((enqueued [.enqueue 4, .enqueue 7, .dequeue, .enqueue 5, .dequeue, .dequeue,
            .enqueue 9]).drop
          (dequeues [.enqueue 4, .enqueue 7, .dequeue, .enqueue 5, .dequeue, .dequeue,
            .enqueue 9])).length :=
  ⟨by decide, by decide,
    vlist_queue_fifo [.enqueue 4, .enqueue 7, .dequeue, .enqueue 5, .dequeue, .dequeue,
      .enqueue 9] [] ⟨7, some 2, none⟩ (by decide) (by decide)⟩


/-- C23: `graph_set_label(g, i, label)` returns `EINDEX` and leaves the graph
as it is when `i` is not below `n_vertices`; otherwise, on a graph whose vertex
array has `n_vertices` entries and with allocation succeeding, it returns
`SUCCESS`, vertex `i` then carries the first 100 characters of `label` (no
label for `NULL`), and the other labels, every edge list and the vertex count
are as before. -/
theorem graph_set_label_effect (g : graph_t) (i : Nat) (label : Option (List Char))
    (hl : g.vertices.length = g.n_vertices) :
    (g.n_vertices ≤ i → graph_set_label g i label = (EINDEX, g)) ∧
    (i < g.n_vertices →
      (graph_set_label g i label).1 = SUCCESS ∧
      (vertex_of (graph_set_label g i label).2 (i : Int)).label =
        label.map (fun s => s.take 100) ∧
      (∀ x : Nat, x ≠ i → (vertex_of (graph_set_label g i label).2 (x : Int)).label =
        (vertex_of g (x : Int)).label) ∧
      (∀ x : Nat, (vertex_of (graph_set_label g i label).2 (x : Int)).edges =
        (vertex_of g (x : Int)).edges) ∧
      (graph_set_label g i label).2.n_vertices = g.n_vertices) := by
  constructor
  · intro hi
    unfold graph_set_label
    rw [if_pos hi]
  · intro hi
    refine ⟨?_, ?_, fun x hx => ?_, fun x => set_label_edges g i label x,
      (set_label_shape g i label).1⟩
    · unfold graph_set_label
      rw [if_neg (by omega)]
      cases label <;> rfl
    · rw [set_label_label hl, if_pos ⟨rfl, hi⟩]
    · rw [set_label_label hl, if_neg (fun h => hx h.1)]

theorem graph_set_label_effect_witness :
    (mk_graph 2 [(0, 1, 1)]).vertices.length = (mk_graph 2 [(0, 1, 1)]).n_vertices ∧
    (1 < (mk_graph 2 [(0, 1, 1)]).n_vertices ∧
      (graph_set_label (mk_graph 2 [(0, 1, 1)]) 1 (some ['x', 'y'])).1 = SUCCESS ∧
      (vertex_of (graph_set_label (mk_graph 2 [(0, 1, 1)]) 1 (some ['x', 'y'])).2
        ((1 : Nat) : Int)).label = (some ['x', 'y']).map (fun s => s.take 100)) ∧
    ((mk_graph 2 [(0, 1, 1)]).n_vertices ≤ 2 ∧
      graph_set_label (mk_graph 2 [(0, 1, 1)]) 2 (some ['x', 'y']) =
        (EINDEX, mk_graph 2 [(0, 1, 1)])) :=
  ⟨by decide,
    ⟨by decide,
      ((graph_set_label_effect (mk_graph 2 [(0, 1, 1)]) 1 (some ['x', 'y']) (by decide)).2
        (by decide)).1,
      ((graph_set_label_effect (mk_graph 2 [(0, 1, 1)]) 1 (some ['x', 'y']) (by decide)).2
        (by decide)).2.1⟩,
    ⟨by decide,
      (graph_set_label_effect (mk_graph 2 [(0, 1, 1)]) 2 (some ['x', 'y']) (by decide)).1
        (by decide)⟩⟩

/-- C24: `graph_num_vertex_with_loops` returns the number of indices
`i < n_vertices` whose vertex has at least one edge whose target is that
vertex itself (each such vertex counted once, however many self-edges it has);
the result is between 0 and `n_vertices`. -/
theorem graph_num_vertex_with_loops_counts (g : graph_t) :
    graph_num_vertex_with_loops g =
      (((List.range g.n_vertices).filter fun i : Nat =>
        decide (∃ e ∈ (vertex_of g (i : Int)).edges, e.to_ = (i : Int))).length : Nat) ∧
    0 ≤ graph_num_vertex_with_loops g ∧
    graph_num_vertex_with_loops g ≤ (g.n_vertices : Int) ∧
    graph_num_vertex_with_loops (mk_graph 3 [(0, 0, 1), (0, 0, 2), (1, 2, 1), (2, 2, 1)]) = 2 := by
  have h : graph_num_vertex_with_loops g =
      (((List.range g.n_vertices).filter fun i : Nat =>
        decide (∃ e ∈ (vertex_of g (i : Int)).edges, e.to_ = (i : Int))).length : Nat) := by
    unfold graph_num_vertex_with_loops
    rw [loops_from_eq]
    simp
  refine ⟨h, ?_, ?_, by decide⟩
  · rw [h]; exact Int.ofNat_nonneg _
  · rw [h]
    have := List.length_filter_le (fun i : Nat =>
      decide (∃ e ∈ (vertex_of g (i : Int)).edges, e.to_ = (i : Int))) (List.range g.n_vertices)
    rw [List.length_range] at this
    exact_mod_cast this

/-- C27 (fails on the code): `graph_bfs` and `graph_dfs_iter` validate the start
index before they touch `visited`, but `graph_dfs`, `graph_toposort` and
`graph_spanning_tree` execute `visited[start] = true` first: with one vertex
and start 1 the write goes to index 1 of an array of one entry. -/
theorem visited_written_before_start_is_checked :
    visited_set (List.replicate (mk_graph 1 []).n_vertices false) 1 true = .fault ∧
    graph_dfs 3 (mk_graph 1 []) 1 = .fault ∧
    graph_toposort 3 (mk_graph 1 []) 1 = .fault ∧
    graph_spanning_tree 3 (mk_graph 1 []) 1 = .fault ∧
    graph_bfs 3 (mk_graph 1 []) 1 = .ret (EINDEX, []) ∧
    graph_dfs_iter 3 (mk_graph 1 []) 1 = .ret (EINDEX, []) := by
  decide

/-- C30: on a well-formed graph (every edge target within the vertex array;
cycles, self-loops and parallel edges allowed), from a valid start, each of
`graph_bfs`, `graph_dfs`, `graph_dfs_iter`, `graph_toposort` and
`graph_spanning_tree` runs to its return with any fuel above `n_vertices`: the
loops and the recursion stop because every step past the first marks a vertex
that was unmarked. -/
theorem graph_algorithms_terminate (g : graph_t) (start fuel : Nat) (hg : g.wf)
    (hs : start < g.n_vertices) (hf : g.n_vertices < fuel) :
    (∃ r, graph_bfs fuel g start = .ret r) ∧
    (∃ r, graph_dfs fuel g start = .ret r) ∧
    (∃ r, graph_dfs_iter fuel g start = .ret r) ∧
    (∃ r, graph_toposort fuel g start = .ret r) ∧
    (∃ r, graph_spanning_tree fuel g start = .ret r) := by
  obtain ⟨o1, _, h1, _⟩ := graph_bfs_run hg hs hf
  obtain ⟨o2, roots, h2, _⟩ := graph_dfs_run hg hs hf
  obtain ⟨o3, h3, _⟩ := graph_dfs_iter_run hg hs hf
  obtain ⟨r4, _, h4⟩ := graph_toposort_run hg hs hf
  obtain ⟨r5, t5, _, _, _, _, _, h5⟩ := graph_spanning_tree_run hg hs hf
  exact ⟨⟨_, h1⟩, ⟨_, h2⟩, ⟨_, h3⟩, ⟨_, h4⟩, ⟨_, h5⟩⟩

theorem graph_algorithms_terminate_witness :
    (mk_graph 3 [(0, 1, 1), (1, 0, 1), (1, 1, 1), (0, 1, 2), (1, 2, 1)]).wf ∧
    0 < (mk_graph 3 [(0, 1, 1), (1, 0, 1), (1, 1, 1), (0, 1, 2), (1, 2, 1)]).n_vertices ∧
    (mk_graph 3 [(0, 1, 1), (1, 0, 1), (1, 1, 1), (0, 1, 2), (1, 2, 1)]).n_vertices < 4 ∧
    ((∃ r, graph_bfs 4 (mk_graph 3 [(0, 1, 1), (1, 0, 1), (1, 1, 1), (0, 1, 2), (1, 2, 1)]) 0 =
        .ret r) ∧
    (∃ r, graph_dfs 4 (mk_graph 3 [(0, 1, 1), (1, 0, 1), (1, 1, 1), (0, 1, 2), (1, 2, 1)]) 0 =
        .ret r) ∧
    (∃ r, graph_dfs_iter 4 (mk_graph 3 [(0, 1, 1), (1, 0, 1), (1, 1, 1), (0, 1, 2), (1, 2, 1)]) 0 =
        .ret r) ∧
    (∃ r, graph_toposort 4 (mk_graph 3 [(0, 1, 1), (1, 0, 1), (1, 1, 1), (0, 1, 2), (1, 2, 1)]) 0 =
        .ret r) ∧
    (∃ r, graph_spanning_tree 4
        (mk_graph 3 [(0, 1, 1), (1, 0, 1), (1, 1, 1), (0, 1, 2), (1, 2, 1)]) 0 = .ret r)) :=
  ⟨by decide, by decide, by decide,
    graph_algorithms_terminate
      (mk_graph 3 [(0, 1, 1), (1, 0, 1), (1, 1, 1), (0, 1, 2), (1, 2, 1)]) 0 4
      (by decide) (by decide) (by decide)⟩

/-- C22 (fails on the code): the by-label functions do not test for `NULL`.
With the label argument `NULL`, and also with a non-`NULL` label when the scan
reaches a vertex that has no label (every vertex after `graph_init`),
`strncmp` reads through a null pointer and no code is returned; the header
promises `ENOTFOUND` for a `NULL` label. The last two conjuncts: a label longer
than 100 characters resolves to a vertex whose label is only its first 100
characters. -/
theorem graph_label_lookup_null_faults :
    graph_get_vertex_lbl
        (graph_set_label (graph_set_label (mk_graph 2 []) 0 (some ['a'])).2 1 (some ['b'])).2
        none = .fault
    ∧ graph_add_edge_lbl
        (graph_set_label (graph_set_label (mk_graph 2 []) 0 (some ['a'])).2 1 (some ['b'])).2
        none (some ['a']) 1 = .fault
    ∧ graph_add_edge_lbl
        (graph_set_label (graph_set_label (mk_graph 2 []) 0 (some ['a'])).2 1 (some ['b'])).2
        (some ['a']) none 1 = .fault
    ∧ graph_get_vertex_lbl (mk_graph 2 []) (some ['a']) = .fault
    ∧ graph_get_vertex_lbl (graph_set_label (mk_graph 2 []) 1 (some ['b'])).2 (some ['b'])
        = .fault
    ∧ graph_get_vertex_lbl
        (graph_set_label (mk_graph 1 []) 0 (some (List.replicate 100 'a'))).2
        (some (List.replicate 101 'a')) = .ret (SUCCESS, some 0)
    ∧ (vertex_of (graph_set_label (mk_graph 1 []) 0 (some (List.replicate 100 'a'))).2 0).label
        ≠ some (List.replicate 101 'a') := by
  decide

/-- C28 (as stated, fails): the header is compared with `strncmp` over the
first 10 (`undirected`) or 8 (`directed`) characters only, so a first line
that merely begins with one of the two words is accepted. The file
`directed graph / 1 0 / a` is read with `SUCCESS`, and
`undirectedly / 2 1 / a / b / a b 1` is read as an undirected graph. -/
theorem graph_from_file_header_prefix_accepted :
    graph_from_file_header "directed graph\n".toList = some false
    ∧ graph_from_file_header "undirectedly\n".toList = some true
    ∧ graph_from_file
        (fun line => if line = "1 0\n".toList then some (1, 0) else none)
        (fun _ => none) ⟨0, []⟩
        (some ["directed graph\n".toList, "1 0\n".toList, "a\n".toList])
      = .ret (SUCCESS, ⟨1, [⟨some ['a'], []⟩]⟩)
    ∧ graph_from_file
        (fun line => if line = "2 1\n".toList then some (2, 1) else none)
        (fun line => if line = "a b 1\n".toList then some (['a'], ['b'], 1) else none) ⟨0, []⟩
        (some ["undirectedly\n".toList, "2 1\n".toList, "a\n".toList, "b\n".toList,
          "a b 1\n".toList])
      = .ret (SUCCESS, ⟨2, [⟨some ['a'], [⟨1, 1⟩]⟩, ⟨some ['b'], [⟨0, 1⟩]⟩]⟩) := by
  decide


/-- C28 (amended): `graph_from_file` decides on the first line without its last
character: a line that begins with `undirected` is taken as undirected, one
that begins with `directed` as directed, whatever follows the word, and for
every first line that begins with neither word `graph_from_file` returns
`EPARSE` and leaves the graph as it is. -/
theorem graph_from_file_header_check (sscanf_ii : List Char → Option (Nat × Nat))
    (sscanf_ssf : List Char → Option (List Char × List Char × Rat))
    (g : graph_t) (line : List Char) (lines : List (List Char)) :
    (("undirected".toList <+: line.dropLast) → graph_from_file_header line = some true) ∧
    (¬ ("undirected".toList <+: line.dropLast) → ("directed".toList <+: line.dropLast) →
      graph_from_file_header line = some false) ∧
    (¬ ("undirected".toList <+: line.dropLast) → ¬ ("directed".toList <+: line.dropLast) →
      graph_from_file sscanf_ii sscanf_ssf g (some (line :: lines)) = .ret (EPARSE, g)) := by
  have e1 : "undirected".toList.take 10 = "undirected".toList := by decide
  have e2 : "directed".toList.take 8 = "directed".toList := by decide
  have n1 : "undirected".toList.length = 10 := by decide
  have n2 : "directed".toList.length = 8 := by decide
  have hu : ("undirected".toList <+: line.dropLast) ↔
      line.dropLast.take 10 = "undirected".toList.take 10 := by
    rw [List.prefix_iff_eq_take, e1, n1]
    exact eq_comm
  have hd : ("directed".toList <+: line.dropLast) ↔
      line.dropLast.take 8 = "directed".toList.take 8 := by
    rw [List.prefix_iff_eq_take, e2, n2]
    exact eq_comm
  rw [hu, hd]
  refine ⟨fun h => ?_, fun h1 h2 => ?_, fun h1 h2 => ?_⟩
  · simp only [graph_from_file_header, if_pos h]
  · simp only [graph_from_file_header, if_neg h1, if_pos h2]
  · have hh : graph_from_file_header line = none := by
      simp only [graph_from_file_header, if_neg h1, if_neg h2]
    simp only [graph_from_file, hh]

theorem graph_from_file_header_check_witness :
    ¬ ("undirected".toList <+: "digraph\n".toList.dropLast) ∧
    ¬ ("directed".toList <+: "digraph\n".toList.dropLast) ∧
    graph_from_file (fun _ => some (1, 0)) (fun _ => none) ⟨0, []⟩
      (some ["digraph\n".toList, "1 0\n".toList, "a\n".toList]) = .ret (EPARSE, ⟨0, []⟩) :=
  ⟨by decide, by decide,
    (graph_from_file_header_check (fun _ => some (1, 0)) (fun _ => none) ⟨0, []⟩
      "digraph\n".toList ["1 0\n".toList, "a\n".toList]).2.2 (by decide) (by decide)⟩


/-- C25 (as stated, fails): the description `directed`, vertices `0`, `1`, edge
lines `0 1 2.5` and `0 1 3.5` is read with `SUCCESS`, and
`graph_is_vertex_adjacent(0, 1)` then reports the weight 3.5 of the later
line, not the weight 2.5 of the edge line `0 1 2.5`. -/
theorem graph_from_file_parallel_edge_weight :
    graph_from_file
        (fun line => if line = "2 2\n".toList then some (2, 2) else none)
        (fun line =>
          if line = "0 1 2.5\n".toList then some (['0'], ['1'], 5 / 2)
          else if line = "0 1 3.5\n".toList then some (['0'], ['1'], 7 / 2)
          else none)
        ⟨0, []⟩
        (some ["directed\n".toList, "2 2\n".toList, "0\n".toList, "1\n".toList,
          "0 1 2.5\n".toList, "0 1 3.5\n".toList])
      = .ret (SUCCESS, ⟨2, [⟨some ['0'], [⟨1, 7 / 2⟩, ⟨1, 5 / 2⟩]⟩, ⟨some ['1'], []⟩]⟩)
    ∧ graph_is_vertex_adjacent
        ⟨2, [⟨some ['0'], [⟨1, 7 / 2⟩, ⟨1, 5 / 2⟩]⟩, ⟨some ['1'], []⟩]⟩ 0 1 (some 0)
      = (1, some (7 / 2))
    ∧ (7 / 2 : Rat) ≠ 5 / 2 := by
  refine ⟨rfl, rfl, ?_⟩
  norm_num

/-- C25 (amended): for a well-formed description (a header accepted as
`undirected` or not, a count line giving the numbers of label and edge lines,
at least one label, every edge line scanning to two labels carried by a
vertex and a weight), `graph_from_file` returns `SUCCESS` with the graph `g0`
of the labels plus the insertions `T` of the edge lines in file order: a line
`a b w` inserts `(i, j, w)` for the vertices `i`, `j` its labels resolve to,
and under `undirected` also `(j, i, w)`; under `directed` nothing else is
inserted. `graph_is_vertex_adjacent(i, j)` returns 1 exactly when there is an
insertion from `i` to `j`, then with the weight of the last such insertion,
and 0 with the weight untouched when there is none. -/
theorem graph_from_file_adjacency (sscanf_ii : List Char → Option (Nat × Nat))
    (sscanf_ssf : List Char → Option (List Char × List Char × Rat))
    (g : graph_t) (header cline : List Char) (label_lines edge_lines extra : List (List Char))
    (undirected : Bool) (g0 : graph_t) (T : List (Nat × Nat × Rat))
    (hh : graph_from_file_header header = some undirected)
    (hc : sscanf_ii cline = some (label_lines.length, edge_lines.length))
    (hnv : label_lines ≠ [])
    (hg0 : g0 = labelled_graph (label_lines.map strip_newline))
    (hok : ∀ line ∈ edge_lines, edge_line_ok sscanf_ssf g0 line = true)
    (hT : T = file_edges sscanf_ssf undirected g0 edge_lines) :
    graph_from_file sscanf_ii sscanf_ssf g
        (some (header :: cline :: (label_lines ++ (edge_lines ++ extra)))) =
      .ret (SUCCESS, add_edges g0 T) ∧
    (∀ (i j : Nat) (w : Rat), (i, j, w) ∈ T ↔
      ∃ line ∈ edge_lines, ∃ a b, sscanf_ssf line = some (a, b, w) ∧
        ((find_label g0 a = some i ∧ find_label g0 b = some j) ∨
         (undirected = true ∧ find_label g0 a = some j ∧ find_label g0 b = some i))) ∧
    ∀ (i j : Nat) (x : Rat),
      (∀ (T1 T2 : List (Nat × Nat × Rat)) (w : Rat), T = T1 ++ (i, j, w) :: T2 →
        (∀ e ∈ T2, ¬ (e.1 = i ∧ e.2.1 = j)) →
        graph_is_vertex_adjacent (add_edges g0 T) i j (some x) = (1, some w)) ∧
      (i < label_lines.length → j < label_lines.length →
        (∀ e ∈ T, ¬ (e.1 = i ∧ e.2.1 = j)) →
        graph_is_vertex_adjacent (add_edges g0 T) i j (some x) = (0, some x)) ∧
      (i < label_lines.length → j < label_lines.length →
        ((graph_is_vertex_adjacent (add_edges g0 T) i j (some x)).1 = 1 ↔
          ∃ w, (i, j, w) ∈ T)) := by
  subst hg0
  subst hT
  have hl : (labelled_graph (label_lines.map strip_newline)).vertices.length =
      (labelled_graph (label_lines.map strip_newline)).n_vertices := by
    simp [labelled_graph]
  have hn : (labelled_graph (label_lines.map strip_newline)).n_vertices =
      label_lines.length := by
    simp [labelled_graph]
  have hlt := file_edges_lt sscanf_ssf undirected
    (labelled_graph (label_lines.map strip_newline)) edge_lines
  refine ⟨graph_from_file_run sscanf_ii sscanf_ssf g header cline label_lines edge_lines
    extra undirected hh hc hnv hok, fun i j w => mem_file_edges _ _ _ i j w _, ?_⟩
  intro i j x
  refine ⟨fun T1 T2 w hd hlast => ?_, fun hi hj hno => ?_, fun hi hj => ?_⟩
  · exact adjacent_add_edges_last hl (labelled_graph_edges _ i) hlt hd hlast x
  · exact adjacent_add_edges_none hl (labelled_graph_edges _ i) hlt (by omega) (by omega) hno x
  · by_cases hex : ∃ e ∈ file_edges sscanf_ssf undirected
        (labelled_graph (label_lines.map strip_newline)) edge_lines, e.1 = i ∧ e.2.1 = j
    · obtain ⟨T1, T2, w, hd, hlast⟩ := exists_last_edge i j _ hex
      rw [adjacent_add_edges_last hl (labelled_graph_edges _ i) hlt hd hlast x]
      exact ⟨fun _ => ⟨w, by rw [hd]; simp⟩, fun _ => rfl⟩
    · have hno : ∀ e ∈ file_edges sscanf_ssf undirected
          (labelled_graph (label_lines.map strip_newline)) edge_lines,
          ¬ (e.1 = i ∧ e.2.1 = j) := fun e he hc => hex ⟨e, he, hc⟩
      rw [adjacent_add_edges_none hl (labelled_graph_edges _ i) hlt (by omega) (by omega) hno x]
      constructor
      · intro hc
        have hne : ¬ ((0 : Int) = 1) := by decide
        exact absurd hc hne
      · rintro ⟨w, hw⟩
        exact absurd ⟨rfl, rfl⟩ (hno (i, j, w) hw)

theorem graph_from_file_adjacency_witness :
    graph_from_file (fun line => if line = "2 1\n".toList then some (2, 1) else none)
        (fun line => if line = "0 1 2.5\n".toList then some (['0'], ['1'], 5 / 2) else none)
        ⟨0, []⟩
        (some ["directed\n".toList, "2 1\n".toList, "0\n".toList, "1\n".toList,
          "0 1 2.5\n".toList]) =
      .ret (SUCCESS, add_edges (labelled_graph [['0'], ['1']]) [(0, 1, 5 / 2)]) ∧
    graph_is_vertex_adjacent (add_edges (labelled_graph [['0'], ['1']]) [(0, 1, 5 / 2)])
      0 1 (some 0) = (1, some (5 / 2)) ∧
    graph_is_vertex_adjacent (add_edges (labelled_graph [['0'], ['1']]) [(0, 1, 5 / 2)])
      1 0 (some 0) = (0, some 0) :=
  have h := graph_from_file_adjacency
    (fun line => if line = "2 1\n".toList then some (2, 1) else none)
    (fun line => if line = "0 1 2.5\n".toList then some (['0'], ['1'], 5 / 2) else none)
    ⟨0, []⟩ "directed\n".toList "2 1\n".toList ["0\n".toList, "1\n".toList]
    ["0 1 2.5\n".toList] [] false (labelled_graph [['0'], ['1']]) [(0, 1, 5 / 2)]
    (by decide) (by decide) (by decide) (by decide) (by decide) rfl
  ⟨h.1, (h.2.2 0 1 0).1 [] [] (5 / 2) rfl (by simp),
    (h.2.2 1 0 0).2.1 (by decide) (by decide) (by decide)⟩

/-- C26: when the file opens and its count line scans to `nv` vertices and
`ne` edges while fewer than `nv + ne` lines follow the count line (so `ne`
exceeds the number of lines left after the `nv` labels), `graph_from_file`
returns `EPARSE`, whatever the header and the other lines are. -/
theorem graph_from_file_too_few_lines (sscanf_ii : List Char → Option (Nat × Nat))
    (sscanf_ssf : List Char → Option (List Char × List Char × Rat))
    (g : graph_t) (header cline : List Char) (rest : List (List Char)) (nv ne : Nat)
    (hc : sscanf_ii cline = some (nv, ne)) (hlt : rest.length < nv + ne) :
    ∃ g', graph_from_file sscanf_ii sscanf_ssf g (some (header :: cline :: rest)) =
      .ret (EPARSE, g') := by
  have h1 : ¬ (SUCCESS = ENOMEM) := by decide
  have h2 : ¬ (SUCCESS = EINVAL) := by decide
  cases hh : graph_from_file_header header with
  | none => exact ⟨g, by simp only [graph_from_file, hh]⟩
  | some undirected =>
    by_cases hn : nv = 0
    · exact ⟨g, by simp only [graph_from_file, hh, hc, if_pos hn]⟩
    · by_cases hshort : rest.length < nv
      · obtain ⟨g', rest', hlab⟩ := graph_from_file_labels_short rest (List.range nv)
          ⟨nv, List.replicate nv ⟨none, []⟩⟩ (by simpa using hshort)
        exact ⟨g', by simp only [graph_from_file, hh, hc, if_neg hn, graph_init, if_neg h1,
          if_neg h2, hlab]⟩
      · have hsplit : rest = rest.take nv ++ rest.drop nv := (List.take_append_drop nv rest).symm
        have hlen : (rest.take nv).length = nv := by simp; omega
        have hlab := graph_from_file_labels_init (rest.take nv) (rest.drop nv)
        rw [hlen, ← hsplit] at hlab
        obtain ⟨g', hg'⟩ := graph_from_file_edges_short sscanf_ssf undirected (rest.drop nv) ne
          (labelled_graph ((rest.take nv).map strip_newline))
          (labelled_graph_all_labelled _) (by simp; omega)
        exact ⟨g', by simp only [graph_from_file, hh, hc, if_neg hn, graph_init, if_neg h1,
          if_neg h2, hlab, hg']⟩

theorem graph_from_file_too_few_lines_witness :
    (fun line : List Char => if line = "2 1\n".toList then some (2, 1) else none)
        "2 1\n".toList = some (2, 1) ∧
    ["a\n".toList, "b\n".toList].length < 2 + 1 ∧
    ∃ g', graph_from_file (fun line => if line = "2 1\n".toList then some (2, 1) else none)
        (fun _ => none) ⟨0, []⟩
        (some ["directed\n".toList, "2 1\n".toList, "a\n".toList, "b\n".toList]) =
      .ret (EPARSE, g') :=
  ⟨by decide, by decide,
    graph_from_file_too_few_lines
      (fun line => if line = "2 1\n".toList then some (2, 1) else none)
      (fun _ => none) ⟨0, []⟩ "directed\n".toList "2 1\n".toList
      ["a\n".toList, "b\n".toList] 2 1 (by decide) (by decide)⟩


/-- C29 (as stated, fails): after 2^32 calls of `vlist_insert_head` on the list
from `vlist_init`, the traversals from `head` and from `tail` both pass 2^32
nodes while the `unsigned int` field `length` has wrapped to 0, and `head` and
`tail` are not `NULL` although `length` is 0. -/
theorem vlist_length_wraps :
    ∃ h l, Ptr.run_ops (List.replicate 4294967296 (Ptr.op.insert_head 7 true))
          ([], (Ptr.vlist_init ⟨0, none, none⟩).2) = .ret (h, l) ∧
      Ptr.count_next h h.length l.head = .ret 4294967296 ∧
      Ptr.count_prev h h.length l.tail = .ret 4294967296 ∧
      l.length = 0 ∧ l.head ≠ none ∧ l.tail ≠ none :=
  Ptr.run_ops_wraps 4294967296 7 (by norm_num) (by norm_num)

/-- C29 (amended): on the doubly linked representation, starting from
`vlist_init` and running any sequence of calls of `vlist_insert_head`,
`vlist_insert_tail` (with `calloc` succeeding or failing), `vlist_remove_head`,
`vlist_remove_tail`, `vlist_peek_head` and `vlist_peek_tail`, every call
returns, and afterwards the traversal from `head` along `next` and the
traversal from `tail` along `prev` both end after the same number `n` of
nodes, `length` is `n` modulo 2^32 (so it is `n` whenever the list holds fewer
than 2^32 nodes), and `head` and `tail` are each `NULL` exactly when `n` is
0. -/
theorem vlist_length_counts_nodes (ops : List Ptr.op) (h0 : Ptr.heap_t) (l0 : Ptr.vlist_t) :
    ∃ h l n, Ptr.run_ops ops (h0, (Ptr.vlist_init l0).2) = .ret (h, l) ∧
      Ptr.count_next h h.length l.head = .ret n ∧
      Ptr.count_prev h h.length l.tail = .ret n ∧
      l.length = n % 4294967296 ∧
      (l.head = none ↔ n = 0) ∧ (l.tail = none ↔ n = 0) := by
  obtain ⟨h, l, L, hr, hi⟩ := Ptr.run_ops_inv ops h0 (Ptr.vlist_init l0).2 []
    (Ptr.list_inv_init h0 l0)
  exact ⟨h, l, L.length, hr, Ptr.list_inv_counts hi⟩

theorem vlist_length_counts_nodes_witness :
    ∃ h l n, Ptr.run_ops
        [Ptr.op.insert_head 5 true, Ptr.op.insert_tail 7 true, Ptr.op.peek_head,
          Ptr.op.insert_head 9 true, Ptr.op.remove_tail, Ptr.op.peek_tail,
          Ptr.op.insert_tail 4 false, Ptr.op.remove_head]
        ([], (Ptr.vlist_init ⟨3, some 1, none⟩).2) = .ret (h, l) ∧
      Ptr.count_next h h.length l.head = .ret n ∧
      Ptr.count_prev h h.length l.tail = .ret n ∧
      l.length = n % 4294967296 ∧
      (l.head = none ↔ n = 0) ∧ (l.tail = none ↔ n = 0) :=
  vlist_length_counts_nodes _ [] ⟨3, some 1, none⟩


end LibGraph
